import Mathlib

/-! # Job-shop scheduling metaheuristics: a verification development

A shallow embedding of the four programs of the repository (ant-colony,
genetic, simulated-annealing and tabu search over one shared makespan
evaluator) together with theorems about them.

Conventions of the embedding.
* A `vector<T>` is a `List T`; an index is the `int` the source computes, and an
  access outside `[0, size)` is an error (`none`), as is `*max_element` of an
  empty range or a remainder by zero. Every function that touches a vector
  therefore returns an `Option`.
* `int` values are mathematical integers (`Int`): signed overflow is undefined
  behaviour in C++ and is not modelled. A `double` is an exact rational.
* The globals `jobs`, `numJobs` and `numMachines` are the fields of `Model`; the
  other globals (the pheromone matrix, the state of the generators) are passed
  explicitly.
* A random source is the sequence `rng 0, rng 1, ...` of the raw values a
  generator returns; a function that draws takes the number of calls made so
  far and returns the number of calls made after it. Theorems quantify over all
  such sequences.
* `std::shuffle` and `exp` are library functions: they are parameters, bundled
  with the part of their contract that is used.
-/

namespace JobShop

/-! ## Data model -/

/-- The source's `struct Task`: a task on a specific machine with a specific duration. -/
structure Task where
  jobID : Int
  machineID : Int
  duration : Int
deriving DecidableEq, Repr

/-- The source's `struct Solution`: a job sequence with its cached makespan. -/
structure Solution where
  schedule : List Int
  makespan : Int
deriving DecidableEq, Repr

/-- The problem data held in the globals `jobs`, `numJobs` and `numMachines`. -/
structure Model where
  jobs : List (List Task)
  numJobs : Nat
  numMachines : Nat
deriving DecidableEq, Repr

/-- Read `v[i]` for an `int` index; `none` when the index is out of range. -/
def vecGet {α : Type} (v : List α) (i : Int) : Option α :=
  if 0 ≤ i then v[i.toNat]? else none

/-- Write `v[i] = x` for an `int` index; `none` when the index is out of range. -/
def vecSet {α : Type} (v : List α) (i : Int) (x : α) : Option (List α) :=
  if 0 ≤ i ∧ i.toNat < v.length then some (v.set i.toNat x) else none

/-! ## The makespan evaluator (identical in the four programs) -/

/-- The two local vectors of `calculateMakespan`: `machineTime` and `jobTime`. -/
structure Clock where
  machineTime : List Int
  jobTime : List Int
deriving DecidableEq, Repr

/-- The body of the inner loop of `calculateMakespan` for one task of job `jobID`,
with the sum `start + task.duration` taken in the integers. This is the value of the
source's `int` sum as long as it fits in an `int`; `Wrapped.taskStep` is the same body
with the wrap-around of 32-bit `int`, and the two agree when the work dispatched
fits in an `int` (`calculateMakespan_wrapped_eq`). -/
def taskStep (jobID : Int) (c : Clock) (task : Task) : Option Clock := do
  let machineID := task.machineID
  let mt ← vecGet c.machineTime machineID
  let jt ← vecGet c.jobTime jobID
  let start := max mt jt
  let end_ := start + task.duration
  let machineTime ← vecSet c.machineTime machineID end_
  let jobTime ← vecSet c.jobTime jobID end_
  pure { machineTime := machineTime, jobTime := jobTime }

/-- The inner loop of `calculateMakespan`: every task of `jobs[jobID]`, in order. -/
def jobLoop (jobID : Int) : List Task → Clock → Option Clock
  | [], c => some c
  | task :: rest, c => (taskStep jobID c task).bind (jobLoop jobID rest)

/-- The outer loop of `calculateMakespan`: every entry of the schedule, left to right. -/
def scheduleLoop (m : Model) : List Int → Clock → Option Clock
  | [], c => some c
  | jobID :: rest, c =>
    (vecGet m.jobs jobID).bind fun tasks =>
      (jobLoop jobID tasks c).bind (scheduleLoop m rest)

/-- The value `*max_element(first, last)`; `none` on an empty range. -/
def maxElement : List Int → Option Int
  | [] => none
  | x :: xs => some (xs.foldl max x)

/-- The two vectors as `calculateMakespan` creates them, all zero. -/
def Clock.init (m : Model) : Clock :=
  { machineTime := List.replicate m.numMachines 0, jobTime := List.replicate m.numJobs 0 }

/-- The source's `calculateMakespan`, with the times taken in the integers (see
`taskStep`); `Wrapped.calculateMakespan` is the same function in 32-bit `int`
arithmetic. -/
def calculateMakespan (m : Model) (schedule : List Int) : Option Int :=
  (scheduleLoop m schedule (Clock.init m)).bind fun c => maxElement c.machineTime

/-! ## The makespan evaluator in 32-bit `int` arithmetic -/

/-- The largest value of the source's `int` (32 bits). -/
def INT_MAX : Int := 2147483647

/-- The value an `int` variable holds after a sum whose exact value is `x`:
two's-complement wrap-around into `[-2147483648, 2147483647]`. -/
def wrapInt (x : Int) : Int := (x + 2147483648) % 4294967296 - 2147483648

/-- The body of the inner loop of `calculateMakespan` as the compiled program
computes it: `int end = start + task.duration` wraps around. -/
def Wrapped.taskStep (jobID : Int) (c : Clock) (task : Task) : Option Clock := do
  let machineID := task.machineID
  let mt ← vecGet c.machineTime machineID
  let jt ← vecGet c.jobTime jobID
  let start := max mt jt
  let end_ := wrapInt (start + task.duration)
  let machineTime ← vecSet c.machineTime machineID end_
  let jobTime ← vecSet c.jobTime jobID end_
  pure { machineTime := machineTime, jobTime := jobTime }

/-- The inner loop of `calculateMakespan`, in `int` arithmetic. -/
def Wrapped.jobLoop (jobID : Int) : List Task → Clock → Option Clock
  | [], c => some c
  | task :: rest, c => (Wrapped.taskStep jobID c task).bind (Wrapped.jobLoop jobID rest)

/-- The outer loop of `calculateMakespan`, in `int` arithmetic. -/
def Wrapped.scheduleLoop (m : Model) : List Int → Clock → Option Clock
  | [], c => some c
  | jobID :: rest, c =>
    (vecGet m.jobs jobID).bind fun tasks =>
      (Wrapped.jobLoop jobID tasks c).bind (Wrapped.scheduleLoop m rest)

/-- The source's `calculateMakespan`, in `int` arithmetic. -/
def Wrapped.calculateMakespan (m : Model) (schedule : List Int) : Option Int :=
  (Wrapped.scheduleLoop m schedule (Clock.init m)).bind fun c => maxElement c.machineTime

/-- The instance built in `main` (the same in the four programs). -/
def mainJobs : List (List Task) :=
  [ [⟨0, 0, 3⟩, ⟨0, 1, 2⟩, ⟨0, 2, 2⟩],
    [⟨1, 0, 2⟩, ⟨1, 1, 1⟩, ⟨1, 2, 4⟩],
    [⟨2, 0, 4⟩, ⟨2, 1, 3⟩, ⟨2, 2, 3⟩] ]

/-- The globals after `main` has initialised them: three jobs, three machines. -/
def mainModel : Model :=
  { jobs := mainJobs, numJobs := 3, numMachines := 3 }

/-! ## Well-formedness of the problem data and of schedules -/

/-- The problem model the programs are run on: `numJobs` is the number of jobs
(`numJobs = jobs.size()` in `main`), there is at least one machine, and every
task names a machine in `[0, numMachines)`. -/
def Model.WellFormed (m : Model) : Prop :=
  m.numJobs = m.jobs.length ∧ 1 ≤ m.numMachines ∧
    ∀ tasks ∈ m.jobs, ∀ t ∈ tasks, 0 ≤ t.machineID ∧ t.machineID < m.numMachines

instance (m : Model) : Decidable m.WellFormed := by
  unfold Model.WellFormed; infer_instance

/-- Every duration of the model is non-negative. -/
def Model.NonNegDurations (m : Model) : Prop :=
  ∀ tasks ∈ m.jobs, ∀ t ∈ tasks, 0 ≤ t.duration

instance (m : Model) : Decidable m.NonNegDurations := by
  unfold Model.NonNegDurations; infer_instance

/-- Every entry of the schedule is a job index in `[0, numJobs)`. -/
def InRange (m : Model) (schedule : List Int) : Prop :=
  ∀ j ∈ schedule, 0 ≤ j ∧ j < m.numJobs

instance (m : Model) (schedule : List Int) : Decidable (InRange m schedule) := by
  unfold InRange; infer_instance

/-- The Schedule invariant: length `numJobs * numMachines`, only job indices of
`[0, numJobs)`, each of them exactly `numMachines` times. -/
def ValidSchedule (m : Model) (schedule : List Int) : Prop :=
  schedule.length = m.numJobs * m.numMachines ∧ InRange m schedule ∧
    ∀ j : Nat, j < m.numJobs → schedule.count (j : Int) = m.numMachines

instance (m : Model) (schedule : List Int) : Decidable (ValidSchedule m schedule) := by
  unfold ValidSchedule; infer_instance

/-- The sum of the durations of the operations of job `j`. -/
def jobDuration (m : Model) (j : Nat) : Int :=
  ((m.jobs.getD j []).map Task.duration).sum

/-- The sum of the durations of the operations of a task list that run on machine `k`. -/
def loadOn (k : Int) (tasks : List Task) : Int :=
  ((tasks.filter fun t => t.machineID = k).map Task.duration).sum

/-- The sum of the durations of all operations of the model assigned to machine `k`. -/
def machineLoad (m : Model) (k : Nat) : Int :=
  (m.jobs.map (loadOn k)).sum

/-! ## Evaluators written from the specification (section 4.1) -/

/-- The specification's `machineTime[m]` and `jobTime[j]`, as total maps. -/
structure RefClock where
  machineTime : Int → Int
  jobTime : Int → Int

/-- All times zero. -/
def RefClock.zero : RefClock := { machineTime := fun _ => 0, jobTime := fun _ => 0 }

/-- Dispatch one operation of `job`: `start = max(machineTime[op.machine], jobTime[job])`,
`end = start + op.duration`, both times become `end`. -/
def RefClock.dispatch (c : RefClock) (job : Int) (op : Task) : RefClock :=
  let start := max (c.machineTime op.machineID) (c.jobTime job)
  let end_ := start + op.duration
  { machineTime := Function.update c.machineTime op.machineID end_,
    jobTime := Function.update c.jobTime job end_ }

/-- The maximum of a list of times; `none` when there is none. -/
def specMax : List Int → Option Int
  | [] => none
  | x :: xs => some (match specMax xs with
      | none => x
      | some y => max x y)

/-- The maximum over all `machineTime` entries of the machines `0 .. numMachines - 1`. -/
def RefClock.makespan (m : Model) (c : RefClock) : Option Int :=
  specMax ((List.range m.numMachines).map fun k : Nat => c.machineTime (k : Int))

/-- The walk of section 4.1 as the specification words it: a per-job cursor,
starting at 0, selects the job's next undispatched operation; an entry whose
job has no operation left is out of contract (`none`). -/
def referenceWalk (m : Model) : List Int → RefClock → (Int → Nat) → Option RefClock
  | [], c, _ => some c
  | job :: rest, c, cursor =>
    (vecGet m.jobs job).bind fun ops =>
      (ops[cursor job]?).bind fun op =>
        referenceWalk m rest (c.dispatch job op) (Function.update cursor job (cursor job + 1))

/-- The reference evaluator of section 4.1 (per-job cursor). -/
def referenceEvaluator (m : Model) (schedule : List Int) : Option Int :=
  (referenceWalk m schedule RefClock.zero fun _ => 0).bind (RefClock.makespan m)

/-- The walk in which every schedule entry dispatches all the operations of its
job, in order (no cursor). -/
def wholeJobWalk (m : Model) : List Int → RefClock → Option RefClock
  | [], c => some c
  | job :: rest, c =>
    (vecGet m.jobs job).bind fun ops =>
      wholeJobWalk m rest (ops.foldl (fun acc op => acc.dispatch job op) c)

/-- The evaluator in which every schedule entry dispatches its whole job. -/
def wholeJobEvaluator (m : Model) (schedule : List Int) : Option Int :=
  (wholeJobWalk m schedule RefClock.zero).bind (RefClock.makespan m)

/-- No job index occurs in the schedule more often than the job has operations. -/
def WithinOperations (m : Model) (schedule : List Int) : Prop :=
  ∀ j ∈ schedule, schedule.count j ≤ ((vecGet m.jobs j).getD []).length

instance (m : Model) (schedule : List Int) : Decidable (WithinOperations m schedule) := by
  unfold WithinOperations; infer_instance

/-! ## Auxiliary notions used by the proofs -/

/-- The operations of job `j` as `calculateMakespan` reads them (`jobs[j]`). -/
def jobsOf (m : Model) (j : Int) : List Task := (vecGet m.jobs j).getD []

/-- The fold that dispatches every operation of a job. -/
def dispatchAll (job : Int) (tasks : List Task) (rc : RefClock) : RefClock :=
  tasks.foldl (fun acc op => acc.dispatch job op) rc

/-- The sum of the absolute durations of a list of tasks. -/
def taskWork (tasks : List Task) : Int :=
  (tasks.map fun t => (t.duration.natAbs : Int)).sum

/-- The work a schedule dispatches: for every entry, the absolute durations of all
the operations of its job. -/
def dispatchedWork (m : Model) (schedule : List Int) : Int :=
  (schedule.map fun j => taskWork (jobsOf m j)).sum

/-- Every entry of the two vectors lies in `[-B, B]`. -/
def Clock.Within (B : Int) (c : Clock) : Prop :=
  (∀ x ∈ c.machineTime, -B ≤ x ∧ x ≤ B) ∧ (∀ x ∈ c.jobTime, -B ≤ x ∧ x ≤ B)

/-- A model of one job with one operation of duration 2000000000, on one machine. -/
def longTask : Model :=
  { jobs := [[⟨0, 0, 2000000000⟩]], numJobs := 1, numMachines := 1 }

/-- A model of one job with two operations of duration 2000000000, on two machines. -/
def longJob : Model :=
  { jobs := [[⟨0, 0, 2000000000⟩, ⟨0, 1, 2000000000⟩]], numJobs := 1, numMachines := 2 }

/-- The list clock holds the values of the map clock on its index ranges. -/
def Agree (m : Model) (c : Clock) (rc : RefClock) : Prop :=
  c.machineTime = (List.range m.numMachines).map (fun k : Nat => rc.machineTime (k : Int)) ∧
    c.jobTime = (List.range m.numJobs).map (fun k : Nat => rc.jobTime (k : Int))

/-- Every job time is bounded by the time of some machine of the model. -/
def Covered (m : Model) (rc : RefClock) : Prop :=
  ∀ j : Int, ∃ k : Nat, k < m.numMachines ∧ rc.jobTime j ≤ rc.machineTime (k : Int)

/-! ## Loops, swaps and random sources -/

/-- The loop `for (i = 0; i < n; ++i) body(i)` over a state, stopping at the first error. -/
def forLoop {σ : Type} (body : Nat → σ → Option σ) : Nat → σ → Option σ
  | 0, s => some s
  | n + 1, s => (forLoop body n s).bind (body n)

/-- The call `swap(v[a], v[b])` on two elements of one vector. -/
def vecSwap {α : Type} (v : List α) (a b : Int) : Option (List α) := do
  let x ← vecGet v a
  let y ← vecGet v b
  let v1 ← vecSet v a y
  vecSet v1 b x

/-- The largest value of the `std::mt19937` of the SA and GA programs (`rng.max()`). -/
def rngMax : Nat := 4294967295

/-- One call `rng()` of the `std::mt19937` of the SA and GA programs. A random
source is the sequence `rng 0, rng 1, ...` of the raw values the generator
returns; the programs thread the number `k` of calls made so far. The value is
in `[0, rng.max()]`. -/
def rngCall (rng : Nat → Nat) (k : Nat) : Nat × Nat :=
  (rng k % (rngMax + 1), k + 1)

/-- The constant `RAND_MAX` of the C library (the value of glibc). -/
def RAND_MAX : Nat := 2147483647

/-- One call `rand()` of the TS program: a value in `[0, RAND_MAX]`. -/
def randCall (rng : Nat → Nat) (k : Nat) : Nat × Nat :=
  (rng k % (RAND_MAX + 1), k + 1)

/-- The random source that returns the values of the list, then zeros. -/
def draws (l : List Nat) : Nat → Nat := fun k => l.getD k 0

/-- The update `rng_seed = rng_seed * 1103515245 + 12345` of the ACO program, on
`unsigned int` (32 bits). -/
def lcgNext (seed : Nat) : Nat :=
  (seed * 1103515245 + 12345) % 4294967296

/-- The value of `rng_seed` after `k` calls of `randomInt`. -/
def lcgSeed (seed : Nat) : Nat → Nat
  | 0 => seed
  | k + 1 => lcgNext (lcgSeed seed k)

/-- The raw values `rng_seed / 65536` that the successive calls of `randomInt`
reduce modulo `max`, for the initial value `seed` of `rng_seed`. -/
def lcgStream (seed : Nat) (k : Nat) : Nat :=
  lcgSeed seed (k + 1) / 65536

/-- The source's `randomInt(max)` of the ACO program, over a sequence of raw
values (`lcgStream seed` in the program); `max` is positive at every call site. -/
def randomInt (rng : Nat → Nat) (k : Nat) (max : Nat) : Nat × Nat :=
  (rng k % max, k + 1)

/-- Modelled from the C++ standard library: `std::shuffle(first, last, g)` is not
code of the repository. It reorders the range into a permutation of it and calls
the generator `g` some number of times: `run rng k v` is the reordered vector
and the number of calls made after it. -/
structure StdShuffle where
  run : (Nat → Nat) → Nat → List Int → List Int × Nat
  perm : ∀ rng k v, (run rng k v).1.Perm v

/-- A `std::shuffle` that happens to leave the range as it is and calls the
generator once for each position after the first. -/
def StdShuffle.identity : StdShuffle :=
  { run := fun _ k v => (v, k + (v.length - 1)), perm := fun _ _ v => List.Perm.refl v }

/-! ## The schedule generator -/

/-- The two nested loops of `generateInitialSolution` over the resized vector:
`schedule[j * numMachines + k] = j`. -/
def fillSchedule (m : Model) (schedule : List Int) : Option (List Int) :=
  forLoop (fun j v =>
    forLoop (fun k w => vecSet w ((j : Int) * (m.numMachines : Int) + (k : Int)) (j : Int))
      m.numMachines v) m.numJobs schedule

/-- The schedule before shuffling: `resize(numJobs * numMachines)`, then the fill loops. -/
def unshuffled (m : Model) : Option (List Int) :=
  fillSchedule m (List.replicate (m.numJobs * m.numMachines) 0)

/-- The canonical multiset restricted to the first `n` jobs: `nM` copies of each
job index below `n`, in order. -/
def canonicalUpTo (nM n : Nat) : List Int :=
  (List.range n).flatMap fun j : Nat => List.replicate nM (j : Int)

/-- The canonical multiset as a list: `numMachines` copies of each job index, in order. -/
def canonicalSchedule (m : Model) : List Int :=
  canonicalUpTo m.numMachines m.numJobs

/-- The cached makespan of a solution is the makespan of its schedule. -/
def Consistent (m : Model) (s : Solution) : Prop :=
  calculateMakespan m s.schedule = some s.makespan

/-- The loop of `customShuffle` from index `i` down to 1:
`j = randomInt(i + 1); swap(vec[i], vec[j])`. -/
def customShuffleLoop (rng : Nat → Nat) : Nat → List Int → Nat → Option (List Int × Nat)
  | 0, vec, k => some (vec, k)
  | i + 1, vec, k =>
    let (j, k1) := randomInt rng k (i + 1 + 1)
    (vecSwap vec ((i + 1 : Nat) : Int) (j : Int)).bind fun vec1 => customShuffleLoop rng i vec1 k1

/-- The source's `customShuffle` (ACO). -/
def customShuffle (rng : Nat → Nat) (vec : List Int) (k : Nat) : Option (List Int × Nat) :=
  customShuffleLoop rng (vec.length - 1) vec k

/-- The end of every `generateInitialSolution`: evaluate the shuffled schedule. -/
def evaluated (m : Model) (schedule : List Int) : Option Solution :=
  (calculateMakespan m schedule).map fun v => { schedule := schedule, makespan := v }

namespace ACO

/-- The source's `generateInitialSolution` of the ACO program. -/
def generateInitialSolution (m : Model) (rng : Nat → Nat) (k : Nat) : Option (Solution × Nat) := do
  let schedule ← unshuffled m
  let (shuffled, k1) ← customShuffle rng schedule k
  let solution ← evaluated m shuffled
  pure (solution, k1)

end ACO

namespace SA

/-- The source's `generateInitialSolution` of the SA program (`std::shuffle` on the
global generator). -/
def generateInitialSolution (m : Model) (sh : StdShuffle) (rng : Nat → Nat) (k : Nat) :
    Option (Solution × Nat) := do
  let schedule ← unshuffled m
  let (shuffled, k1) := sh.run rng k schedule
  let solution ← evaluated m shuffled
  pure (solution, k1)

end SA

namespace GA

/-- The source's `generateInitialSolution` of the GA program (`std::shuffle` on the
global generator). -/
def generateInitialSolution (m : Model) (sh : StdShuffle) (rng : Nat → Nat) (k : Nat) :
    Option (Solution × Nat) := do
  let schedule ← unshuffled m
  let (shuffled, k1) := sh.run rng k schedule
  let solution ← evaluated m shuffled
  pure (solution, k1)

end GA

namespace TS

/-- The source's `generateInitialSolution` of the TS program: `std::shuffle` on a
local `default_random_engine`, whose raw values are `engine`; `rand()` is not
called. -/
def generateInitialSolution (m : Model) (sh : StdShuffle) (engine : Nat → Nat) :
    Option Solution := do
  let schedule ← unshuffled m
  let (shuffled, _) := sh.run engine 0 schedule
  evaluated m shuffled

end TS

/-! ## Simulated annealing (`SA/main.cpp`)

A `double` is modelled by an exact rational; `exp` is the function of the C math
library, which is not code of the repository. -/

/-- Modelled from the C math library: `exp` on `double` is not code of the
repository. It maps 0 to exactly 1 and never returns a negative value. -/
structure ExpFn where
  exp : ℚ → ℚ
  exp_zero : exp 0 = 1
  exp_nonneg : ∀ x, 0 ≤ exp x

/-- A stand-in for `exp` with those two properties, which underflows to 0 below
-745 as the `double` function does. -/
def ExpFn.underflowing : ExpFn :=
  { exp := fun x => if x = 0 then 1 else if x < -745 then 0 else if x < 0 then 1 / (1 - x)
      else 1 + x
    exp_zero := by simp
    exp_nonneg := by
      intro x
      by_cases h0 : x = 0
      · simp [h0]
      · by_cases h1 : x < -745
        · simp [h0, h1]
        · by_cases h2 : x < 0
          · simp only [h0, h1, h2, if_true, if_false]
            apply div_nonneg <;> linarith
          · simp only [h0, h1, h2, if_false]
            linarith }

namespace SA

/-- The constant `INITIAL_TEMPERATURE`. -/
def INITIAL_TEMPERATURE : ℚ := 10000

/-- The constant `COOLING_RATE` (0.995). -/
def COOLING_RATE : ℚ := 995 / 1000

/-- The constant `MAX_ITERATIONS`. -/
def MAX_ITERATIONS : Nat := 1000

/-- The source's `getNeighbor`: swap two positions drawn with `rng() % size`, then
re-evaluate. -/
def getNeighbor (m : Model) (rng : Nat → Nat) (k : Nat) (currentSolution : Solution) :
    Option (Solution × Nat) :=
  let size := currentSolution.schedule.length
  if size = 0 then none
  else
    let (r1, k1) := rngCall rng k
    let pos1 := r1 % size
    let (r2, k2) := rngCall rng k1
    let pos2 := r2 % size
    (vecSwap currentSolution.schedule (pos1 : Int) (pos2 : Int)).bind fun schedule =>
      (calculateMakespan m schedule).map fun v => ({ schedule := schedule, makespan := v }, k2)

/-- The source's `acceptanceProbability`. -/
def acceptanceProbability (e : ExpFn) (oldCost newCost : Int) (temperature : ℚ) : ℚ :=
  if newCost < oldCost then 1
  else e.exp (((oldCost - newCost : Int) : ℚ) / temperature)

/-- The test of the main loop:
`acceptanceProbability(current, neighbor, temperature) > (double) rng() / rng.max()`,
for the raw value `r` of `rng()`. -/
def accepts (e : ExpFn) (oldCost newCost : Int) (temperature : ℚ) (r : Nat) : Prop :=
  acceptanceProbability e oldCost newCost temperature > (r : ℚ) / (rngMax : ℚ)

instance (e : ExpFn) (oldCost newCost : Int) (temperature : ℚ) (r : Nat) :
    Decidable (accepts e oldCost newCost temperature r) := by
  unfold accepts; infer_instance

/-- The variables of the main loop of `simulatedAnnealing`, with the number of
calls of `rng()` made so far. -/
structure State where
  currentSolution : Solution
  bestSolution : Solution
  temperature : ℚ
  calls : Nat

/-- One iteration of the main loop of `simulatedAnnealing`. -/
def iteration (m : Model) (e : ExpFn) (rng : Nat → Nat) (st : State) : Option State :=
  (getNeighbor m rng st.calls st.currentSolution).bind fun (neighbor, k1) =>
    let (r, k2) := rngCall rng k1
    let currentSolution :=
      if accepts e st.currentSolution.makespan neighbor.makespan st.temperature r then neighbor
      else st.currentSolution
    let bestSolution :=
      if currentSolution.makespan < st.bestSolution.makespan then currentSolution
      else st.bestSolution
    some { currentSolution := currentSolution, bestSolution := bestSolution,
           temperature := st.temperature * COOLING_RATE, calls := k2 }

/-- The state before the first iteration. -/
def State.init (seed : Solution) (k : Nat) : State :=
  { currentSolution := seed, bestSolution := seed, temperature := INITIAL_TEMPERATURE,
    calls := k }

/-- The main loop of `simulatedAnnealing`, run for `n` iterations. -/
def run (m : Model) (e : ExpFn) (rng : Nat → Nat) (n : Nat) (st : State) : Option State :=
  forLoop (fun _ s => iteration m e rng s) n st

/-- The source's `simulatedAnnealing`. -/
def simulatedAnnealing (m : Model) (sh : StdShuffle) (e : ExpFn) (rng : Nat → Nat) :
    Option Solution :=
  (generateInitialSolution m sh rng 0).bind fun (seed, k) =>
    (run m e rng MAX_ITERATIONS (State.init seed k)).map fun st => st.bestSolution

end SA

/-! ## Tabu search (`TS/TS/main.cpp`) -/

namespace TS

/-- The constant `TABU_TENURE`. -/
def TABU_TENURE : Nat := 10

/-- The constant `MAX_ITERATIONS`. -/
def MAX_ITERATIONS : Nat := 1000

/-- The source's `getNeighbor`: swap two positions drawn with `rand() % size`, then
re-evaluate. -/
def getNeighbor (m : Model) (rng : Nat → Nat) (k : Nat) (currentSolution : Solution) :
    Option (Solution × Nat) :=
  let size := currentSolution.schedule.length
  if size = 0 then none
  else
    let (r1, k1) := randCall rng k
    let pos1 := r1 % size
    let (r2, k2) := randCall rng k1
    let pos2 := r2 % size
    (vecSwap currentSolution.schedule (pos1 : Int) (pos2 : Int)).bind fun schedule =>
      (calculateMakespan m schedule).map fun v => ({ schedule := schedule, makespan := v }, k2)

/-- The body of the loop that explores neighbours: one candidate, kept when it is
strictly better than `bestNeighbor`. -/
def exploreStep (m : Model) (rng : Nat → Nat) (currentSolution : Solution)
    (acc : Solution × Nat) : Option (Solution × Nat) :=
  (getNeighbor m rng acc.2 currentSolution).map fun (neighbor, k1) =>
    (if neighbor.makespan < acc.1.makespan then neighbor else acc.1, k1)

/-- The loop `for (i = 0; i < numJobs; ++i)` that explores neighbours, started from
`bestNeighbor = currentSolution`. -/
def exploreNeighbors (m : Model) (rng : Nat → Nat) (currentSolution : Solution) (k : Nat) :
    Option (Solution × Nat) :=
  forLoop (fun _ acc => exploreStep m rng currentSolution acc) m.numJobs (currentSolution, k)

/-- The `while` loop over a copy of the tabu list: is the pair at positions 0 and 1
of the schedule, in either order, in the list? -/
def isTabuLoop (schedule : List Int) : List (Int × Int) → Option Bool
  | [] => some false
  | move :: rest =>
    (vecGet schedule 0).bind fun s0 =>
      (vecGet schedule 1).bind fun s1 =>
        if (move.1 = s0 ∧ move.2 = s1) ∨ (move.1 = s1 ∧ move.2 = s0) then some true
        else isTabuLoop schedule rest

/-- The update of the tabu list: pop the front when the size has reached
`TABU_TENURE`, then push the move at the back. -/
def updateTabuList (tabuList : List (Int × Int)) (move : Int × Int) : List (Int × Int) :=
  (if tabuList.length ≥ TABU_TENURE then tabuList.tail else tabuList) ++ [move]

/-- The variables of the main loop of `tabuSearch`, with the number of calls of
`rand()` made so far. -/
structure State where
  currentSolution : Solution
  bestSolution : Solution
  tabuList : List (Int × Int)
  calls : Nat

/-- One iteration of the main loop of `tabuSearch`. -/
def iteration (m : Model) (rng : Nat → Nat) (st : State) : Option State :=
  (exploreNeighbors m rng st.currentSolution st.calls).bind fun (bestNeighbor, k1) =>
    (isTabuLoop bestNeighbor.schedule st.tabuList).bind fun isTabu =>
      let moved : Option (Solution × List (Int × Int)) :=
        if isTabu = false ∨ bestNeighbor.makespan < st.bestSolution.makespan then
          (vecGet bestNeighbor.schedule 0).bind fun s0 =>
            (vecGet bestNeighbor.schedule 1).map fun s1 =>
              (bestNeighbor, updateTabuList st.tabuList (s0, s1))
        else some (st.currentSolution, st.tabuList)
      moved.map fun (currentSolution, tabuList) =>
        let bestSolution :=
          if currentSolution.makespan < st.bestSolution.makespan then currentSolution
          else st.bestSolution
        { currentSolution := currentSolution, bestSolution := bestSolution,
          tabuList := tabuList, calls := k1 }

/-- The state before the first iteration. -/
def State.init (seed : Solution) (k : Nat) : State :=
  { currentSolution := seed, bestSolution := seed, tabuList := [], calls := k }

/-- The main loop of `tabuSearch`, run for `n` iterations. -/
def run (m : Model) (rng : Nat → Nat) (n : Nat) (st : State) : Option State :=
  forLoop (fun _ s => iteration m rng s) n st

/-- The source's `tabuSearch`. -/
def tabuSearch (m : Model) (sh : StdShuffle) (engine : Nat → Nat) (rng : Nat → Nat) :
    Option Solution :=
  (generateInitialSolution m sh engine).bind fun seed =>
    (run m rng MAX_ITERATIONS (State.init seed 0)).map fun st => st.bestSolution

end TS

/-! ## Genetic algorithm (`GA/GA/main.cpp`) -/

/-- The global `numTasks = numJobs * numMachines` of the GA and ACO programs. -/
def numTasks (m : Model) : Nat := m.numJobs * m.numMachines

namespace GA

/-- The constant `POPULATION_SIZE`. -/
def POPULATION_SIZE : Nat := 30

/-- The constant `CROSSOVER_RATE` (0.8). -/
def CROSSOVER_RATE : ℚ := 8 / 10

/-- The constant `MUTATION_RATE` (0.1). -/
def MUTATION_RATE : ℚ := 1 / 10

/-- The body of the loop of `tournamentSelection`: one more contender. -/
def tournamentStep (rng : Nat → Nat) (population : List Solution) (acc : Solution × Nat) :
    Option (Solution × Nat) :=
  let (r, k1) := rngCall rng acc.2
  (vecGet population ((r % POPULATION_SIZE : Nat) : Int)).map fun contender =>
    (if contender.makespan < acc.1.makespan then contender else acc.1, k1)

/-- The source's `tournamentSelection` (tournament size 3). -/
def tournamentSelection (rng : Nat → Nat) (k : Nat) (population : List Solution) :
    Option (Solution × Nat) :=
  let tournamentSize := 3
  let (r, k1) := rngCall rng k
  (vecGet population ((r % POPULATION_SIZE : Nat) : Int)).bind fun best =>
    forLoop (fun _ acc => tournamentStep rng population acc) (tournamentSize - 1) (best, k1)

/-- The body of the loop of `crossover`:
`swap(offspring1.schedule[i], offspring2.schedule[i])`. -/
def crossoverSwap (i : Nat) (acc : List Int × List Int) : Option (List Int × List Int) :=
  (vecGet acc.1 (i : Int)).bind fun x =>
    (vecGet acc.2 (i : Int)).bind fun y =>
      (vecSet acc.1 (i : Int) y).bind fun s1 =>
        (vecSet acc.2 (i : Int) x).map fun s2 => (s1, s2)

/-- The test `(double)(rng() % 100) / 100.0 < rate` for the raw value `r` of `rng()`. -/
def belowRate (r : Nat) (rate : ℚ) : Prop :=
  ((r % 100 : Nat) : ℚ) / 100 < rate

instance (r : Nat) (rate : ℚ) : Decidable (belowRate r rate) := by
  unfold belowRate; infer_instance

/-- The source's `crossover`. -/
def crossover (m : Model) (rng : Nat → Nat) (k : Nat) (parent1 parent2 : Solution) :
    Option ((Solution × Solution) × Nat) :=
  let (r, k1) := rngCall rng k
  let swapped : Option ((List Int × List Int) × Nat) :=
    if belowRate r CROSSOVER_RATE then
      if numTasks m = 0 then none
      else
        let (r2, k2) := rngCall rng k1
        let crossoverPoint := r2 % numTasks m
        (forLoop crossoverSwap crossoverPoint (parent1.schedule, parent2.schedule)).map
          fun s => (s, k2)
    else some ((parent1.schedule, parent2.schedule), k1)
  swapped.bind fun (s, k3) =>
    (calculateMakespan m s.1).bind fun v1 =>
      (calculateMakespan m s.2).map fun v2 =>
        (({ schedule := s.1, makespan := v1 }, { schedule := s.2, makespan := v2 }), k3)

/-- The source's `mutate`. -/
def mutate (m : Model) (rng : Nat → Nat) (k : Nat) (solution : Solution) :
    Option (Solution × Nat) :=
  let (r, k1) := rngCall rng k
  if belowRate r MUTATION_RATE then
    if numTasks m = 0 then none
    else
      let (r1, k2) := rngCall rng k1
      let index1 := r1 % numTasks m
      let (r2, k3) := rngCall rng k2
      let index2 := r2 % numTasks m
      (vecSwap solution.schedule (index1 : Int) (index2 : Int)).bind fun schedule =>
        (calculateMakespan m schedule).map fun v => ({ schedule := schedule, makespan := v }, k3)
  else some (solution, k1)

/-- The body of the `while` loop of `geneticAlgorithm`: two parents, two offspring. -/
def breedStep (m : Model) (rng : Nat → Nat) (population : List Solution)
    (acc : List Solution × Nat) : Option (List Solution × Nat) :=
  (tournamentSelection rng acc.2 population).bind fun (parent1, k1) =>
    (tournamentSelection rng k1 population).bind fun (parent2, k2) =>
      (crossover m rng k2 parent1 parent2).bind fun (offspring, k3) =>
        (mutate m rng k3 offspring.1).bind fun (first, k4) =>
          (mutate m rng k4 offspring.2).map fun (second, k5) =>
            (acc.1 ++ [first, second], k5)

/-- The loop `while (newPopulation.size() < POPULATION_SIZE)`, with fuel; `none`
when the fuel runs out before the loop ends. -/
def breed (m : Model) (rng : Nat → Nat) (population : List Solution) :
    Nat → List Solution × Nat → Option (List Solution × Nat)
  | 0, _ => none
  | fuel + 1, acc =>
    if acc.1.length < POPULATION_SIZE then
      (breedStep m rng population acc).bind (breed m rng population fuel)
    else some acc

/-- The loop that updates `bestSolution` from the population. -/
def updateBest (bestSolution : Solution) (population : List Solution) : Solution :=
  population.foldl (fun best sol => if sol.makespan < best.makespan then sol else best)
    bestSolution

/-- The variables of the evolution loop of `geneticAlgorithm`, with the number of
calls of `rng()` made so far. -/
structure State where
  population : List Solution
  bestSolution : Solution
  calls : Nat

/-- One generation of the evolution loop of `geneticAlgorithm`. -/
def generation (m : Model) (rng : Nat → Nat) (st : State) : Option State :=
  (breed m rng st.population (POPULATION_SIZE + 1) ([], st.calls)).map fun (newPopulation, k) =>
    { population := newPopulation, bestSolution := updateBest st.bestSolution newPopulation,
      calls := k }

/-- The evolution loop of `geneticAlgorithm`, run for `n` generations. -/
def run (m : Model) (rng : Nat → Nat) (n : Nat) (st : State) : Option State :=
  forLoop (fun _ s => generation m rng s) n st

end GA

/-! ## Ant colony optimisation (`ACO/main.cpp`)

The pheromone matrix and the scores are `double`s, modelled by exact rationals; a
division by zero, whose IEEE result is infinite, leaves the model (`none`). -/

namespace ACO

/-- The constant `NUM_ANTS`. -/
def NUM_ANTS : Nat := 30

/-- The constant `MAX_ITERATIONS`. -/
def MAX_ITERATIONS : Nat := 1000

/-- The constant `ALPHA` (1.0), the exponent of `pow(pheromone, ALPHA)`. -/
def ALPHA : Nat := 1

/-- The constant `BETA` (2.0), the exponent of `pow(heuristic, BETA)`. -/
def BETA : Nat := 2

/-- The constant `EVAPORATION` (0.5). -/
def EVAPORATION : ℚ := 1 / 2

/-- The constant `Q` (100.0). -/
def Q : ℚ := 100

/-- The quotient `x / y` of two `double`s; a zero divisor leaves the rational model. -/
def divide (x y : ℚ) : Option ℚ :=
  if y = 0 then none else some (x / y)

/-- The local vectors of the scoring loop of `generateAntSolution`:
`probabilities` and `sumProbabilities`. -/
structure Scores where
  probabilities : List ℚ
  sumProbabilities : ℚ

/-- The body of the scoring loop of `generateAntSolution` for job `j`, at a
schedule of `size` entries. -/
def scoreStep (m : Model) (pheromone : List (List ℚ)) (visited : List Bool) (size : Nat)
    (j : Nat) (s : Scores) : Option Scores :=
  (vecGet visited (j : Int)).bind fun vis =>
    if vis = false then
      (vecGet pheromone (size : Int)).bind fun row =>
        (vecGet row (j : Int)).bind fun ph =>
          let pheromoneLevel := ph ^ ALPHA
          (calculateMakespan m [(j : Int)]).bind fun mk =>
            (divide 1 (((mk + 1 : Int) : ℚ))).bind fun h =>
              let heuristicValue := h ^ BETA
              let p := pheromoneLevel * heuristicValue
              (vecSet s.probabilities (j : Int) p).map fun probabilities =>
                { probabilities := probabilities, sumProbabilities := s.sumProbabilities + p }
    else some s

/-- The roulette loop of `generateAntSolution` from job `j` on, over the remaining
`probabilities`: the first job at which `r <= cumulative`, or -1. -/
def roulette (r : ℚ) : List ℚ → Nat → ℚ → Int
  | [], _, _ => -1
  | p :: rest, j, cumulative =>
    if r ≤ cumulative + p then (j : Int) else roulette r rest (j + 1) (cumulative + p)

/-- The local state of the construction loop of `generateAntSolution`. -/
structure Ant where
  schedule : List Int
  visited : List Bool
  calls : Nat

/-- The body of the construction loop of `generateAntSolution`: score the jobs,
draw, select, mark and append. -/
def antStep (m : Model) (pheromone : List (List ℚ)) (rng : Nat → Nat) (a : Ant) : Option Ant :=
  (forLoop (scoreStep m pheromone a.visited a.schedule.length) m.numJobs
      { probabilities := List.replicate m.numJobs 0, sumProbabilities := 0 }).bind fun s =>
    let (x, k1) := randomInt rng a.calls 10000
    let r := (x : ℚ) / 10000 * s.sumProbabilities
    let nextJob := roulette r s.probabilities 0 0
    (vecSet a.visited nextJob true).map fun visited =>
      { schedule := a.schedule ++ [nextJob], visited := visited, calls := k1 }

/-- The source's `generateAntSolution`. -/
def generateAntSolution (m : Model) (pheromone : List (List ℚ)) (rng : Nat → Nat) (k : Nat) :
    Option (Solution × Nat) :=
  (forLoop (fun _ a => antStep m pheromone rng a) (numTasks m)
      { schedule := [], visited := List.replicate m.numJobs false, calls := k }).bind fun a =>
    (calculateMakespan m a.schedule).map fun v =>
      ({ schedule := a.schedule, makespan := v }, a.calls)

/-- The assignment `pheromone[i][j] = f(pheromone[i][j])`. -/
def updateCell (pheromone : List (List ℚ)) (i j : Int) (f : ℚ → ℚ) : Option (List (List ℚ)) :=
  (vecGet pheromone i).bind fun row =>
    (vecGet row j).bind fun x =>
      (vecSet row j (f x)).bind fun row1 => vecSet pheromone i row1

/-- The first loops of `updatePheromone`: every cell times `1 - EVAPORATION`. -/
def evaporate (m : Model) (pheromone : List (List ℚ)) : Option (List (List ℚ)) :=
  forLoop (fun i ph =>
    forLoop (fun j ph1 => updateCell ph1 (i : Int) (j : Int) fun x => x * (1 - EVAPORATION))
      (numTasks m) ph) (numTasks m) pheromone

/-- The deposit of one solution in `updatePheromone`: `Q / makespan` on
`pheromone[jobA][jobB]` for every adjacent pair of its schedule. The bound
`schedule.size() - 1` is unsigned, so an empty schedule reads out of range. -/
def deposit (pheromone : List (List ℚ)) (solution : Solution) : Option (List (List ℚ)) :=
  if solution.schedule.length = 0 then none
  else
    forLoop (fun j ph =>
      (vecGet solution.schedule (j : Int)).bind fun jobA =>
        (vecGet solution.schedule ((j : Int) + 1)).bind fun jobB =>
          (divide Q (solution.makespan : ℚ)).bind fun d =>
            updateCell ph jobA jobB fun x => x + d)
      (solution.schedule.length - 1) pheromone

/-- The second loop of `updatePheromone`: the deposits of the solutions, in order. -/
def depositAll : List Solution → List (List ℚ) → Option (List (List ℚ))
  | [], ph => some ph
  | s :: rest, ph => (deposit ph s).bind (depositAll rest)

/-- The source's `updatePheromone`. -/
def updatePheromone (m : Model) (pheromone : List (List ℚ)) (solutions : List Solution) :
    Option (List (List ℚ)) :=
  (evaporate m pheromone).bind (depositAll solutions)

/-- The pheromone matrix as `main` initialises it: `numTasks` rows of `numTasks`
cells, all 1.0. -/
def initialPheromone (m : Model) : List (List ℚ) :=
  List.replicate (numTasks m) (List.replicate (numTasks m) 1)

/-- The variables of the loop over the ants: `antSolutions`, `bestSolution`, and
the number of calls of `randomInt` made so far. -/
structure Colony where
  antSolutions : List Solution
  bestSolution : Solution
  calls : Nat

/-- The body of the loop over the ants. -/
def antLoopStep (m : Model) (pheromone : List (List ℚ)) (rng : Nat → Nat) (c : Colony) :
    Option Colony :=
  (generateAntSolution m pheromone rng c.calls).map fun (antSolution, k1) =>
    { antSolutions := c.antSolutions ++ [antSolution],
      bestSolution :=
        if antSolution.makespan < c.bestSolution.makespan then antSolution else c.bestSolution,
      calls := k1 }

/-- The variables of the main loop of `antColonyOptimization`: the best solution,
the global pheromone matrix, and the number of calls of `randomInt` so far. -/
structure State where
  bestSolution : Solution
  pheromone : List (List ℚ)
  calls : Nat

/-- The loop over the ants of one iteration. -/
def ants (m : Model) (rng : Nat → Nat) (st : State) : Option Colony :=
  forLoop (fun _ c => antLoopStep m st.pheromone rng c) NUM_ANTS
    { antSolutions := [], bestSolution := st.bestSolution, calls := st.calls }

/-- One iteration of the main loop of `antColonyOptimization`. -/
def iteration (m : Model) (rng : Nat → Nat) (st : State) : Option State :=
  (ants m rng st).bind fun c =>
    (updatePheromone m st.pheromone c.antSolutions).map fun ph =>
      { bestSolution := c.bestSolution, pheromone := ph, calls := c.calls }

/-- The main loop of `antColonyOptimization`, run for `n` iterations. -/
def run (m : Model) (rng : Nat → Nat) (n : Nat) (st : State) : Option State :=
  forLoop (fun _ s => iteration m rng s) n st

end ACO

/-! ## Invariants of the optimizers -/

/-- What the optimizers maintain about a solution: its schedule satisfies the
Schedule invariant and its cached makespan is up to date. -/
def Sound (m : Model) (s : Solution) : Prop :=
  ValidSchedule m s.schedule ∧ Consistent m s

/-- The invariant of the main loop of `simulatedAnnealing`. -/
def SA.Inv (m : Model) (st : SA.State) : Prop :=
  Sound m st.currentSolution ∧ Sound m st.bestSolution

/-- The invariant of the main loop of `tabuSearch`. -/
def TS.Inv (m : Model) (st : TS.State) : Prop :=
  Sound m st.currentSolution ∧ Sound m st.bestSolution

/-- What the genetic algorithm maintains about a solution: a schedule of
`numJobs * numMachines` job indices whose cached makespan is up to date (the
crossover does not keep the number of occurrences of each job). -/
def Fit (m : Model) (s : Solution) : Prop :=
  s.schedule.length = m.numJobs * m.numMachines ∧ InRange m s.schedule ∧ Consistent m s

/-- Every solution of a population is fit. -/
def AllFit (m : Model) (population : List Solution) : Prop :=
  ∀ s ∈ population, Fit m s

/-- The invariant of the evolution loop of `geneticAlgorithm`. -/
def GA.Inv (m : Model) (st : GA.State) : Prop :=
  st.population.length = GA.POPULATION_SIZE ∧ AllFit m st.population ∧ Fit m st.bestSolution

/-- Every job has a positive total duration. -/
def Model.PositiveJobs (m : Model) : Prop :=
  ∀ tasks ∈ m.jobs, 0 < (tasks.map Task.duration).sum

instance (m : Model) : Decidable m.PositiveJobs := by
  unfold Model.PositiveJobs; infer_instance

/-- The pheromone matrix has `numTasks` rows of `numTasks` non-negative cells. -/
def PheromoneOK (m : Model) (pheromone : List (List ℚ)) : Prop :=
  pheromone.length = numTasks m ∧
    ∀ row ∈ pheromone, row.length = numTasks m ∧ ∀ x ∈ row, 0 ≤ x

/-- The invariant of the scoring loop of `generateAntSolution` after `j` jobs: the
scores of the first `j` jobs are non-negative and add up to `sumProbabilities`,
the others are still zero. -/
def ScoresOK (nJ j : Nat) (s : ACO.Scores) : Prop :=
  ∃ pre : List ℚ, pre.length = j ∧ s.probabilities = pre ++ List.replicate (nJ - j) 0 ∧
    (∀ x ∈ pre, 0 ≤ x) ∧ s.sumProbabilities = pre.sum

/-- The invariant of the construction loop of `generateAntSolution` after `i`
positions. -/
def AntOK (m : Model) (i : Nat) (a : ACO.Ant) : Prop :=
  a.schedule.length = i ∧ InRange m a.schedule ∧ a.visited.length = m.numJobs

/-- The invariant of the loop over the ants, started with the best solution `start`. -/
def ColonyOK (m : Model) (start : Solution) (c : ACO.Colony) : Prop :=
  AllFit m c.antSolutions ∧ Fit m c.bestSolution ∧
    (∀ s ∈ c.antSolutions, c.bestSolution.makespan ≤ s.makespan) ∧
    c.bestSolution.makespan ≤ start.makespan

/-- The invariant of the main loop of `antColonyOptimization`. -/
def ACO.Inv (m : Model) (st : ACO.State) : Prop :=
  Fit m st.bestSolution ∧ PheromoneOK m st.pheromone

/-- The invariant of the loop that explores neighbours, after `n` candidates drawn
from call `k` on: `bestNeighbor` is `currentSolution` or one of the candidates,
and no candidate and not `currentSolution` has a lower makespan. -/
def Explored (m : Model) (rng : Nat → Nat) (cur : Solution) (k n : Nat)
    (acc : Solution × Nat) : Prop :=
  acc.2 = k + 2 * n ∧
    (∀ i, i < n → ∃ c, TS.getNeighbor m rng (k + 2 * i) cur = some (c, k + 2 * i + 2) ∧
      acc.1.makespan ≤ c.makespan) ∧
    acc.1.makespan ≤ cur.makespan ∧
    (acc.1 = cur ∨ ∃ i, i < n ∧ TS.getNeighbor m rng (k + 2 * i) cur = some (acc.1, k + 2 * i + 2))

/-- The tabu list after pushing the moves, in order, onto `tabuList`. -/
def pushMoves (tabuList : List (Int × Int)) (moves : List (Int × Int)) : List (Int × Int) :=
  moves.foldl TS.updateTabuList tabuList

/-- The draw sequences of `customShuffle` on a vector of `n` elements: `n - 1`
draws, the draw of pass `t` (made at `i = n - 1 - t`) in `[0, i]`. -/
def ShuffleDraws (n : Nat) (ds : List Nat) : Prop :=
  ds.length = n - 1 ∧ ∀ t, t < n - 1 → ds.getD t 0 ≤ n - 1 - t

instance (n : Nat) (ds : List Nat) : Decidable (ShuffleDraws n ds) := by
  unfold ShuffleDraws; infer_instance

/-- The scores after `j` passes of the scoring loop: a visited job has score 0, an
unvisited job a positive score. -/
def ScoresMark (visited : List Bool) (j : Nat) (s : ACO.Scores) : Prop :=
  ∀ i, i < j → (vecGet visited (i : Int) = some true → s.probabilities[i]? = some 0) ∧
    (vecGet visited (i : Int) = some false → ∃ p, 0 < p ∧ s.probabilities[i]? = some p)

/-! # Theorems -/

/-! ## Vector access -/

theorem vecGet_eq_some {α : Type} (v : List α) (i : Int) (h0 : 0 ≤ i) (h1 : i.toNat < v.length) :
    vecGet v i = some (v.get ⟨i.toNat, h1⟩) := by
  unfold vecGet
  rw [if_pos h0, List.getElem?_eq_getElem h1]
  rfl

theorem vecGet_map_range (n : Nat) (f : Int → Int) (i : Int) (h0 : 0 ≤ i) (h1 : i < n) :
    vecGet ((List.range n).map fun k : Nat => f (k : Int)) i = some (f i) := by
  have hlt : i.toNat < n := by omega
  unfold vecGet
  rw [if_pos h0, List.getElem?_map, List.getElem?_range hlt]
  simp [Int.toNat_of_nonneg h0]

theorem vecSet_map_range (n : Nat) (f : Int → Int) (i : Int) (x : Int) (h0 : 0 ≤ i)
    (h1 : i < n) :
    vecSet ((List.range n).map fun k : Nat => f (k : Int)) i x
      = some ((List.range n).map fun k : Nat => Function.update f i x (k : Int)) := by
  have hlt : i.toNat < n := by omega
  unfold vecSet
  rw [if_pos ⟨h0, by simpa using hlt⟩]
  congr 1
  apply List.ext_getElem?
  intro k
  rw [List.getElem?_set, List.getElem?_map, List.getElem?_map]
  by_cases hkn : k < n
  · rw [List.getElem?_range hkn]
    by_cases hk : i.toNat = k
    · have : (k : Int) = i := by omega
      subst this
      simp [hkn]
    · have : (k : Int) ≠ i := by omega
      simp [hk, Function.update_noteq this]
  · have : (List.range n)[k]? = none := by simp; omega
    rw [this]
    by_cases hk : i.toNat = k
    · omega
    · simp [hk]

theorem agree_init (m : Model) : Agree m (Clock.init m) RefClock.zero := by
  constructor
  · simp [Clock.init, RefClock.zero, List.eq_replicate_iff]
  · simp [Clock.init, RefClock.zero, List.eq_replicate_iff]

theorem taskStep_agree (m : Model) (c : Clock) (rc : RefClock) (job : Int) (t : Task)
    (h : Agree m c rc) (hj : 0 ≤ job ∧ job < m.numJobs)
    (ht : 0 ≤ t.machineID ∧ t.machineID < m.numMachines) :
    ∃ c2, taskStep job c t = some c2 ∧ Agree m c2 (rc.dispatch job t) := by
  obtain ⟨hm, hjt⟩ := h
  refine ⟨⟨(List.range m.numMachines).map (fun k : Nat => (rc.dispatch job t).machineTime (k : Int)),
    (List.range m.numJobs).map (fun k : Nat => (rc.dispatch job t).jobTime (k : Int))⟩, ?_, rfl, rfl⟩
  unfold taskStep
  rw [hm, hjt]
  simp only [vecGet_map_range _ _ _ ht.1 ht.2, vecGet_map_range _ _ _ hj.1 hj.2,
    vecSet_map_range _ _ _ _ ht.1 ht.2, vecSet_map_range _ _ _ _ hj.1 hj.2]
  rfl

theorem jobLoop_agree (m : Model) (job : Int) (hj : 0 ≤ job ∧ job < m.numJobs) :
    ∀ (tasks : List Task) (c : Clock) (rc : RefClock), Agree m c rc →
      (∀ t ∈ tasks, 0 ≤ t.machineID ∧ t.machineID < m.numMachines) →
      ∃ c2, jobLoop job tasks c = some c2 ∧
        Agree m c2 (tasks.foldl (fun acc op => acc.dispatch job op) rc) := by
  intro tasks
  induction tasks with
  | nil => intro c rc h _; exact ⟨c, rfl, h⟩
  | cons t rest ih =>
    intro c rc h hts
    obtain ⟨c1, hc1, ha1⟩ := taskStep_agree m c rc job t h hj (hts t (List.mem_cons_self _ _))
    obtain ⟨c2, hc2, ha2⟩ := ih c1 (rc.dispatch job t) ha1
      (fun u hu => hts u (List.mem_cons_of_mem _ hu))
    exact ⟨c2, by simp [jobLoop, hc1, hc2], ha2⟩

theorem vecGet_jobs (m : Model) (hw : m.WellFormed) (job : Int)
    (hj : 0 ≤ job ∧ job < m.numJobs) :
    ∃ tasks, vecGet m.jobs job = some tasks ∧ tasks ∈ m.jobs := by
  have hlt : job.toNat < m.jobs.length := by have := hw.1; omega
  exact ⟨_, vecGet_eq_some m.jobs job hj.1 hlt, List.get_mem _ _ _⟩

theorem scheduleLoop_agree (m : Model) (hw : m.WellFormed) :
    ∀ (schedule : List Int) (c : Clock) (rc : RefClock), Agree m c rc → InRange m schedule →
      ∃ c2 rc2, scheduleLoop m schedule c = some c2 ∧ wholeJobWalk m schedule rc = some rc2 ∧
        Agree m c2 rc2 := by
  intro schedule
  induction schedule with
  | nil => intro c rc h _; exact ⟨c, rc, rfl, rfl, h⟩
  | cons job rest ih =>
    intro c rc h hr
    have hj := hr job (List.mem_cons_self _ _)
    obtain ⟨tasks, hget, hmem⟩ := vecGet_jobs m hw job hj
    obtain ⟨c1, hc1, ha1⟩ := jobLoop_agree m job hj tasks c rc h (hw.2.2 tasks hmem)
    obtain ⟨c2, rc2, hc2, hrc2, ha2⟩ := ih c1 _ ha1 (fun u hu => hr u (List.mem_cons_of_mem _ hu))
    exact ⟨c2, rc2, by simp [scheduleLoop, hget, hc1, hc2], by simp [wholeJobWalk, hget, hrc2], ha2⟩

theorem foldl_max_assoc (ys : List Int) : ∀ a b : Int,
    ys.foldl max (max a b) = max a (ys.foldl max b) := by
  induction ys with
  | nil => intro a b; rfl
  | cons y ys ih => intro a b; simp only [List.foldl_cons]; rw [max_assoc, ih]

theorem maxElement_eq_specMax (l : List Int) : maxElement l = specMax l := by
  induction l with
  | nil => rfl
  | cons x xs ih =>
    cases xs with
    | nil => rfl
    | cons y ys =>
      simp only [maxElement] at ih
      simp only [maxElement, specMax, List.foldl_cons]
      rw [foldl_max_assoc]
      simp only [specMax, Option.some.injEq] at ih
      rw [← ih]

theorem calculateMakespan_eq_wholeJob (m : Model) (schedule : List Int) (hw : m.WellFormed)
    (hr : InRange m schedule) : calculateMakespan m schedule = wholeJobEvaluator m schedule := by
  obtain ⟨c2, rc2, hc2, hrc2, ha2⟩ := scheduleLoop_agree m hw schedule _ _ (agree_init m) hr
  simp only [calculateMakespan, wholeJobEvaluator, hc2, hrc2, Option.some_bind, RefClock.makespan]
  rw [maxElement_eq_specMax, ha2.1]

theorem calculateMakespan_isSome (m : Model) (schedule : List Int) (hw : m.WellFormed)
    (hr : InRange m schedule) : ∃ v, calculateMakespan m schedule = some v := by
  obtain ⟨c2, rc2, hc2, hrc2, ha2⟩ := scheduleLoop_agree m hw schedule _ _ (agree_init m) hr
  simp only [calculateMakespan, hc2, Option.some_bind, ha2.1]
  obtain ⟨n, hn⟩ : ∃ n, m.numMachines = n + 1 := ⟨m.numMachines - 1, by have := hw.2.1; omega⟩
  rw [hn, List.range_succ_eq_map]
  exact ⟨_, rfl⟩

/-! ## Bounds on the map clock -/

theorem dispatch_jobTime_self (rc : RefClock) (job : Int) (t : Task) :
    rc.jobTime job + t.duration ≤ (rc.dispatch job t).jobTime job := by
  simp only [RefClock.dispatch, Function.update_same]
  have := le_max_right (rc.machineTime t.machineID) (rc.jobTime job)
  omega

theorem dispatch_jobTime_other (rc : RefClock) (job j : Int) (t : Task) (h : j ≠ job) :
    (rc.dispatch job t).jobTime j = rc.jobTime j := by
  simp [RefClock.dispatch, Function.update_noteq h]

theorem dispatch_machineTime_self (rc : RefClock) (job : Int) (t : Task) :
    rc.machineTime t.machineID + t.duration ≤ (rc.dispatch job t).machineTime t.machineID := by
  simp only [RefClock.dispatch, Function.update_same]
  have := le_max_left (rc.machineTime t.machineID) (rc.jobTime job)
  omega

theorem dispatch_machineTime_other (rc : RefClock) (job k : Int) (t : Task)
    (h : k ≠ t.machineID) : (rc.dispatch job t).machineTime k = rc.machineTime k := by
  simp [RefClock.dispatch, Function.update_noteq h]

theorem dispatch_jobTime_eq (rc : RefClock) (job : Int) (t : Task) :
    (rc.dispatch job t).jobTime job = (rc.dispatch job t).machineTime t.machineID := by
  simp [RefClock.dispatch]

theorem dispatchAll_jobTime_other (job j : Int) (h : j ≠ job) :
    ∀ (tasks : List Task) (rc : RefClock), (dispatchAll job tasks rc).jobTime j = rc.jobTime j := by
  intro tasks
  induction tasks with
  | nil => intro rc; rfl
  | cons t rest ih =>
    intro rc
    simp only [dispatchAll, List.foldl_cons] at ih ⊢
    rw [ih, dispatch_jobTime_other rc job j t h]

theorem dispatchAll_jobTime_self (job : Int) :
    ∀ (tasks : List Task) (rc : RefClock),
      rc.jobTime job + (tasks.map Task.duration).sum ≤ (dispatchAll job tasks rc).jobTime job := by
  intro tasks
  induction tasks with
  | nil => intro rc; simp [dispatchAll]
  | cons t rest ih =>
    intro rc
    have h1 := dispatch_jobTime_self rc job t
    have h2 := ih (rc.dispatch job t)
    simp only [dispatchAll, List.foldl_cons, List.map_cons, List.sum_cons] at h2 ⊢
    omega

theorem loadOn_cons (k : Int) (t : Task) (rest : List Task) :
    loadOn k (t :: rest) = (if t.machineID = k then t.duration else 0) + loadOn k rest := by
  unfold loadOn
  by_cases h : t.machineID = k <;> simp [List.filter_cons, h]

theorem dispatchAll_machineTime (job k : Int) :
    ∀ (tasks : List Task) (rc : RefClock),
      rc.machineTime k + loadOn k tasks ≤ (dispatchAll job tasks rc).machineTime k := by
  intro tasks
  induction tasks with
  | nil => intro rc; simp [dispatchAll, loadOn]
  | cons t rest ih =>
    intro rc
    have h2 := ih (rc.dispatch job t)
    rw [loadOn_cons]
    simp only [dispatchAll, List.foldl_cons] at h2 ⊢
    by_cases h : t.machineID = k
    · have h1 := dispatch_machineTime_self rc job t
      rw [h] at h1
      simp only [h, if_true]
      omega
    · have h1 := dispatch_machineTime_other rc job k t (Ne.symm h)
      simp only [h, if_false]
      omega

theorem loadOn_nonneg (k : Int) (tasks : List Task) (h : ∀ t ∈ tasks, 0 ≤ t.duration) :
    0 ≤ loadOn k tasks := by
  unfold loadOn
  apply List.sum_nonneg
  intro x hx
  obtain ⟨t, ht, rfl⟩ := List.mem_map.1 hx
  exact h t (List.mem_filter.1 ht).1

theorem durations_nonneg (tasks : List Task) (h : ∀ t ∈ tasks, 0 ≤ t.duration) :
    0 ≤ (tasks.map Task.duration).sum := by
  apply List.sum_nonneg
  intro x hx
  obtain ⟨t, ht, rfl⟩ := List.mem_map.1 hx
  exact h t ht

theorem dispatchAll_covered (m : Model) (job : Int) :
    ∀ (tasks : List Task) (rc : RefClock),
      (∀ t ∈ tasks, 0 ≤ t.machineID ∧ t.machineID < m.numMachines) →
      (∀ t ∈ tasks, 0 ≤ t.duration) → Covered m rc → Covered m (dispatchAll job tasks rc) := by
  intro tasks
  induction tasks with
  | nil => intro rc _ _ h; exact h
  | cons t rest ih =>
    intro rc hm hd hc
    simp only [dispatchAll, List.foldl_cons]
    apply ih (rc.dispatch job t) (fun u hu => hm u (List.mem_cons_of_mem _ hu))
      (fun u hu => hd u (List.mem_cons_of_mem _ hu))
    intro j
    have htm := hm t (List.mem_cons_self _ _)
    have htd := hd t (List.mem_cons_self _ _)
    by_cases hj : j = job
    · subst hj
      refine ⟨t.machineID.toNat, by omega, ?_⟩
      rw [Int.toNat_of_nonneg htm.1, dispatch_jobTime_eq]
    · obtain ⟨k, hk, hle⟩ := hc j
      refine ⟨k, hk, ?_⟩
      rw [dispatch_jobTime_other rc job j t hj]
      by_cases hkm : (k : Int) = t.machineID
      · have h1 := dispatch_machineTime_self rc job t
        rw [hkm]
        rw [hkm] at hle
        omega
      · rw [dispatch_machineTime_other rc job k t hkm]
        exact hle

theorem jobsOf_mem (m : Model) (hw : m.WellFormed) (job : Int)
    (hj : 0 ≤ job ∧ job < m.numJobs) :
    vecGet m.jobs job = some (jobsOf m job) ∧ jobsOf m job ∈ m.jobs := by
  obtain ⟨tasks, hget, hmem⟩ := vecGet_jobs m hw job hj
  simp [jobsOf, hget, hmem]

theorem wholeJobWalk_cons (m : Model) (hw : m.WellFormed) (job : Int) (rest : List Int)
    (rc : RefClock) (hj : 0 ≤ job ∧ job < m.numJobs) :
    wholeJobWalk m (job :: rest) rc
      = wholeJobWalk m rest (dispatchAll job (jobsOf m job) rc) := by
  simp [wholeJobWalk, (jobsOf_mem m hw job hj).1, dispatchAll]

theorem wholeJobWalk_jobTime_mono (m : Model) (hw : m.WellFormed) (hd : m.NonNegDurations)
    (j : Int) : ∀ (schedule : List Int) (rc rc2 : RefClock), InRange m schedule →
      wholeJobWalk m schedule rc = some rc2 → rc.jobTime j ≤ rc2.jobTime j := by
  intro schedule
  induction schedule with
  | nil => intro rc rc2 _ h; simp only [wholeJobWalk, Option.some.injEq] at h; rw [h]
  | cons job rest ih =>
    intro rc rc2 hr h
    have hj := hr job (List.mem_cons_self _ _)
    rw [wholeJobWalk_cons m hw job rest rc hj] at h
    have h2 := ih _ rc2 (fun u hu => hr u (List.mem_cons_of_mem _ hu)) h
    refine le_trans ?_ h2
    by_cases hjj : j = job
    · subst hjj
      have h1 := dispatchAll_jobTime_self j (jobsOf m j) rc
      have h0 := durations_nonneg (jobsOf m j) (hd _ (jobsOf_mem m hw j hj).2)
      omega
    · rw [dispatchAll_jobTime_other job j hjj]

theorem wholeJobWalk_jobTime (m : Model) (hw : m.WellFormed) (hd : m.NonNegDurations)
    (j : Int) : ∀ (schedule : List Int) (rc rc2 : RefClock), InRange m schedule →
      wholeJobWalk m schedule rc = some rc2 → j ∈ schedule →
      rc.jobTime j + ((jobsOf m j).map Task.duration).sum ≤ rc2.jobTime j := by
  intro schedule
  induction schedule with
  | nil => intro rc rc2 _ _ hmem; simp at hmem
  | cons job rest ih =>
    intro rc rc2 hr h hmem
    have hj := hr job (List.mem_cons_self _ _)
    have hrest : InRange m rest := fun u hu => hr u (List.mem_cons_of_mem _ hu)
    rw [wholeJobWalk_cons m hw job rest rc hj] at h
    by_cases hjj : j = job
    · subst hjj
      have h1 := dispatchAll_jobTime_self j (jobsOf m j) rc
      have h2 := wholeJobWalk_jobTime_mono m hw hd j rest _ rc2 hrest h
      omega
    · have hm2 : j ∈ rest := by
        rcases List.mem_cons.1 hmem with h3 | h3
        · exact absurd h3 hjj
        · exact h3
      have h2 := ih _ rc2 hrest h hm2
      rw [dispatchAll_jobTime_other job j hjj] at h2
      exact h2

theorem wholeJobWalk_machineTime (m : Model) (hw : m.WellFormed) (k : Int) :
    ∀ (schedule : List Int) (rc rc2 : RefClock), InRange m schedule →
      wholeJobWalk m schedule rc = some rc2 →
      rc.machineTime k + (schedule.map fun x => loadOn k (jobsOf m x)).sum
        ≤ rc2.machineTime k := by
  intro schedule
  induction schedule with
  | nil => intro rc rc2 _ h; simp only [wholeJobWalk, Option.some.injEq] at h; simp [h]
  | cons job rest ih =>
    intro rc rc2 hr h
    have hj := hr job (List.mem_cons_self _ _)
    rw [wholeJobWalk_cons m hw job rest rc hj] at h
    have h2 := ih _ rc2 (fun u hu => hr u (List.mem_cons_of_mem _ hu)) h
    have h1 := dispatchAll_machineTime job k (jobsOf m job) rc
    simp only [List.map_cons, List.sum_cons]
    omega

theorem wholeJobWalk_covered (m : Model) (hw : m.WellFormed) (hd : m.NonNegDurations) :
    ∀ (schedule : List Int) (rc rc2 : RefClock), InRange m schedule →
      wholeJobWalk m schedule rc = some rc2 → Covered m rc → Covered m rc2 := by
  intro schedule
  induction schedule with
  | nil => intro rc rc2 _ h hc; simp only [wholeJobWalk, Option.some.injEq] at h; rw [← h]; exact hc
  | cons job rest ih =>
    intro rc rc2 hr h hc
    have hj := hr job (List.mem_cons_self _ _)
    rw [wholeJobWalk_cons m hw job rest rc hj] at h
    have hmem := (jobsOf_mem m hw job hj).2
    exact ih _ rc2 (fun u hu => hr u (List.mem_cons_of_mem _ hu)) h
      (dispatchAll_covered m job _ rc (hw.2.2 _ hmem) (hd _ hmem) hc)

theorem covered_zero (m : Model) (hw : m.WellFormed) : Covered m RefClock.zero := by
  intro j
  exact ⟨0, hw.2.1, le_refl _⟩

theorem specMax_ge : ∀ (l : List Int) (v : Int), specMax l = some v → ∀ x ∈ l, x ≤ v := by
  intro l
  induction l with
  | nil => intro v h; simp [specMax] at h
  | cons y ys ih =>
    intro v h x hx
    simp only [specMax, Option.some.injEq] at h
    cases hs : specMax ys with
    | none =>
      rw [hs] at h
      cases ys with
      | nil =>
        simp only [List.mem_singleton] at hx
        simp only at h
        omega
      | cons z zs => simp [specMax] at hs
    | some w =>
      rw [hs] at h
      simp only at h
      rcases List.mem_cons.1 hx with h1 | h1
      · rw [h1, ← h]; exact le_max_left _ _
      · have := ih w hs x h1
        rw [← h]; exact le_trans this (le_max_right _ _)

theorem makespan_ge_machineTime (m : Model) (rc : RefClock) (v : Int)
    (h : rc.makespan m = some v) (k : Nat) (hk : k < m.numMachines) :
    rc.machineTime (k : Int) ≤ v := by
  apply specMax_ge _ v h
  exact List.mem_map.2 ⟨k, List.mem_range.2 hk, rfl⟩

/-- Summing a non-negative quantity over a schedule that mentions every job index
gives at least its sum over the job indices. -/
theorem sum_range_le_sum_schedule (n : Nat) (schedule : List Int) (g : Int → Int)
    (hg : ∀ x ∈ schedule, 0 ≤ g x) (hall : ∀ j : Nat, j < n → (j : Int) ∈ schedule) :
    ((List.range n).map fun j : Nat => g (j : Int)).sum ≤ (schedule.map g).sum := by
  have hnd : ((List.range n).map fun j : Nat => (j : Int)).Nodup :=
    (List.nodup_range n).map (fun a b h => by simpa using h)
  have hsub : ((List.range n).map fun j : Nat => (j : Int)) ⊆ schedule := by
    intro x hx
    obtain ⟨j, hj, rfl⟩ := List.mem_map.1 hx
    exact hall j (List.mem_range.1 hj)
  obtain ⟨l, hperm, hsl⟩ := List.subperm_of_subset hnd hsub
  have h1 : (l.map g).sum = (((List.range n).map fun j : Nat => (j : Int)).map g).sum :=
    (hperm.map g).sum_eq
  have h2 : (l.map g).sum ≤ (schedule.map g).sum := by
    apply List.Sublist.sum_le_sum (hsl.map g)
    intro a ha
    obtain ⟨x, hx, rfl⟩ := List.mem_map.1 ha
    exact hg x hx
  rw [List.map_map] at h1
  have h3 : ((List.range n).map fun j : Nat => g (j : Int)).sum = (l.map g).sum := by
    rw [h1]; rfl
  rw [h3]
  exact h2

theorem jobsOf_natCast (m : Model) (j : Nat) : jobsOf m (j : Int) = m.jobs.getD j [] := by
  simp [jobsOf, vecGet, List.getD_eq_getElem?_getD]

theorem jobs_eq_map_range (m : Model) (hw : m.WellFormed) :
    m.jobs = (List.range m.numJobs).map fun j : Nat => jobsOf m (j : Int) := by
  apply List.ext_getElem?
  intro i
  rw [List.getElem?_map]
  by_cases hi : i < m.numJobs
  · rw [List.getElem?_range hi]
    have : i < m.jobs.length := by rw [← hw.1]; exact hi
    simp [jobsOf_natCast, List.getD_eq_getElem?_getD, List.getElem?_eq_getElem this]
  · have h1 : (List.range m.numJobs)[i]? = none := by simp; omega
    have h2 : m.jobs[i]? = none := by simp; rw [← hw.1]; omega
    rw [h1, h2]; rfl

theorem machineLoad_eq (m : Model) (hw : m.WellFormed) (k : Nat) :
    machineLoad m k
      = ((List.range m.numJobs).map fun j : Nat => loadOn (k : Int) (jobsOf m (j : Int))).sum := by
  unfold machineLoad
  conv_lhs => rw [jobs_eq_map_range m hw]
  rw [List.map_map]
  rfl

theorem mem_of_valid (m : Model) (hw : m.WellFormed) (schedule : List Int)
    (hv : ValidSchedule m schedule) (j : Nat) (hj : j < m.numJobs) : (j : Int) ∈ schedule := by
  apply List.count_pos_iff.1
  rw [hv.2.2 j hj]
  exact hw.2.1

/-! ## The schedule generator -/

theorem vecSet_append_cons {α : Type} (pre : List α) (a b : α) (tl : List α) :
    vecSet (pre ++ a :: tl) (pre.length : Int) b = some (pre ++ b :: tl) := by
  unfold vecSet
  have h1 : ((pre.length : Int)).toNat = pre.length := by simp
  rw [if_pos ⟨by omega, by rw [h1]; simp⟩, h1]
  simp

theorem canonicalUpTo_length (nM n : Nat) : (canonicalUpTo nM n).length = n * nM := by
  induction n with
  | zero => simp [canonicalUpTo]
  | succ n ih =>
    unfold canonicalUpTo at ih ⊢
    rw [List.range_succ, List.flatMap_append, List.length_append, ih]
    simp [Nat.succ_mul]

theorem canonicalUpTo_succ (nM n : Nat) :
    canonicalUpTo nM (n + 1) = canonicalUpTo nM n ++ List.replicate nM (n : Int) := by
  unfold canonicalUpTo
  rw [List.range_succ, List.flatMap_append]
  simp

theorem fillRow (nM j : Nat) (pre : List Int) (hpre : pre.length = j * nM) :
    ∀ (k R : Nat), k ≤ R →
      forLoop (fun k w => vecSet w ((j : Int) * (nM : Int) + (k : Int)) (j : Int)) k
          (pre ++ List.replicate R 0)
        = some (pre ++ List.replicate k (j : Int) ++ List.replicate (R - k) 0) := by
  intro k
  induction k with
  | zero => intro R _; simp [forLoop]
  | succ k ih =>
    intro R hR
    rw [forLoop, ih R (by omega)]
    simp only [Option.some_bind]
    obtain ⟨r, hr⟩ : ∃ r, R - k = r + 1 := ⟨R - k - 1, by omega⟩
    have hr2 : R - (k + 1) = r := by omega
    rw [hr, hr2, List.replicate_succ]
    have hlen : ((j : Int) * (nM : Int) + (k : Int))
        = ((pre ++ List.replicate k (j : Int)).length : Int) := by
      simp [hpre]
    rw [hlen, vecSet_append_cons]
    rw [List.replicate_succ', List.append_assoc, List.append_assoc, List.append_assoc]
    rfl

theorem fillRows (m : Model) :
    ∀ n : Nat, n ≤ m.numJobs →
      forLoop (fun j v =>
        forLoop (fun k w => vecSet w ((j : Int) * (m.numMachines : Int) + (k : Int)) (j : Int))
          m.numMachines v) n (List.replicate (m.numJobs * m.numMachines) 0)
        = some (canonicalUpTo m.numMachines n
            ++ List.replicate ((m.numJobs - n) * m.numMachines) 0) := by
  intro n
  induction n with
  | zero => intro _; simp [forLoop, canonicalUpTo]
  | succ n ih =>
    intro hn
    rw [forLoop, ih (by omega)]
    simp only [Option.some_bind]
    have h := fillRow m.numMachines n (canonicalUpTo m.numMachines n)
      (canonicalUpTo_length _ _) m.numMachines ((m.numJobs - n) * m.numMachines) (by
        obtain ⟨r, hr⟩ : ∃ r, m.numJobs - n = r + 1 := ⟨m.numJobs - n - 1, by omega⟩
        rw [hr, Nat.succ_mul]; omega)
    rw [h, canonicalUpTo_succ]
    congr 2
    obtain ⟨r, hr⟩ : ∃ r, m.numJobs - n = r + 1 := ⟨m.numJobs - n - 1, by omega⟩
    have hr2 : m.numJobs - (n + 1) = r := by omega
    rw [hr, hr2, Nat.succ_mul]
    simp

theorem unshuffled_eq (m : Model) : unshuffled m = some (canonicalSchedule m) := by
  unfold unshuffled fillSchedule
  rw [fillRows m m.numJobs (le_refl _)]
  simp [canonicalSchedule]

theorem count_canonicalUpTo (nM n : Nat) (x : Int) :
    (canonicalUpTo nM n).count x = if 0 ≤ x ∧ x < n then nM else 0 := by
  induction n with
  | zero =>
    simp only [canonicalUpTo, List.range_zero, List.flatMap_nil, List.count_nil]
    split
    · omega
    · rfl
  | succ n ih =>
    rw [canonicalUpTo_succ, List.count_append, ih, List.count_replicate]
    by_cases h1 : (n : Int) = x
    · subst h1; simp
    · have h2 : ¬ ((n : Int) == x) = true := by simpa using h1
      simp only [h2, if_false, Nat.add_zero]
      by_cases h3 : 0 ≤ x ∧ x < n
      · have h4 : 0 ≤ x ∧ x < ((n + 1 : Nat) : Int) := by push_cast; omega
        rw [if_pos h3, if_pos h4]
        simp
      · have h4 : ¬ (0 ≤ x ∧ x < ((n + 1 : Nat) : Int)) := by push_cast; omega
        rw [if_neg h3, if_neg h4]
        simp

theorem valid_of_perm (m : Model) (v : List Int) (h : v.Perm (canonicalSchedule m)) :
    ValidSchedule m v := by
  have hc : ∀ x : Int, v.count x = if 0 ≤ x ∧ x < m.numJobs then m.numMachines else 0 := by
    intro x
    rw [h.count_eq]
    exact count_canonicalUpTo m.numMachines m.numJobs x
  refine ⟨?_, ?_, ?_⟩
  · rw [h.length_eq]; exact canonicalUpTo_length m.numMachines m.numJobs
  · intro x hx
    have hpos := List.count_pos_iff.2 hx
    rw [hc x] at hpos
    by_contra hcon
    rw [if_neg hcon] at hpos
    exact absurd hpos (by decide)
  · intro j hj
    rw [hc, if_pos ⟨by omega, by exact_mod_cast hj⟩]

/-! ## Swaps -/

theorem vecSwap_eq {α : Type} (v : List α) (a b : Int) (ha : 0 ≤ a) (hb : 0 ≤ b)
    (ha1 : a.toNat < v.length) (hb1 : b.toNat < v.length) :
    vecSwap v a b
      = some ((v.set a.toNat (v.get ⟨b.toNat, hb1⟩)).set b.toNat (v.get ⟨a.toNat, ha1⟩)) := by
  unfold vecSwap
  rw [vecGet_eq_some v a ha ha1, vecGet_eq_some v b hb hb1]
  simp only [Option.bind_eq_bind, Option.some_bind, vecSet]
  rw [if_pos ⟨ha, ha1⟩]
  simp only [Option.some_bind]
  rw [if_pos ⟨hb, by simpa using hb1⟩]

theorem vecSwap_inv {α : Type} (v w : List α) (a b : Int) (h : vecSwap v a b = some w) :
    ∃ (ha1 : a.toNat < v.length) (hb1 : b.toNat < v.length),
      w = (v.set a.toNat (v.get ⟨b.toNat, hb1⟩)).set b.toNat (v.get ⟨a.toNat, ha1⟩) := by
  unfold vecSwap vecGet vecSet at h
  by_cases ha : 0 ≤ a
  · by_cases hb : 0 ≤ b
    · by_cases ha1 : a.toNat < v.length
      · by_cases hb1 : b.toNat < v.length
        · refine ⟨ha1, hb1, ?_⟩
          simp [ha, hb, ha1, hb1, List.getElem?_eq_getElem] at h
          simp only [List.get_eq_getElem]
          exact h.2.symm
        · simp [ha, hb, ha1, hb1, List.getElem?_eq_none (not_lt.1 hb1)] at h
      · simp [ha, hb, ha1, List.getElem?_eq_none (not_lt.1 ha1)] at h
    · simp [ha, hb] at h
  · simp [ha] at h

theorem swap_perm (v : List Int) (a b : Nat) (ha : a < v.length) (hb : b < v.length) :
    ((v.set a (v.get ⟨b, hb⟩)).set b (v.get ⟨a, ha⟩)).Perm v := by
  rw [List.perm_iff_count]
  intro c
  have hb2 : b < (v.set a (v.get ⟨b, hb⟩)).length := by simpa using hb
  rw [List.count_set _ _ _ _ hb2, List.count_set _ _ _ _ ha]
  have hvb : (v.set a (v.get ⟨b, hb⟩))[b] = v[b] := by
    rw [List.getElem_set]
    split <;> rfl
  rw [hvb]
  simp only [List.get_eq_getElem]
  by_cases hx : v[a] = c
  · have hpos : 0 < v.count c := List.count_pos_iff.2 (hx ▸ List.getElem_mem ha)
    have e1 : (v[a] == c) = true := by simpa using hx
    by_cases hy : v[b] = c
    · have e2 : (v[b] == c) = true := by simpa using hy
      simp only [e1, e2, if_true]
      omega
    · have e2 : (v[b] == c) = false := by simpa using hy
      simp only [e1, e2, if_true]
      simp only [Bool.false_eq_true, if_false]
      omega
  · have e1 : (v[a] == c) = false := by simpa using hx
    by_cases hy : v[b] = c
    · have e2 : (v[b] == c) = true := by simpa using hy
      simp only [e1, e2, if_true]
      simp only [Bool.false_eq_true, if_false]
      omega
    · have e2 : (v[b] == c) = false := by simpa using hy
      simp only [e1, e2]
      simp only [Bool.false_eq_true, if_false]
      omega

theorem vecSwap_perm (v w : List Int) (a b : Int) (h : vecSwap v a b = some w) : w.Perm v := by
  obtain ⟨ha1, hb1, rfl⟩ := vecSwap_inv v w a b h
  exact swap_perm v _ _ ha1 hb1

theorem vecSwap_isSome (v : List Int) (a b : Int) (ha : 0 ≤ a ∧ a < v.length)
    (hb : 0 ≤ b ∧ b < v.length) : ∃ w, vecSwap v a b = some w :=
  ⟨_, vecSwap_eq v a b ha.1 hb.1 (by omega) (by omega)⟩

theorem customShuffleLoop_perm (rng : Nat → Nat) :
    ∀ (i : Nat) (vec : List Int) (k : Nat), i < vec.length ∨ i = 0 →
      ∃ w k1, customShuffleLoop rng i vec k = some (w, k1) ∧ w.Perm vec := by
  intro i
  induction i with
  | zero => intro vec k _; exact ⟨vec, k, rfl, List.Perm.refl _⟩
  | succ i ih =>
    intro vec k hi
    have hi2 : i + 1 < vec.length := by omega
    have hj : rng k % (i + 1 + 1) < i + 1 + 1 := Nat.mod_lt _ (by omega)
    obtain ⟨v1, hv1⟩ := vecSwap_isSome vec ((i + 1 : Nat) : Int) ((rng k % (i + 1 + 1) : Nat) : Int)
      ⟨by omega, by omega⟩ ⟨by omega, by omega⟩
    have hp1 := vecSwap_perm _ _ _ _ hv1
    obtain ⟨w, k1, hw, hp⟩ := ih v1 (k + 1) (Or.inl (by rw [hp1.length_eq]; omega))
    refine ⟨w, k1, ?_, hp.trans hp1⟩
    simp only [customShuffleLoop, randomInt]
    rw [hv1]
    exact hw

theorem customShuffle_perm (rng : Nat → Nat) (vec : List Int) (k : Nat) :
    ∃ w k1, customShuffle rng vec k = some (w, k1) ∧ w.Perm vec := by
  unfold customShuffle
  apply customShuffleLoop_perm
  omega

/-! ## Loops -/

theorem forLoop_total {σ : Type} (body : Nat → σ → Option σ) (P : σ → Prop)
    (hstep : ∀ i s, P s → ∃ s2, body i s = some s2 ∧ P s2) :
    ∀ (n : Nat) (s : σ), P s → ∃ s2, forLoop body n s = some s2 ∧ P s2 := by
  intro n
  induction n with
  | zero => intro s hs; exact ⟨s, rfl, hs⟩
  | succ n ih =>
    intro s hs
    obtain ⟨s1, h1, hp1⟩ := ih s hs
    obtain ⟨s2, h2, hp2⟩ := hstep n s1 hp1
    exact ⟨s2, by simp [forLoop, h1, h2], hp2⟩

theorem forLoop_total_indexed {σ : Type} (body : Nat → σ → Option σ) (P : Nat → σ → Prop)
    (n : Nat) (hstep : ∀ i s, i < n → P i s → ∃ s2, body i s = some s2 ∧ P (i + 1) s2) :
    ∀ (i : Nat) (s : σ), i ≤ n → P 0 s → ∃ s2, forLoop body i s = some s2 ∧ P i s2 := by
  intro i
  induction i with
  | zero => intro s _ hs; exact ⟨s, rfl, hs⟩
  | succ i ih =>
    intro s hi hs
    obtain ⟨s1, h1, hp1⟩ := ih s (by omega) hs
    obtain ⟨s2, h2, hp2⟩ := hstep i s1 (by omega) hp1
    exact ⟨s2, by simp [forLoop, h1, h2], hp2⟩

theorem forLoop_preserves {σ : Type} (body : Nat → σ → Option σ) (P : σ → Prop)
    (hstep : ∀ i s s2, P s → body i s = some s2 → P s2) :
    ∀ (n : Nat) (s s2 : σ), P s → forLoop body n s = some s2 → P s2 := by
  intro n
  induction n with
  | zero => intro s s2 hs h; simp only [forLoop, Option.some.injEq] at h; exact h ▸ hs
  | succ n ih =>
    intro s s2 hs h
    simp only [forLoop] at h
    obtain ⟨s1, h1, h2⟩ := Option.bind_eq_some.1 h
    exact hstep n s1 s2 (ih s s1 hs h1) h2

/-! ## Solutions -/

theorem inRange_of_perm (m : Model) (s t : List Int) (h : s.Perm t) (ht : InRange m t) :
    InRange m s :=
  fun j hj => ht j (h.mem_iff.1 hj)

theorem valid_perm (m : Model) (s t : List Int) (h : s.Perm t) (ht : ValidSchedule m t) :
    ValidSchedule m s :=
  ⟨h.length_eq.trans ht.1, inRange_of_perm m s t h ht.2.1,
    fun j hj => (h.count_eq _).trans (ht.2.2 j hj)⟩

theorem evaluated_spec (m : Model) (hw : m.WellFormed) (s : List Int) (hr : InRange m s) :
    ∃ sol, evaluated m s = some sol ∧ sol.schedule = s ∧ Consistent m sol := by
  obtain ⟨v, hv⟩ := calculateMakespan_isSome m s hw hr
  exact ⟨⟨s, v⟩, by simp [evaluated, hv], rfl, hv⟩

theorem ACO.generateInitialSolution_spec_aco (m : Model) (hw : m.WellFormed) (rng : Nat → Nat)
    (k : Nat) :
    ∃ sol k1, ACO.generateInitialSolution m rng k = some (sol, k1) ∧
      ValidSchedule m sol.schedule ∧ Consistent m sol := by
  obtain ⟨w, k1, hshuffle, hperm⟩ := customShuffle_perm rng (canonicalSchedule m) k
  have hvalid := valid_of_perm m w hperm
  obtain ⟨sol, hsol, hs, hc⟩ := evaluated_spec m hw w hvalid.2.1
  refine ⟨sol, k1, ?_, hs ▸ hvalid, hc⟩
  simp [ACO.generateInitialSolution, unshuffled_eq, hshuffle, hsol]

theorem SA.generateInitialSolution_spec_sa (m : Model) (hw : m.WellFormed) (sh : StdShuffle)
    (rng : Nat → Nat) (k : Nat) :
    ∃ sol k1, SA.generateInitialSolution m sh rng k = some (sol, k1) ∧
      ValidSchedule m sol.schedule ∧ Consistent m sol := by
  have hvalid := valid_of_perm m _ (sh.perm rng k (canonicalSchedule m))
  obtain ⟨sol, hsol, hs, hc⟩ := evaluated_spec m hw _ hvalid.2.1
  refine ⟨sol, (sh.run rng k (canonicalSchedule m)).2, ?_, hs ▸ hvalid, hc⟩
  simp [SA.generateInitialSolution, unshuffled_eq, hsol]

theorem GA.generateInitialSolution_spec_ga (m : Model) (hw : m.WellFormed) (sh : StdShuffle)
    (rng : Nat → Nat) (k : Nat) :
    ∃ sol k1, GA.generateInitialSolution m sh rng k = some (sol, k1) ∧
      ValidSchedule m sol.schedule ∧ Consistent m sol := by
  have hvalid := valid_of_perm m _ (sh.perm rng k (canonicalSchedule m))
  obtain ⟨sol, hsol, hs, hc⟩ := evaluated_spec m hw _ hvalid.2.1
  refine ⟨sol, (sh.run rng k (canonicalSchedule m)).2, ?_, hs ▸ hvalid, hc⟩
  simp [GA.generateInitialSolution, unshuffled_eq, hsol]

theorem TS.generateInitialSolution_spec_ts (m : Model) (hw : m.WellFormed) (sh : StdShuffle)
    (engine : Nat → Nat) :
    ∃ sol, TS.generateInitialSolution m sh engine = some sol ∧
      ValidSchedule m sol.schedule ∧ Consistent m sol := by
  have hvalid := valid_of_perm m _ (sh.perm engine 0 (canonicalSchedule m))
  obtain ⟨sol, hsol, hs, hc⟩ := evaluated_spec m hw _ hvalid.2.1
  refine ⟨sol, ?_, hs ▸ hvalid, hc⟩
  simp [TS.generateInitialSolution, unshuffled_eq, hsol]

/-! ## Neighbours (SA and TS) -/

theorem swapEvaluate_spec (m : Model) (hw : m.WellFormed) (s : List Int) (hr : InRange m s)
    (a b : Nat) (ha : a < s.length) (hb : b < s.length) (k : Nat) :
    ∃ nb, ((vecSwap s (a : Int) (b : Int)).bind fun schedule =>
        (calculateMakespan m schedule).map fun v =>
          (({ schedule := schedule, makespan := v } : Solution), k)) = some (nb, k) ∧
      nb.schedule.Perm s ∧ Consistent m nb := by
  obtain ⟨w, hw1⟩ := vecSwap_isSome s (a : Int) (b : Int) ⟨by omega, by omega⟩ ⟨by omega, by omega⟩
  have hp := vecSwap_perm s w _ _ hw1
  obtain ⟨v, hv⟩ := calculateMakespan_isSome m w hw (inRange_of_perm m w s hp hr)
  exact ⟨⟨w, v⟩, by simp [hw1, hv], hp, hv⟩

theorem swapEvaluate_inv (m : Model) (s : List Int) (a b : Int) (k : Nat) (nb : Solution)
    (k1 : Nat)
    (h : ((vecSwap s a b).bind fun schedule =>
        (calculateMakespan m schedule).map fun v =>
          (({ schedule := schedule, makespan := v } : Solution), k)) = some (nb, k1)) :
    nb.schedule.Perm s ∧ Consistent m nb := by
  obtain ⟨w, hw1, h2⟩ := Option.bind_eq_some.1 h
  obtain ⟨v, hv, h3⟩ := Option.map_eq_some'.1 h2
  simp only [Prod.mk.injEq] at h3
  obtain ⟨rfl, _⟩ := h3
  exact ⟨vecSwap_perm s w _ _ hw1, hv⟩

theorem SA.getNeighbor_spec_sa (m : Model) (hw : m.WellFormed) (rng : Nat → Nat) (k : Nat)
    (cur : Solution) (hr : InRange m cur.schedule) (hlen : 0 < cur.schedule.length) :
    ∃ nb k1, SA.getNeighbor m rng k cur = some (nb, k1) ∧ nb.schedule.Perm cur.schedule ∧
      Consistent m nb := by
  have hne : cur.schedule.length ≠ 0 := by omega
  obtain ⟨nb, h1, h2, h3⟩ := swapEvaluate_spec m hw cur.schedule hr
    ((rngCall rng k).1 % cur.schedule.length) ((rngCall rng (rngCall rng k).2).1 % cur.schedule.length)
    (Nat.mod_lt _ hlen) (Nat.mod_lt _ hlen) (rngCall rng (rngCall rng k).2).2
  refine ⟨nb, (rngCall rng (rngCall rng k).2).2, ?_, h2, h3⟩
  simp only [SA.getNeighbor, if_neg hne]
  exact h1

theorem SA.getNeighbor_inv_sa (m : Model) (rng : Nat → Nat) (k : Nat) (cur nb : Solution)
    (k1 : Nat) (h : SA.getNeighbor m rng k cur = some (nb, k1)) :
    nb.schedule.Perm cur.schedule ∧ Consistent m nb := by
  unfold SA.getNeighbor at h
  by_cases hz : cur.schedule.length = 0
  · simp [hz] at h
  · simp only [if_neg hz] at h
    exact swapEvaluate_inv m _ _ _ _ nb k1 h

theorem TS.getNeighbor_spec_ts (m : Model) (hw : m.WellFormed) (rng : Nat → Nat) (k : Nat)
    (cur : Solution) (hr : InRange m cur.schedule) (hlen : 0 < cur.schedule.length) :
    ∃ nb k1, TS.getNeighbor m rng k cur = some (nb, k1) ∧ nb.schedule.Perm cur.schedule ∧
      Consistent m nb := by
  have hne : cur.schedule.length ≠ 0 := by omega
  obtain ⟨nb, h1, h2, h3⟩ := swapEvaluate_spec m hw cur.schedule hr
    ((randCall rng k).1 % cur.schedule.length)
    ((randCall rng (randCall rng k).2).1 % cur.schedule.length)
    (Nat.mod_lt _ hlen) (Nat.mod_lt _ hlen) (randCall rng (randCall rng k).2).2
  refine ⟨nb, (randCall rng (randCall rng k).2).2, ?_, h2, h3⟩
  simp only [TS.getNeighbor, if_neg hne]
  exact h1

theorem TS.getNeighbor_inv_ts (m : Model) (rng : Nat → Nat) (k : Nat) (cur nb : Solution)
    (k1 : Nat) (h : TS.getNeighbor m rng k cur = some (nb, k1)) :
    nb.schedule.Perm cur.schedule ∧ Consistent m nb := by
  unfold TS.getNeighbor at h
  by_cases hz : cur.schedule.length = 0
  · simp [hz] at h
  · simp only [if_neg hz] at h
    exact swapEvaluate_inv m _ _ _ _ nb k1 h

theorem sound_of_perm (m : Model) (cur nb : Solution) (hc : Sound m cur)
    (hp : nb.schedule.Perm cur.schedule) (hn : Consistent m nb) : Sound m nb :=
  ⟨valid_perm m _ _ hp hc.1, hn⟩

theorem valid_length_pos (m : Model) (hw : m.WellFormed) (hj : 1 ≤ m.numJobs) (s : List Int)
    (h : ValidSchedule m s) : 0 < s.length := by
  rw [h.1]
  exact Nat.mul_pos hj hw.2.1

theorem ite_holds {α : Type} (P : α → Prop) (c : Prop) [Decidable c] (a b : α) (ha : P a)
    (hb : P b) : P (if c then a else b) := by
  split <;> assumption

theorem better_le_right (a b : Solution) :
    (if a.makespan < b.makespan then a else b).makespan ≤ b.makespan := by
  split
  · omega
  · exact le_refl _

theorem better_le_left (a b : Solution) :
    (if a.makespan < b.makespan then a else b).makespan ≤ a.makespan := by
  split
  · exact le_refl _
  · omega

/-! ## Simulated annealing -/

theorem SA.iteration_spec_sa (m : Model) (hw : m.WellFormed) (hj : 1 ≤ m.numJobs) (e : ExpFn)
    (rng : Nat → Nat) (st : SA.State) (hinv : SA.Inv m st) :
    ∃ st2, SA.iteration m e rng st = some st2 ∧ SA.Inv m st2 ∧
      st2.bestSolution.makespan ≤ st.bestSolution.makespan := by
  obtain ⟨nb, k1, hnb, hperm, hcons⟩ := SA.getNeighbor_spec_sa m hw rng st.calls st.currentSolution
    hinv.1.1.2.1 (valid_length_pos m hw hj _ hinv.1.1)
  have hsn : Sound m nb := sound_of_perm m _ nb hinv.1 hperm hcons
  simp only [SA.iteration, hnb, Option.some_bind]
  have hcur : Sound m (if SA.accepts e st.currentSolution.makespan nb.makespan st.temperature
      (rngCall rng k1).1 then nb else st.currentSolution) :=
    ite_holds (Sound m) _ _ _ hsn hinv.1
  exact ⟨_, rfl, ⟨hcur, ite_holds (Sound m) _ _ _ hcur hinv.2⟩, better_le_right _ _⟩

theorem SA.run_spec_sa (m : Model) (hw : m.WellFormed) (hj : 1 ≤ m.numJobs) (e : ExpFn)
    (rng : Nat → Nat) (n : Nat) (st : SA.State) (hinv : SA.Inv m st) :
    ∃ st2, SA.run m e rng n st = some st2 ∧ SA.Inv m st2 ∧
      st2.bestSolution.makespan ≤ st.bestSolution.makespan := by
  induction n with
  | zero => exact ⟨st, rfl, hinv, le_refl _⟩
  | succ n ih =>
    obtain ⟨s1, h1, hi1, hle1⟩ := ih
    obtain ⟨s2, h2, hi2, hle2⟩ := SA.iteration_spec_sa m hw hj e rng s1 hi1
    refine ⟨s2, ?_, hi2, le_trans hle2 hle1⟩
    unfold SA.run at h1 ⊢
    simp [forLoop, h1, h2]



/-! ## Tabu search -/

theorem TS.exploreStep_spec (m : Model) (hw : m.WellFormed) (hj : 1 ≤ m.numJobs)
    (rng : Nat → Nat) (cur : Solution) (hcur : Sound m cur) (acc : Solution × Nat)
    (hacc : Sound m acc.1) :
    ∃ acc2, TS.exploreStep m rng cur acc = some acc2 ∧ Sound m acc2.1 := by
  obtain ⟨nb, k1, hnb, hperm, hcons⟩ := TS.getNeighbor_spec_ts m hw rng acc.2 cur hcur.1.2.1
    (valid_length_pos m hw hj _ hcur.1)
  have hsn : Sound m nb := sound_of_perm m _ nb hcur hperm hcons
  refine ⟨_, by simp only [TS.exploreStep, hnb, Option.map_some']; rfl, ?_⟩
  exact ite_holds (Sound m) _ _ _ hsn hacc

theorem TS.exploreNeighbors_spec (m : Model) (hw : m.WellFormed) (hj : 1 ≤ m.numJobs)
    (rng : Nat → Nat) (cur : Solution) (hcur : Sound m cur) (k : Nat) :
    ∃ acc, TS.exploreNeighbors m rng cur k = some acc ∧ Sound m acc.1 :=
  forLoop_total (fun _ acc => TS.exploreStep m rng cur acc)
    (fun acc : Solution × Nat => Sound m acc.1)
    (fun _ acc hacc => TS.exploreStep_spec m hw hj rng cur hcur acc hacc) m.numJobs (cur, k) hcur

theorem vecGet_of_lt {α : Type} (v : List α) (i : Nat) (h : i < v.length) :
    ∃ x, vecGet v (i : Int) = some x :=
  ⟨_, vecGet_eq_some v (i : Int) (by omega) (by simpa using h)⟩

theorem TS.isTabuLoop_total (schedule : List Int) (h : 2 ≤ schedule.length) :
    ∀ tabuList : List (Int × Int), ∃ b, TS.isTabuLoop schedule tabuList = some b := by
  obtain ⟨s0, h0⟩ := vecGet_of_lt schedule 0 (by omega)
  obtain ⟨s1, h1⟩ := vecGet_of_lt schedule 1 (by omega)
  intro tabuList
  induction tabuList with
  | nil => exact ⟨false, rfl⟩
  | cons move rest ih =>
    obtain ⟨b, hb⟩ := ih
    simp only [Nat.cast_zero, Nat.cast_one] at h0 h1
    simp only [TS.isTabuLoop, h0, h1, Option.some_bind]
    split
    · exact ⟨true, rfl⟩
    · exact ⟨b, hb⟩

theorem TS.iteration_spec_ts (m : Model) (hw : m.WellFormed) (ht : 2 ≤ m.numJobs * m.numMachines)
    (rng : Nat → Nat) (st : TS.State) (hinv : TS.Inv m st) :
    ∃ st2, TS.iteration m rng st = some st2 ∧ TS.Inv m st2 ∧
      st2.bestSolution.makespan ≤ st.bestSolution.makespan := by
  have hj : 1 ≤ m.numJobs := by
    rcases Nat.eq_zero_or_pos m.numJobs with h | h
    · rw [h] at ht; omega
    · exact h
  obtain ⟨⟨bn, k1⟩, hex, hbn⟩ := TS.exploreNeighbors_spec m hw hj rng st.currentSolution hinv.1
    st.calls
  have hlen : 2 ≤ bn.schedule.length := by
    have : bn.schedule.length = m.numJobs * m.numMachines := hbn.1.1
    omega
  obtain ⟨b, hb⟩ := TS.isTabuLoop_total bn.schedule hlen st.tabuList
  obtain ⟨s0, h0⟩ := vecGet_of_lt bn.schedule 0 (by omega)
  obtain ⟨s1, h1⟩ := vecGet_of_lt bn.schedule 1 (by omega)
  simp only [Nat.cast_zero, Nat.cast_one] at h0 h1
  simp only [TS.iteration, hex, hb, Option.some_bind, h0, h1, Option.map_some']
  by_cases hacc : b = false ∨ bn.makespan < st.bestSolution.makespan
  · simp only [if_pos hacc, Option.map_some']
    exact ⟨_, rfl, ⟨hbn, ite_holds (Sound m) _ _ _ hbn hinv.2⟩, better_le_right _ _⟩
  · simp only [if_neg hacc, Option.map_some']
    exact ⟨_, rfl, ⟨hinv.1, ite_holds (Sound m) _ _ _ hinv.1 hinv.2⟩, better_le_right _ _⟩

theorem TS.run_spec_ts (m : Model) (hw : m.WellFormed) (ht : 2 ≤ m.numJobs * m.numMachines)
    (rng : Nat → Nat) (n : Nat) (st : TS.State) (hinv : TS.Inv m st) :
    ∃ st2, TS.run m rng n st = some st2 ∧ TS.Inv m st2 ∧
      st2.bestSolution.makespan ≤ st.bestSolution.makespan := by
  induction n with
  | zero => exact ⟨st, rfl, hinv, le_refl _⟩
  | succ n ih =>
    obtain ⟨s1, h1, hi1, hle1⟩ := ih
    obtain ⟨s2, h2, hi2, hle2⟩ := TS.iteration_spec_ts m hw ht rng s1 hi1
    refine ⟨s2, ?_, hi2, le_trans hle2 hle1⟩
    unfold TS.run at h1 ⊢
    simp [forLoop, h1, h2]



/-! ## Genetic algorithm -/

theorem fit_evaluate (m : Model) (hw : m.WellFormed) (s : List Int)
    (hlen : s.length = m.numJobs * m.numMachines) (hr : InRange m s) :
    ∃ v, calculateMakespan m s = some v ∧ Fit m ⟨s, v⟩ := by
  obtain ⟨v, hv⟩ := calculateMakespan_isSome m s hw hr
  exact ⟨v, hv, hlen, hr, hv⟩

theorem GA.tournamentStep_spec (rng : Nat → Nat) (population : List Solution)
    (hpop : GA.POPULATION_SIZE ≤ population.length) (acc : Solution × Nat)
    (hacc : acc.1 ∈ population) :
    ∃ acc2, GA.tournamentStep rng population acc = some acc2 ∧ acc2.1 ∈ population := by
  have hlt : (rngCall rng acc.2).1 % GA.POPULATION_SIZE < population.length :=
    lt_of_lt_of_le (Nat.mod_lt _ (by decide)) hpop
  have hget := vecGet_eq_some population (((rngCall rng acc.2).1 % GA.POPULATION_SIZE : Nat) : Int)
    (by omega) (by simpa using hlt)
  refine ⟨_, by simp only [GA.tournamentStep, hget, Option.map_some']; rfl, ?_⟩
  exact ite_holds (fun s => s ∈ population) _ _ _ (List.get_mem _ _ _) hacc

theorem GA.tournamentSelection_spec (rng : Nat → Nat) (k : Nat) (population : List Solution)
    (hpop : GA.POPULATION_SIZE ≤ population.length) :
    ∃ s k1, GA.tournamentSelection rng k population = some (s, k1) ∧ s ∈ population := by
  have hlt : (rngCall rng k).1 % GA.POPULATION_SIZE < population.length :=
    lt_of_lt_of_le (Nat.mod_lt _ (by decide)) hpop
  have hget := vecGet_eq_some population (((rngCall rng k).1 % GA.POPULATION_SIZE : Nat) : Int)
    (by omega) (by simpa using hlt)
  obtain ⟨⟨s, k1⟩, hs, hmem⟩ := forLoop_total (fun _ acc => GA.tournamentStep rng population acc)
    (fun acc : Solution × Nat => acc.1 ∈ population)
    (fun _ acc hacc => GA.tournamentStep_spec rng population hpop acc hacc) (3 - 1)
    (_, (rngCall rng k).2) (List.get_mem population _ _)
  refine ⟨s, k1, ?_, hmem⟩
  simp only [GA.tournamentSelection, hget, Option.some_bind]
  exact hs

theorem inRange_set (m : Model) (s : List Int) (i : Nat) (x : Int) (hs : InRange m s)
    (hx : 0 ≤ x ∧ x < m.numJobs) : InRange m (s.set i x) := by
  intro j hj
  rcases List.mem_or_eq_of_mem_set hj with h | h
  · exact hs j h
  · rw [h]; exact hx

theorem vecSet_of_lt {α : Type} (v : List α) (i : Nat) (x : α) (h : i < v.length) :
    vecSet v (i : Int) x = some (v.set i x) := by
  unfold vecSet
  rw [if_pos ⟨by omega, by simpa using h⟩]
  simp

theorem GA.crossoverSwap_spec (m : Model) (L : Nat) (i : Nat) (hi : i < L)
    (acc : List Int × List Int) (h1 : acc.1.length = L ∧ InRange m acc.1)
    (h2 : acc.2.length = L ∧ InRange m acc.2) :
    ∃ acc2, GA.crossoverSwap i acc = some acc2 ∧ (acc2.1.length = L ∧ InRange m acc2.1) ∧
      (acc2.2.length = L ∧ InRange m acc2.2) := by
  have hi1 : i < acc.1.length := by omega
  have hi2 : i < acc.2.length := by omega
  have hg1 := vecGet_eq_some acc.1 (i : Int) (by omega) (by simpa using hi1)
  have hg2 := vecGet_eq_some acc.2 (i : Int) (by omega) (by simpa using hi2)
  refine ⟨(acc.1.set i (acc.2.get ⟨((i : Nat) : Int).toNat, by simpa using hi2⟩),
      acc.2.set i (acc.1.get ⟨((i : Nat) : Int).toNat, by simpa using hi1⟩)),
    by simp only [GA.crossoverSwap, hg1, hg2, Option.some_bind, vecSet_of_lt _ _ _ hi1,
      vecSet_of_lt _ _ _ hi2, Option.map_some'],
    ⟨by simpa using h1.1, ?_⟩, ⟨by simpa using h2.1, ?_⟩⟩
  · exact inRange_set m _ _ _ h1.2 (h2.2 _ (List.get_mem _ _ _))
  · exact inRange_set m _ _ _ h2.2 (h1.2 _ (List.get_mem _ _ _))

theorem GA.crossoverLoop_spec (m : Model) (L : Nat) (cp : Nat) (hcp : cp ≤ L)
    (s1 s2 : List Int) (h1 : s1.length = L ∧ InRange m s1) (h2 : s2.length = L ∧ InRange m s2) :
    ∃ acc, forLoop GA.crossoverSwap cp (s1, s2) = some acc ∧
      (acc.1.length = L ∧ InRange m acc.1) ∧ (acc.2.length = L ∧ InRange m acc.2) :=
  forLoop_total_indexed GA.crossoverSwap
    (fun _ (acc : List Int × List Int) =>
      (acc.1.length = L ∧ InRange m acc.1) ∧ (acc.2.length = L ∧ InRange m acc.2)) cp
    (fun i acc hi hacc => GA.crossoverSwap_spec m L i (by omega) acc hacc.1 hacc.2)
    cp (s1, s2) (le_refl _) ⟨h1, h2⟩

theorem GA.crossover_spec (m : Model) (hw : m.WellFormed) (hj : 1 ≤ m.numJobs)
    (rng : Nat → Nat) (k : Nat) (p1 p2 : Solution) (h1 : Fit m p1) (h2 : Fit m p2) :
    ∃ o1 o2 k1, GA.crossover m rng k p1 p2 = some ((o1, o2), k1) ∧ Fit m o1 ∧ Fit m o2 := by
  have hnt : numTasks m ≠ 0 := by
    have := Nat.mul_pos hj hw.2.1
    unfold numTasks; omega
  have key : ∃ s k3,
      (if GA.belowRate (rngCall rng k).1 GA.CROSSOVER_RATE then
        if numTasks m = 0 then none
        else
          (forLoop GA.crossoverSwap ((rngCall rng (rngCall rng k).2).1 % numTasks m)
            (p1.schedule, p2.schedule)).map fun s => (s, (rngCall rng (rngCall rng k).2).2)
      else some ((p1.schedule, p2.schedule), (rngCall rng k).2)) = some (s, k3) ∧
      (s.1.length = m.numJobs * m.numMachines ∧ InRange m s.1) ∧
      (s.2.length = m.numJobs * m.numMachines ∧ InRange m s.2) := by
    by_cases hb : GA.belowRate (rngCall rng k).1 GA.CROSSOVER_RATE
    · obtain ⟨acc, hacc, hp⟩ := GA.crossoverLoop_spec m (m.numJobs * m.numMachines)
        ((rngCall rng (rngCall rng k).2).1 % numTasks m)
        (le_of_lt (Nat.mod_lt _ (Nat.pos_of_ne_zero hnt))) p1.schedule p2.schedule
        ⟨h1.1, h1.2.1⟩ ⟨h2.1, h2.2.1⟩
      exact ⟨acc, (rngCall rng (rngCall rng k).2).2,
        by simp only [if_pos hb, if_neg hnt, hacc, Option.map_some'], hp⟩
    · exact ⟨(p1.schedule, p2.schedule), (rngCall rng k).2, by simp only [if_neg hb],
        ⟨h1.1, h1.2.1⟩, ⟨h2.1, h2.2.1⟩⟩
  obtain ⟨s, k3, hs, hs1, hs2⟩ := key
  obtain ⟨v1, hv1, hf1⟩ := fit_evaluate m hw s.1 hs1.1 hs1.2
  obtain ⟨v2, hv2, hf2⟩ := fit_evaluate m hw s.2 hs2.1 hs2.2
  refine ⟨⟨s.1, v1⟩, ⟨s.2, v2⟩, k3, ?_, hf1, hf2⟩
  unfold GA.crossover
  simp only [hs, Option.some_bind, hv1, hv2, Option.map_some']

theorem GA.mutate_spec (m : Model) (hw : m.WellFormed) (hj : 1 ≤ m.numJobs)
    (rng : Nat → Nat) (k : Nat) (s : Solution) (hs : Fit m s) :
    ∃ s2 k1, GA.mutate m rng k s = some (s2, k1) ∧ Fit m s2 := by
  have hpos : 0 < numTasks m := Nat.mul_pos hj hw.2.1
  have hnt : numTasks m ≠ 0 := by omega
  have hlen : s.schedule.length = numTasks m := hs.1
  by_cases hb : GA.belowRate (rngCall rng k).1 GA.MUTATION_RATE
  · obtain ⟨nb, h1, h2, h3⟩ := swapEvaluate_spec m hw s.schedule hs.2.1
      ((rngCall rng (rngCall rng k).2).1 % numTasks m)
      ((rngCall rng (rngCall rng (rngCall rng k).2).2).1 % numTasks m)
      (by rw [hlen]; exact Nat.mod_lt _ hpos) (by rw [hlen]; exact Nat.mod_lt _ hpos)
      (rngCall rng (rngCall rng (rngCall rng k).2).2).2
    refine ⟨nb, (rngCall rng (rngCall rng (rngCall rng k).2).2).2, ?_,
      h2.length_eq.trans hs.1, inRange_of_perm m _ _ h2 hs.2.1, h3⟩
    simp only [GA.mutate, if_pos hb, if_neg hnt]
    exact h1
  · exact ⟨s, (rngCall rng k).2, by simp only [GA.mutate, if_neg hb], hs⟩

theorem GA.breedStep_spec (m : Model) (hw : m.WellFormed) (hj : 1 ≤ m.numJobs)
    (rng : Nat → Nat) (population : List Solution)
    (hpop : GA.POPULATION_SIZE ≤ population.length) (hfit : AllFit m population)
    (acc : List Solution × Nat) (hacc : AllFit m acc.1) :
    ∃ acc2, GA.breedStep m rng population acc = some acc2 ∧ AllFit m acc2.1 ∧
      acc2.1.length = acc.1.length + 2 := by
  obtain ⟨p1, k1, hp1, hm1⟩ := GA.tournamentSelection_spec rng acc.2 population hpop
  obtain ⟨p2, k2, hp2, hm2⟩ := GA.tournamentSelection_spec rng k1 population hpop
  obtain ⟨o1, o2, k3, hc, hf1, hf2⟩ := GA.crossover_spec m hw hj rng k2 p1 p2
    (hfit p1 hm1) (hfit p2 hm2)
  obtain ⟨f, k4, hmu1, hff⟩ := GA.mutate_spec m hw hj rng k3 o1 hf1
  obtain ⟨s, k5, hmu2, hfs⟩ := GA.mutate_spec m hw hj rng k4 o2 hf2
  refine ⟨(acc.1 ++ [f, s], k5), ?_, ?_, by simp⟩
  · simp only [GA.breedStep, hp1, hp2, hc, hmu1, hmu2, Option.some_bind, Option.map_some']
  · intro x hx
    rcases List.mem_append.1 hx with h | h
    · exact hacc x h
    · simp only [List.mem_cons, List.mem_singleton, List.not_mem_nil, or_false] at h
      rcases h with h | h
      · rw [h]; exact hff
      · rw [h]; exact hfs

theorem GA.breed_spec (m : Model) (hw : m.WellFormed) (hj : 1 ≤ m.numJobs)
    (rng : Nat → Nat) (population : List Solution)
    (hpop : GA.POPULATION_SIZE ≤ population.length) (hfit : AllFit m population) :
    ∀ (fuel : Nat) (acc : List Solution × Nat), acc.1.length % 2 = 0 →
      acc.1.length ≤ GA.POPULATION_SIZE → GA.POPULATION_SIZE < acc.1.length + 2 * fuel →
      AllFit m acc.1 →
      ∃ acc2, GA.breed m rng population fuel acc = some acc2 ∧ AllFit m acc2.1 ∧
        acc2.1.length = GA.POPULATION_SIZE := by
  intro fuel
  induction fuel with
  | zero => intro acc _ h1 h2 _; omega
  | succ fuel ih =>
    intro acc hev hle hfuel hacc
    by_cases hlt : acc.1.length < GA.POPULATION_SIZE
    · obtain ⟨a1, ha1, hf1, hl1⟩ := GA.breedStep_spec m hw hj rng population hpop hfit acc hacc
      have hP : GA.POPULATION_SIZE = 30 := rfl
      obtain ⟨a2, ha2, hf2, hl2⟩ := ih a1 (by omega) (by omega) (by omega) hf1
      exact ⟨a2, by simp only [GA.breed, if_pos hlt, ha1, Option.some_bind, ha2], hf2, hl2⟩
    · exact ⟨acc, by simp only [GA.breed, if_neg hlt], hacc, by omega⟩

theorem GA.updateBest_le (population : List Solution) : ∀ best : Solution,
    (GA.updateBest best population).makespan ≤ best.makespan ∧
      ∀ s ∈ population, (GA.updateBest best population).makespan ≤ s.makespan := by
  induction population with
  | nil => intro best; exact ⟨le_refl _, fun s hs => by simp at hs⟩
  | cons x rest ih =>
    intro best
    have h := ih (if x.makespan < best.makespan then x else best)
    have hr := better_le_right x best
    have hl := better_le_left x best
    simp only [GA.updateBest, List.foldl_cons] at h ⊢
    refine ⟨le_trans h.1 hr, ?_⟩
    intro s hs
    rcases List.mem_cons.1 hs with h1 | h1
    · rw [h1]; exact le_trans h.1 hl
    · exact h.2 s h1

theorem GA.updateBest_mem (population : List Solution) : ∀ best : Solution,
    GA.updateBest best population = best ∨ GA.updateBest best population ∈ population := by
  induction population with
  | nil => intro best; exact Or.inl rfl
  | cons x rest ih =>
    intro best
    simp only [GA.updateBest, List.foldl_cons] at ih ⊢
    rcases ih (if x.makespan < best.makespan then x else best) with h | h
    · rw [h]
      split
      · exact Or.inr (List.mem_cons_self _ _)
      · exact Or.inl rfl
    · exact Or.inr (List.mem_cons_of_mem _ h)

theorem GA.generation_spec (m : Model) (hw : m.WellFormed) (hj : 1 ≤ m.numJobs)
    (rng : Nat → Nat) (st : GA.State) (hinv : GA.Inv m st) :
    ∃ st2, GA.generation m rng st = some st2 ∧ GA.Inv m st2 ∧
      st2.bestSolution.makespan ≤ st.bestSolution.makespan ∧
      ∀ s ∈ st2.population, st2.bestSolution.makespan ≤ s.makespan := by
  obtain ⟨⟨newPop, k⟩, hb, hf, hl⟩ := GA.breed_spec m hw hj rng st.population
    (le_of_eq hinv.1.symm) hinv.2.1 (GA.POPULATION_SIZE + 1) ([], st.calls) rfl (by simp)
    (by simp only [List.length_nil]; omega) (fun s hs => by simp at hs)
  refine ⟨⟨newPop, GA.updateBest st.bestSolution newPop, k⟩,
    by simp only [GA.generation, hb, Option.map_some'], ⟨hl, hf, ?_⟩,
    (GA.updateBest_le newPop st.bestSolution).1, (GA.updateBest_le newPop st.bestSolution).2⟩
  rcases GA.updateBest_mem newPop st.bestSolution with h | h
  · simp only [h]; exact hinv.2.2
  · exact hf _ h

theorem GA.run_spec_ga (m : Model) (hw : m.WellFormed) (hj : 1 ≤ m.numJobs)
    (rng : Nat → Nat) (n : Nat) (st : GA.State) (hinv : GA.Inv m st) :
    ∃ st2, GA.run m rng n st = some st2 ∧ GA.Inv m st2 ∧
      st2.bestSolution.makespan ≤ st.bestSolution.makespan := by
  induction n with
  | zero => exact ⟨st, rfl, hinv, le_refl _⟩
  | succ n ih =>
    obtain ⟨s1, h1, hi1, hle1⟩ := ih
    obtain ⟨s2, h2, hi2, hle2, _⟩ := GA.generation_spec m hw hj rng s1 hi1
    refine ⟨s2, ?_, hi2, le_trans hle2 hle1⟩
    unfold GA.run at h1 ⊢
    simp [forLoop, h1, h2]

theorem walk_of_makespan (m : Model) (hw : m.WellFormed) (s : List Int) (hr : InRange m s)
    (v : Int) (h : calculateMakespan m s = some v) :
    ∃ rc, wholeJobWalk m s RefClock.zero = some rc ∧ rc.makespan m = some v := by
  rw [calculateMakespan_eq_wholeJob m s hw hr] at h
  exact Option.bind_eq_some.1 h

theorem makespan_ge_job (m : Model) (hw : m.WellFormed) (hd : m.NonNegDurations)
    (s : List Int) (hr : InRange m s) (v : Int) (h : calculateMakespan m s = some v)
    (j : Int) (hj : j ∈ s) : ((jobsOf m j).map Task.duration).sum ≤ v := by
  obtain ⟨rc, hwalk, hv⟩ := walk_of_makespan m hw s hr v h
  have h1 := wholeJobWalk_jobTime m hw hd j s _ rc hr hwalk hj
  obtain ⟨k, hk, hle⟩ := wholeJobWalk_covered m hw hd s _ rc hr hwalk (covered_zero m hw) j
  have h2 := makespan_ge_machineTime m rc v hv k hk
  simp only [RefClock.zero, zero_add] at h1
  omega

theorem makespan_nonneg (m : Model) (hw : m.WellFormed) (hd : m.NonNegDurations)
    (s : List Int) (hr : InRange m s) (v : Int) (h : calculateMakespan m s = some v) :
    0 ≤ v := by
  obtain ⟨rc, hwalk, hv⟩ := walk_of_makespan m hw s hr v h
  have h1 := wholeJobWalk_jobTime_mono m hw hd 0 s _ rc hr hwalk
  obtain ⟨k, hk, hle⟩ := wholeJobWalk_covered m hw hd s _ rc hr hwalk (covered_zero m hw) 0
  have h2 := makespan_ge_machineTime m rc v hv k hk
  simp only [RefClock.zero] at h1
  omega

theorem makespan_pos (m : Model) (hw : m.WellFormed) (hd : m.NonNegDurations)
    (hp : m.PositiveJobs) (s : List Int) (hr : InRange m s) (hne : s ≠ []) (v : Int)
    (h : calculateMakespan m s = some v) : 0 < v := by
  obtain ⟨j, rest, rfl⟩ := List.exists_cons_of_ne_nil hne
  have hj : j ∈ j :: rest := List.mem_cons_self _ _
  have h1 := makespan_ge_job m hw hd _ hr v h j hj
  have h2 := hp _ (jobsOf_mem m hw j (hr j hj)).2
  omega

/-! ### The roulette wheel -/

theorem ACO.roulette_range (r : ℚ) : ∀ (probs : List ℚ) (j : Nat) (cumulative : ℚ),
    probs ≠ [] → r ≤ cumulative + probs.sum →
    (j : Int) ≤ ACO.roulette r probs j cumulative ∧
      ACO.roulette r probs j cumulative < (j : Int) + probs.length := by
  intro probs
  induction probs with
  | nil => intro j c h _; exact absurd rfl h
  | cons p rest ih =>
    intro j c _ hsum
    by_cases hle : r ≤ c + p
    · simp only [ACO.roulette, if_pos hle, List.length_cons]
      constructor
      · exact le_refl _
      · push_cast; omega
    · simp only [ACO.roulette, if_neg hle, List.length_cons]
      have hrest : rest ≠ [] := by
        intro h0
        rw [h0] at hsum
        simp only [List.sum_cons, List.sum_nil, add_zero] at hsum
        exact hle hsum
      have h1 := ih (j + 1) (c + p) hrest (by
        simp only [List.sum_cons] at hsum
        linarith)
      push_cast at h1 ⊢
      omega



/-! ### The scoring loop -/

theorem pheromone_get (m : Model) (pheromone : List (List ℚ)) (hph : PheromoneOK m pheromone)
    (i j : Nat) (hi : i < numTasks m) (hj : j < numTasks m) :
    ∃ row x, vecGet pheromone (i : Int) = some row ∧ vecGet row (j : Int) = some x ∧
      row ∈ pheromone ∧ row.length = numTasks m ∧ 0 ≤ x := by
  have hi2 : i < pheromone.length := by rw [hph.1]; exact hi
  have hrow := hph.2 _ (List.get_mem pheromone i hi2)
  have hj2 : j < (pheromone.get ⟨i, hi2⟩).length := by rw [hrow.1]; exact hj
  refine ⟨pheromone.get ⟨i, hi2⟩, (pheromone.get ⟨i, hi2⟩).get ⟨j, hj2⟩, ?_, ?_,
    List.get_mem _ _ _, hrow.1, hrow.2 _ (List.get_mem _ _ _)⟩
  · rw [vecGet_eq_some pheromone (i : Int) (by omega) (by simpa using hi2)]
    simp
  · rw [vecGet_eq_some _ (j : Int) (by omega) (by simpa using hj2)]
    simp

theorem numJobs_le_numTasks (m : Model) (hw : m.WellFormed) : m.numJobs ≤ numTasks m := by
  unfold numTasks
  exact Nat.le_mul_of_pos_right _ hw.2.1

theorem ACO.scoreStep_spec (m : Model) (hw : m.WellFormed) (hd : m.NonNegDurations)
    (pheromone : List (List ℚ)) (hph : PheromoneOK m pheromone) (visited : List Bool)
    (hvis : visited.length = m.numJobs) (size : Nat) (hsize : size < numTasks m) (j : Nat)
    (hj : j < m.numJobs) (s : ACO.Scores) (hs : ScoresOK m.numJobs j s) :
    ∃ s2, ACO.scoreStep m pheromone visited size j s = some s2 ∧
      ScoresOK m.numJobs (j + 1) s2 := by
  obtain ⟨pre, hlen, hprobs, hnn, hsum⟩ := hs
  obtain ⟨vis, hvget⟩ := vecGet_of_lt visited j (by omega)
  obtain ⟨r, hr⟩ : ∃ r, m.numJobs - j = r + 1 := ⟨m.numJobs - j - 1, by omega⟩
  have hr2 : m.numJobs - (j + 1) = r := by omega
  by_cases hv : vis = false
  · obtain ⟨row, ph, hrow, hphget, _, _, hph0⟩ := pheromone_get m pheromone hph size j hsize
      (lt_of_lt_of_le hj (numJobs_le_numTasks m hw))
    have hrange : InRange m [(j : Int)] := by
      intro x hx
      rw [List.mem_singleton.1 hx]
      exact ⟨by omega, by exact_mod_cast hj⟩
    obtain ⟨mk, hmk⟩ := calculateMakespan_isSome m _ hw hrange
    have hmk0 := makespan_nonneg m hw hd _ hrange mk hmk
    have hne : ((mk + 1 : Int) : ℚ) ≠ 0 := by
      have : (0 : ℚ) < ((mk + 1 : Int) : ℚ) := by exact_mod_cast (by omega : 0 < mk + 1)
      exact ne_of_gt this
    have hh : 0 ≤ (1 : ℚ) / ((mk + 1 : Int) : ℚ) := by
      apply div_nonneg (by norm_num)
      exact_mod_cast (by omega : 0 ≤ mk + 1)
    have hp : 0 ≤ ph ^ ACO.ALPHA * ((1 : ℚ) / ((mk + 1 : Int) : ℚ)) ^ ACO.BETA :=
      mul_nonneg (pow_nonneg hph0 _) (pow_nonneg hh _)
    have hset : vecSet s.probabilities (j : Int)
        (ph ^ ACO.ALPHA * ((1 : ℚ) / ((mk + 1 : Int) : ℚ)) ^ ACO.BETA)
        = some (pre ++ (ph ^ ACO.ALPHA * ((1 : ℚ) / ((mk + 1 : Int) : ℚ)) ^ ACO.BETA)
            :: List.replicate r 0) := by
      rw [hprobs, hr, List.replicate_succ, ← hlen]
      exact vecSet_append_cons _ _ _ _
    refine ⟨⟨pre ++ (ph ^ ACO.ALPHA * ((1 : ℚ) / ((mk + 1 : Int) : ℚ)) ^ ACO.BETA)
        :: List.replicate r 0,
      s.sumProbabilities + ph ^ ACO.ALPHA * ((1 : ℚ) / ((mk + 1 : Int) : ℚ)) ^ ACO.BETA⟩,
      by simp only [ACO.scoreStep, hvget, Option.some_bind, if_pos hv, hrow, hphget,
        hmk, ACO.divide, if_neg hne, hset, Option.map_some'], ?_⟩
    refine ⟨pre ++ [ph ^ ACO.ALPHA * ((1 : ℚ) / ((mk + 1 : Int) : ℚ)) ^ ACO.BETA], by simp [hlen],
      by simp [hr2], ?_, by simp [hsum]⟩
    intro x hx
    rcases List.mem_append.1 hx with h | h
    · exact hnn x h
    · rw [List.mem_singleton.1 h]; exact hp
  · refine ⟨s, by simp only [ACO.scoreStep, hvget, Option.some_bind, if_neg hv], ?_⟩
    refine ⟨pre ++ [0], by simp [hlen], by rw [hprobs, hr, hr2]; simp [List.replicate_succ], ?_,
      by simp [hsum]⟩
    intro x hx
    rcases List.mem_append.1 hx with h | h
    · exact hnn x h
    · rw [List.mem_singleton.1 h]

theorem ACO.scoreLoop_spec (m : Model) (hw : m.WellFormed) (hd : m.NonNegDurations)
    (pheromone : List (List ℚ)) (hph : PheromoneOK m pheromone) (visited : List Bool)
    (hvis : visited.length = m.numJobs) (size : Nat) (hsize : size < numTasks m) :
    ∃ s, forLoop (ACO.scoreStep m pheromone visited size) m.numJobs
        { probabilities := List.replicate m.numJobs 0, sumProbabilities := 0 } = some s ∧
      s.probabilities.length = m.numJobs ∧ (∀ x ∈ s.probabilities, 0 ≤ x) ∧
      s.sumProbabilities = s.probabilities.sum := by
  obtain ⟨s, hs, pre, hlen, hprobs, hnn, hsum⟩ :=
    forLoop_total_indexed (ACO.scoreStep m pheromone visited size)
      (fun j s => ScoresOK m.numJobs j s) m.numJobs
      (fun j s hj hs => ACO.scoreStep_spec m hw hd pheromone hph visited hvis size hsize j hj s hs)
      m.numJobs { probabilities := List.replicate m.numJobs 0, sumProbabilities := 0 }
      (le_refl _) ⟨[], rfl, by simp, fun x hx => by simp at hx, by simp⟩
  simp only [Nat.sub_self, List.replicate_zero, List.append_nil] at hprobs
  exact ⟨s, hs, by rw [hprobs, hlen], by rw [hprobs]; exact hnn, by rw [hprobs]; exact hsum⟩



/-! ### The construction of an ant's schedule -/

theorem ACO.antStep_spec (m : Model) (hw : m.WellFormed) (hd : m.NonNegDurations)
    (hj : 1 ≤ m.numJobs) (pheromone : List (List ℚ)) (hph : PheromoneOK m pheromone)
    (rng : Nat → Nat) (i : Nat) (hi : i < numTasks m) (a : ACO.Ant) (ha : AntOK m i a) :
    ∃ a2, ACO.antStep m pheromone rng a = some a2 ∧ AntOK m (i + 1) a2 := by
  obtain ⟨hlen, hrange, hvis⟩ := ha
  obtain ⟨s, hs, hsl, hnn, hsum⟩ := ACO.scoreLoop_spec m hw hd pheromone hph a.visited hvis
    a.schedule.length (by rw [hlen]; exact hi)
  have hne : s.probabilities ≠ [] := by
    intro h0
    rw [h0] at hsl
    simp only [List.length_nil] at hsl
    omega
  have hsum0 : 0 ≤ s.probabilities.sum := List.sum_nonneg hnn
  have hx : ((rng a.calls % 10000 : Nat) : ℚ) / 10000 ≤ 1 := by
    rw [div_le_one (by norm_num)]
    exact_mod_cast le_of_lt (Nat.mod_lt _ (by norm_num))
  have hr : ((rng a.calls % 10000 : Nat) : ℚ) / 10000 * s.sumProbabilities
      ≤ 0 + s.probabilities.sum := by
    rw [hsum, zero_add]
    calc ((rng a.calls % 10000 : Nat) : ℚ) / 10000 * s.probabilities.sum
        ≤ 1 * s.probabilities.sum := mul_le_mul_of_nonneg_right hx hsum0
      _ = s.probabilities.sum := one_mul _
  have hsel := ACO.roulette_range _ s.probabilities 0 0 hne hr
  rw [hsl] at hsel
  simp only [Nat.cast_zero, zero_add] at hsel
  generalize hnj : ACO.roulette (((rng a.calls % 10000 : Nat) : ℚ) / 10000 * s.sumProbabilities)
    s.probabilities 0 0 = nextJob at hsel
  have hset : vecSet a.visited nextJob true = some (a.visited.set nextJob.toNat true) := by
    unfold vecSet
    rw [if_pos ⟨hsel.1, by omega⟩]
  refine ⟨⟨a.schedule ++ [nextJob], a.visited.set nextJob.toNat true, a.calls + 1⟩, ?_, ?_⟩
  · simp only [ACO.antStep, hs, Option.some_bind, randomInt, hnj, hset, Option.map_some']
  · refine ⟨by simp [hlen], ?_, by simp [hvis]⟩
    intro x hx
    rcases List.mem_append.1 hx with h | h
    · exact hrange x h
    · rw [List.mem_singleton.1 h]; exact hsel

theorem ACO.generateAntSolution_spec (m : Model) (hw : m.WellFormed) (hd : m.NonNegDurations)
    (hj : 1 ≤ m.numJobs) (pheromone : List (List ℚ)) (hph : PheromoneOK m pheromone)
    (rng : Nat → Nat) (k : Nat) :
    ∃ sol k1, ACO.generateAntSolution m pheromone rng k = some (sol, k1) ∧ Fit m sol := by
  obtain ⟨a, ha, hlen, hrange, _⟩ :=
    forLoop_total_indexed (fun _ a => ACO.antStep m pheromone rng a)
      (fun i a => AntOK m i a) (numTasks m)
      (fun i a hi hok => ACO.antStep_spec m hw hd hj pheromone hph rng i hi a hok)
      (numTasks m) { schedule := [], visited := List.replicate m.numJobs false, calls := k }
      (le_refl _) ⟨rfl, fun x hx => by simp at hx, by simp⟩
  obtain ⟨v, hv, hfit⟩ := fit_evaluate m hw a.schedule hlen hrange
  exact ⟨⟨a.schedule, v⟩, a.calls,
    by simp only [ACO.generateAntSolution, ha, Option.some_bind, hv, Option.map_some'], hfit⟩

theorem fit_makespan_pos (m : Model) (hw : m.WellFormed) (hd : m.NonNegDurations)
    (hp : m.PositiveJobs) (hj : 1 ≤ m.numJobs) (s : Solution) (hs : Fit m s) :
    0 < s.makespan := by
  apply makespan_pos m hw hd hp s.schedule hs.2.1 _ s.makespan hs.2.2
  intro h0
  have h1 := hs.1
  rw [h0] at h1
  have := Nat.mul_pos hj hw.2.1
  simp only [List.length_nil] at h1
  omega

/-! ### The pheromone update -/

theorem ACO.updateCell_spec (m : Model) (pheromone : List (List ℚ))
    (hph : PheromoneOK m pheromone) (i j : Nat) (hi : i < numTasks m) (hj : j < numTasks m)
    (f : ℚ → ℚ) (hf : ∀ x, 0 ≤ x → 0 ≤ f x) :
    ∃ ph2, ACO.updateCell pheromone (i : Int) (j : Int) f = some ph2 ∧ PheromoneOK m ph2 := by
  obtain ⟨row, x, hrow, hx, hmem, hlen, hx0⟩ := pheromone_get m pheromone hph i j hi hj
  have hi2 : i < pheromone.length := by rw [hph.1]; exact hi
  have hj2 : j < row.length := by rw [hlen]; exact hj
  refine ⟨pheromone.set i (row.set j (f x)), by simp only [ACO.updateCell, hrow, hx,
    Option.some_bind, vecSet_of_lt _ _ _ hj2, vecSet_of_lt _ _ _ hi2], by simpa using hph.1, ?_⟩
  intro r hr
  rcases List.mem_or_eq_of_mem_set hr with h | h
  · exact hph.2 r h
  · rw [h]
    refine ⟨by simpa using hlen, ?_⟩
    intro y hy
    rcases List.mem_or_eq_of_mem_set hy with h2 | h2
    · exact (hph.2 row hmem).2 y h2
    · rw [h2]; exact hf x hx0

theorem ACO.evaporate_spec (m : Model) (pheromone : List (List ℚ))
    (hph : PheromoneOK m pheromone) :
    ∃ ph2, ACO.evaporate m pheromone = some ph2 ∧ PheromoneOK m ph2 := by
  have hf : ∀ x : ℚ, 0 ≤ x → 0 ≤ x * (1 - ACO.EVAPORATION) := by
    intro x hx
    apply mul_nonneg hx
    norm_num [ACO.EVAPORATION]
  exact forLoop_total_indexed _ (fun _ ph => PheromoneOK m ph) (numTasks m)
    (fun i ph hi hok =>
      forLoop_total_indexed _ (fun _ ph1 => PheromoneOK m ph1) (numTasks m)
        (fun j ph1 hj hok1 => ACO.updateCell_spec m ph1 hok1 i j hi hj _ hf)
        (numTasks m) ph (le_refl _) hok)
    (numTasks m) pheromone (le_refl _) hph

theorem ACO.updateCell_int (m : Model) (pheromone : List (List ℚ))
    (hph : PheromoneOK m pheromone) (i j : Int) (hi : 0 ≤ i ∧ i < m.numJobs)
    (hj : 0 ≤ j ∧ j < m.numJobs) (hle : m.numJobs ≤ numTasks m)
    (f : ℚ → ℚ) (hf : ∀ x, 0 ≤ x → 0 ≤ f x) :
    ∃ ph2, ACO.updateCell pheromone i j f = some ph2 ∧ PheromoneOK m ph2 := by
  have h := ACO.updateCell_spec m pheromone hph i.toNat j.toNat (by omega) (by omega) f hf
  rw [Int.toNat_of_nonneg hi.1, Int.toNat_of_nonneg hj.1] at h
  exact h

theorem vecGet_mem {α : Type} (v : List α) (i : Int) (x : α) (h : vecGet v i = some x) :
    x ∈ v := by
  unfold vecGet at h
  by_cases h0 : 0 ≤ i
  · rw [if_pos h0] at h
    exact List.getElem?_mem h
  · rw [if_neg h0] at h
    exact absurd h (by simp)

theorem ACO.depositStep_spec (m : Model) (hw : m.WellFormed) (s : Solution) (hs : Fit m s)
    (hpos : 0 < s.makespan) (j : Nat) (hj : j < s.schedule.length - 1)
    (ph : List (List ℚ)) (hok : PheromoneOK m ph) :
    ∃ ph2, ((vecGet s.schedule (j : Int)).bind fun jobA =>
        (vecGet s.schedule ((j : Int) + 1)).bind fun jobB =>
          (ACO.divide ACO.Q (s.makespan : ℚ)).bind fun d =>
            ACO.updateCell ph jobA jobB fun x => x + d) = some ph2 ∧ PheromoneOK m ph2 := by
  obtain ⟨jobA, hA⟩ := vecGet_of_lt s.schedule j (by omega)
  obtain ⟨jobB, hB⟩ := vecGet_of_lt s.schedule (j + 1) (by omega)
  have hB2 : vecGet s.schedule ((j : Int) + 1) = some jobB := by
    rw [← hB]; norm_cast
  have hq : ((s.makespan : Int) : ℚ) ≠ 0 := by
    have : (0 : ℚ) < ((s.makespan : Int) : ℚ) := by exact_mod_cast hpos
    exact ne_of_gt this
  have hd0 : 0 ≤ ACO.Q / ((s.makespan : Int) : ℚ) := by
    apply div_nonneg (by norm_num [ACO.Q])
    exact_mod_cast le_of_lt hpos
  obtain ⟨ph2, hph2, hok2⟩ := ACO.updateCell_int m ph hok jobA jobB
    (hs.2.1 _ (vecGet_mem _ _ _ hA)) (hs.2.1 _ (vecGet_mem _ _ _ hB))
    (numJobs_le_numTasks m hw)
    (fun x => x + ACO.Q / ((s.makespan : Int) : ℚ)) (fun x hx => add_nonneg hx hd0)
  refine ⟨ph2, ?_, hok2⟩
  rw [hA, hB2]
  simp only [Option.some_bind, ACO.divide, if_neg hq]
  exact hph2

theorem ACO.deposit_spec (m : Model) (hw : m.WellFormed) (hj : 1 ≤ m.numJobs)
    (pheromone : List (List ℚ)) (hph : PheromoneOK m pheromone) (s : Solution)
    (hs : Fit m s) (hpos : 0 < s.makespan) :
    ∃ ph2, ACO.deposit pheromone s = some ph2 ∧ PheromoneOK m ph2 := by
  have hne : s.schedule.length ≠ 0 := by
    have h1 := Nat.mul_pos hj hw.2.1
    have h2 := hs.1
    omega
  unfold ACO.deposit
  rw [if_neg hne]
  exact forLoop_total_indexed _ (fun _ ph => PheromoneOK m ph) (s.schedule.length - 1)
    (fun j ph hjlt hok => ACO.depositStep_spec m hw s hs hpos j hjlt ph hok)
    (s.schedule.length - 1) pheromone (le_refl _) hph

theorem ACO.depositAll_spec (m : Model) (hw : m.WellFormed) (hj : 1 ≤ m.numJobs) :
    ∀ (solutions : List Solution) (pheromone : List (List ℚ)), PheromoneOK m pheromone →
      (∀ s ∈ solutions, Fit m s ∧ 0 < s.makespan) →
      ∃ ph2, ACO.depositAll solutions pheromone = some ph2 ∧ PheromoneOK m ph2 := by
  intro solutions
  induction solutions with
  | nil => intro ph hph _; exact ⟨ph, rfl, hph⟩
  | cons s rest ih =>
    intro ph hph hall
    have hs := hall s (List.mem_cons_self _ _)
    obtain ⟨ph1, h1, hok1⟩ := ACO.deposit_spec m hw hj ph hph s hs.1 hs.2
    obtain ⟨ph2, h2, hok2⟩ := ih ph1 hok1 (fun x hx => hall x (List.mem_cons_of_mem _ hx))
    exact ⟨ph2, by simp only [ACO.depositAll, h1, Option.some_bind, h2], hok2⟩

theorem ACO.updatePheromone_spec (m : Model) (hw : m.WellFormed) (hj : 1 ≤ m.numJobs)
    (pheromone : List (List ℚ)) (hph : PheromoneOK m pheromone) (solutions : List Solution)
    (hall : ∀ s ∈ solutions, Fit m s ∧ 0 < s.makespan) :
    ∃ ph2, ACO.updatePheromone m pheromone solutions = some ph2 ∧ PheromoneOK m ph2 := by
  obtain ⟨ph1, h1, hok1⟩ := ACO.evaporate_spec m pheromone hph
  obtain ⟨ph2, h2, hok2⟩ := ACO.depositAll_spec m hw hj solutions ph1 hok1 hall
  exact ⟨ph2, by simp only [ACO.updatePheromone, h1, Option.some_bind, h2], hok2⟩



/-! ### The colony -/

theorem ACO.antLoopStep_spec (m : Model) (hw : m.WellFormed) (hd : m.NonNegDurations)
    (hj : 1 ≤ m.numJobs) (pheromone : List (List ℚ)) (hph : PheromoneOK m pheromone)
    (rng : Nat → Nat) (start : Solution) (c : ACO.Colony) (hc : ColonyOK m start c) :
    ∃ c2, ACO.antLoopStep m pheromone rng c = some c2 ∧ ColonyOK m start c2 := by
  obtain ⟨sol, k1, hsol, hfit⟩ := ACO.generateAntSolution_spec m hw hd hj pheromone hph rng c.calls
  refine ⟨⟨c.antSolutions ++ [sol],
    if sol.makespan < c.bestSolution.makespan then sol else c.bestSolution, k1⟩,
    by simp only [ACO.antLoopStep, hsol, Option.map_some'], ?_, ?_, ?_, ?_⟩
  · intro s hs
    rcases List.mem_append.1 hs with h | h
    · exact hc.1 s h
    · rw [List.mem_singleton.1 h]; exact hfit
  · exact ite_holds (Fit m) _ _ _ hfit hc.2.1
  · intro s hs
    rcases List.mem_append.1 hs with h | h
    · exact le_trans (better_le_right _ _) (hc.2.2.1 s h)
    · rw [List.mem_singleton.1 h]; exact better_le_left _ _
  · exact le_trans (better_le_right _ _) hc.2.2.2

theorem ACO.ants_spec (m : Model) (hw : m.WellFormed) (hd : m.NonNegDurations)
    (hj : 1 ≤ m.numJobs) (rng : Nat → Nat) (st : ACO.State) (hinv : ACO.Inv m st) :
    ∃ c, ACO.ants m rng st = some c ∧ ColonyOK m st.bestSolution c :=
  forLoop_total (fun _ c => ACO.antLoopStep m st.pheromone rng c)
    (fun c => ColonyOK m st.bestSolution c)
    (fun _ c hc => ACO.antLoopStep_spec m hw hd hj st.pheromone hinv.2 rng st.bestSolution c hc)
    ACO.NUM_ANTS { antSolutions := [], bestSolution := st.bestSolution, calls := st.calls }
    ⟨fun s hs => by simp at hs, hinv.1, fun s hs => by simp at hs, le_refl _⟩

theorem ACO.iteration_spec_aco (m : Model) (hw : m.WellFormed) (hd : m.NonNegDurations)
    (hp : m.PositiveJobs) (hj : 1 ≤ m.numJobs) (rng : Nat → Nat) (st : ACO.State)
    (hinv : ACO.Inv m st) :
    ∃ st2 c, ACO.ants m rng st = some c ∧ ACO.iteration m rng st = some st2 ∧ ACO.Inv m st2 ∧
      st2.bestSolution.makespan ≤ st.bestSolution.makespan ∧
      ∀ s ∈ c.antSolutions, st2.bestSolution.makespan ≤ s.makespan := by
  obtain ⟨c, hc, hok⟩ := ACO.ants_spec m hw hd hj rng st hinv
  obtain ⟨ph2, hph2, hok2⟩ := ACO.updatePheromone_spec m hw hj st.pheromone hinv.2
    c.antSolutions (fun s hs => ⟨hok.1 s hs, fit_makespan_pos m hw hd hp hj s (hok.1 s hs)⟩)
  exact ⟨⟨c.bestSolution, ph2, c.calls⟩, c, hc,
    by simp only [ACO.iteration, hc, Option.some_bind, hph2, Option.map_some'],
    ⟨hok.2.1, hok2⟩, hok.2.2.2, hok.2.2.1⟩

theorem ACO.run_spec_aco (m : Model) (hw : m.WellFormed) (hd : m.NonNegDurations)
    (hp : m.PositiveJobs) (hj : 1 ≤ m.numJobs) (rng : Nat → Nat) (n : Nat) (st : ACO.State)
    (hinv : ACO.Inv m st) :
    ∃ st2, ACO.run m rng n st = some st2 ∧ ACO.Inv m st2 ∧
      st2.bestSolution.makespan ≤ st.bestSolution.makespan := by
  induction n with
  | zero => exact ⟨st, rfl, hinv, le_refl _⟩
  | succ n ih =>
    obtain ⟨s1, h1, hi1, hle1⟩ := ih
    obtain ⟨s2, _, _, h2, hi2, hle2, _⟩ := ACO.iteration_spec_aco m hw hd hp hj rng s1 hi1
    refine ⟨s2, ?_, hi2, le_trans hle2 hle1⟩
    unfold ACO.run at h1 ⊢
    simp [forLoop, h1, h2]

theorem rngMax_pos : (0 : ℚ) < (rngMax : ℚ) := by
  norm_num [rngMax]

theorem SA.accepts_improving_iff (e : ExpFn) (oldCost newCost : Int) (temperature : ℚ)
    (r : Nat) (h : newCost < oldCost) :
    SA.accepts e oldCost newCost temperature r ↔ r < rngMax := by
  unfold SA.accepts SA.acceptanceProbability
  rw [if_pos h, gt_iff_lt, div_lt_one rngMax_pos]
  exact Nat.cast_lt

theorem jobs_pos_of_tasks (m : Model) (ht : 2 ≤ m.numJobs * m.numMachines) : 1 ≤ m.numJobs := by
  rcases Nat.eq_zero_or_pos m.numJobs with h | h
  · rw [h] at ht; omega
  · exact h

theorem TS.getNeighbor_calls (m : Model) (rng : Nat → Nat) (k : Nat) (cur nb : Solution)
    (k1 : Nat) (h : TS.getNeighbor m rng k cur = some (nb, k1)) : k1 = k + 2 := by
  unfold TS.getNeighbor at h
  by_cases hz : cur.schedule.length = 0
  · simp [hz] at h
  · simp only [if_neg hz] at h
    obtain ⟨w, _, h2⟩ := Option.bind_eq_some.1 h
    obtain ⟨v, _, h3⟩ := Option.map_eq_some'.1 h2
    simp only [Prod.mk.injEq, randCall] at h3
    exact h3.2.symm

theorem TS.exploreStep_explored (m : Model) (hw : m.WellFormed) (rng : Nat → Nat)
    (cur : Solution) (hr : InRange m cur.schedule) (hlen : 0 < cur.schedule.length)
    (k n : Nat) (acc : Solution × Nat) (hacc : Explored m rng cur k n acc) :
    ∃ acc2, TS.exploreStep m rng cur acc = some acc2 ∧ Explored m rng cur k (n + 1) acc2 := by
  obtain ⟨hk, hall, hle, hmem⟩ := hacc
  obtain ⟨nb, k1, hnb, _, _⟩ := TS.getNeighbor_spec_ts m hw rng acc.2 cur hr hlen
  have hk1 := TS.getNeighbor_calls m rng acc.2 cur nb k1 hnb
  rw [hk] at hnb hk1
  subst hk1
  refine ⟨(if nb.makespan < acc.1.makespan then nb else acc.1, k + 2 * n + 2), ?_, ?_, ?_, ?_, ?_⟩
  · simp only [TS.exploreStep, hk, hnb, Option.map_some']
  · simp only; omega
  · intro i hi
    by_cases hin : i = n
    · subst hin
      exact ⟨nb, hnb, better_le_left _ _⟩
    · obtain ⟨c, hc, hcle⟩ := hall i (by omega)
      exact ⟨c, hc, le_trans (better_le_right _ _) hcle⟩
  · exact le_trans (better_le_right _ _) hle
  · by_cases hlt : nb.makespan < acc.1.makespan
    · simp only [if_pos hlt]
      exact Or.inr ⟨n, by omega, hnb⟩
    · simp only [if_neg hlt]
      rcases hmem with h | ⟨i, hi, h⟩
      · exact Or.inl h
      · exact Or.inr ⟨i, by omega, h⟩

theorem TS.exploreNeighbors_explored (m : Model) (hw : m.WellFormed) (rng : Nat → Nat)
    (cur : Solution) (hr : InRange m cur.schedule) (hlen : 0 < cur.schedule.length) (k : Nat) :
    ∃ acc, TS.exploreNeighbors m rng cur k = some acc ∧ Explored m rng cur k m.numJobs acc :=
  forLoop_total_indexed (fun _ acc => TS.exploreStep m rng cur acc)
    (fun n acc => Explored m rng cur k n acc) m.numJobs
    (fun n acc _ hacc => TS.exploreStep_explored m hw rng cur hr hlen k n acc hacc)
    m.numJobs (cur, k) (le_refl _)
    ⟨rfl, fun i hi => absurd hi (Nat.not_lt_zero i), le_refl _, Or.inl rfl⟩



/-! ## The tabu list -/

theorem TS.isTabuLoop_eq (schedule : List Int) (a b : Int) (h0 : vecGet schedule 0 = some a)
    (h1 : vecGet schedule 1 = some b) : ∀ tabuList : List (Int × Int),
    TS.isTabuLoop schedule tabuList = some (decide ((a, b) ∈ tabuList ∨ (b, a) ∈ tabuList)) := by
  intro tabuList
  induction tabuList with
  | nil => simp [TS.isTabuLoop]
  | cons move rest ih =>
    simp only [TS.isTabuLoop, h0, h1, Option.some_bind, ih]
    by_cases hm : (move.1 = a ∧ move.2 = b) ∨ (move.1 = b ∧ move.2 = a)
    · rw [if_pos hm]
      have : (a, b) ∈ move :: rest ∨ (b, a) ∈ move :: rest := by
        rcases hm with ⟨h2, h3⟩ | ⟨h2, h3⟩
        · exact Or.inl (by rw [← h2, ← h3]; exact List.mem_cons_self _ _)
        · exact Or.inr (by rw [← h2, ← h3]; exact List.mem_cons_self _ _)
      rw [decide_eq_true this]
    · rw [if_neg hm]
      have hne1 : (a, b) ≠ move := by
        intro h; apply hm; left; rw [← h]; exact ⟨rfl, rfl⟩
      have hne2 : (b, a) ≠ move := by
        intro h; apply hm; right; rw [← h]; exact ⟨rfl, rfl⟩
      simp [List.mem_cons, hne1, hne2]

theorem TS.updateTabuList_length (tabuList : List (Int × Int)) (move : Int × Int)
    (h : tabuList.length ≤ TS.TABU_TENURE) :
    (TS.updateTabuList tabuList move).length ≤ TS.TABU_TENURE := by
  unfold TS.updateTabuList
  by_cases hge : tabuList.length ≥ TS.TABU_TENURE
  · rw [if_pos hge]
    have hT : TS.TABU_TENURE = 10 := rfl
    simp only [List.length_append, List.length_tail, List.length_singleton]
    omega
  · rw [if_neg hge]
    simp only [List.length_append, List.length_singleton]
    omega

theorem pushMoves_length (moves : List (Int × Int)) : ∀ tabuList : List (Int × Int),
    tabuList.length ≤ TS.TABU_TENURE → (pushMoves tabuList moves).length ≤ TS.TABU_TENURE := by
  induction moves with
  | nil => intro l h; exact h
  | cons mv rest ih =>
    intro l h
    exact ih _ (TS.updateTabuList_length l mv h)

theorem pushMoves_eq (moves : List (Int × Int)) : ∀ tabuList : List (Int × Int),
    tabuList.length ≤ TS.TABU_TENURE →
    pushMoves tabuList moves
      = (tabuList ++ moves).drop ((tabuList ++ moves).length - TS.TABU_TENURE) := by
  induction moves with
  | nil =>
    intro l h
    have : (l ++ []).length - TS.TABU_TENURE = 0 := by simp; omega
    rw [this]; simp [pushMoves]
  | cons mv rest ih =>
    intro l h
    have hT : TS.TABU_TENURE = 10 := rfl
    have hstep : pushMoves l (mv :: rest) = pushMoves (TS.updateTabuList l mv) rest := rfl
    rw [hstep, ih _ (TS.updateTabuList_length l mv h)]
    unfold TS.updateTabuList
    by_cases hge : l.length ≥ TS.TABU_TENURE
    · rw [if_pos hge]
      have hl : l.length = TS.TABU_TENURE := by omega
      cases l with
      | nil => rw [hT] at hl; simp at hl
      | cons x xs =>
        simp only [List.tail_cons, List.length_cons] at hl ⊢
        have e1 : (xs ++ [mv] ++ rest).length - TS.TABU_TENURE
            = rest.length := by simp; omega
        have e2 : (x :: xs ++ mv :: rest).length - TS.TABU_TENURE
            = rest.length + 1 := by simp; omega
        rw [e1, e2]
        simp [List.append_assoc]
    · rw [if_neg hge]
      simp [List.append_assoc]



/-! ## The crossover -/

theorem GA.crossoverSwap_take_drop (s1 s2 : List Int) (c : Nat) (h1 : c < s1.length)
    (h2 : c < s2.length) :
    GA.crossoverSwap c (s2.take c ++ s1.drop c, s1.take c ++ s2.drop c)
      = some (s2.take (c + 1) ++ s1.drop (c + 1), s1.take (c + 1) ++ s2.drop (c + 1)) := by
  have hd1 : s1.drop c = s1[c] :: s1.drop (c + 1) := List.drop_eq_getElem_cons h1
  have hd2 : s2.drop c = s2[c] :: s2.drop (c + 1) := List.drop_eq_getElem_cons h2
  have hl1 : (s1.take c).length = c := by simp; omega
  have hl2 : (s2.take c).length = c := by simp; omega
  have hg1 : vecGet (s2.take c ++ s1.drop c) (c : Int) = some s1[c] := by
    unfold vecGet
    rw [if_pos (by omega)]
    simp only [Int.toNat_ofNat]
    rw [List.getElem?_append_right (by omega), hl2, hd1]
    simp
  have hg2 : vecGet (s1.take c ++ s2.drop c) (c : Int) = some s2[c] := by
    unfold vecGet
    rw [if_pos (by omega)]
    simp only [Int.toNat_ofNat]
    rw [List.getElem?_append_right (by omega), hl1, hd2]
    simp
  have hs1 : vecSet (s2.take c ++ s1.drop c) (c : Int) s2[c]
      = some (s2.take (c + 1) ++ s1.drop (c + 1)) := by
    have h := vecSet_append_cons (s2.take c) s1[c] s2[c] (s1.drop (c + 1))
    rw [hl2, ← hd1] at h
    have e : s2.take (c + 1) = s2.take c ++ [s2[c]] := by
      rw [List.take_succ, List.getElem?_eq_getElem h2]; rfl
    rw [h, e, List.append_assoc]
    rfl
  have hs2 : vecSet (s1.take c ++ s2.drop c) (c : Int) s1[c]
      = some (s1.take (c + 1) ++ s2.drop (c + 1)) := by
    have h := vecSet_append_cons (s1.take c) s2[c] s1[c] (s2.drop (c + 1))
    rw [hl1, ← hd2] at h
    have e : s1.take (c + 1) = s1.take c ++ [s1[c]] := by
      rw [List.take_succ, List.getElem?_eq_getElem h1]; rfl
    rw [h, e, List.append_assoc]
    rfl
  simp only [GA.crossoverSwap, hg1, hg2, Option.some_bind, hs1, hs2, Option.map_some']

theorem GA.crossoverLoop_take_drop (s1 s2 : List Int) : ∀ c : Nat, c ≤ s1.length →
    c ≤ s2.length →
    forLoop GA.crossoverSwap c (s1, s2)
      = some (s2.take c ++ s1.drop c, s1.take c ++ s2.drop c) := by
  intro c
  induction c with
  | zero => intro _ _; simp [forLoop]
  | succ c ih =>
    intro h1 h2
    rw [forLoop, ih (by omega) (by omega)]
    exact GA.crossoverSwap_take_drop s1 s2 c (by omega) (by omega)

theorem inRange_take_drop (m : Model) (s1 s2 : List Int) (c : Nat) (h1 : InRange m s1)
    (h2 : InRange m s2) : InRange m (s2.take c ++ s1.drop c) := by
  intro x hx
  rcases List.mem_append.1 hx with h | h
  · exact h2 x (List.mem_of_mem_take h)
  · exact h1 x (List.mem_of_mem_drop h)



/-! ## The shuffle of the ACO program as a function of its draws -/

theorem swap_getElem? (v : List Int) (a b : Nat) (ha : a < v.length) (hb : b < v.length)
    (p : Nat) :
    ((v.set a (v.get ⟨b, hb⟩)).set b (v.get ⟨a, ha⟩))[p]?
      = if p = b then some (v.get ⟨a, ha⟩) else if p = a then some (v.get ⟨b, hb⟩) else v[p]? := by
  rw [List.getElem?_set]
  by_cases hpb : b = p
  · subst hpb
    simp [hb]
  · have hpb2 : ¬ p = b := fun h => hpb h.symm
    rw [if_neg hpb, if_neg hpb2, List.getElem?_set]
    by_cases hpa : a = p
    · subst hpa
      simp [ha]
    · have hpa2 : ¬ p = a := fun h => hpa h.symm
      rw [if_neg hpa, if_neg hpa2]

theorem vecSwap_nat (v : List Int) (a b : Nat) (ha : a < v.length) (hb : b < v.length) :
    vecSwap v (a : Int) (b : Int) = some ((v.set a (v.get ⟨b, hb⟩)).set b (v.get ⟨a, ha⟩)) := by
  rw [vecSwap_eq v (a : Int) (b : Int) (by omega) (by omega) (by simpa using ha)
    (by simpa using hb)]
  simp

theorem vecSwap_nat_inv (v w : List Int) (a b : Nat)
    (h : vecSwap v (a : Int) (b : Int) = some w) :
    ∃ (ha : a < v.length) (hb : b < v.length),
      w = (v.set a (v.get ⟨b, hb⟩)).set b (v.get ⟨a, ha⟩) := by
  obtain ⟨ha, hb, _⟩ := vecSwap_inv v w _ _ h
  have ha1 : a < v.length := by simpa using ha
  have hb1 : b < v.length := by simpa using hb
  rw [vecSwap_nat v a b ha1 hb1] at h
  exact ⟨ha1, hb1, (Option.some.inj h).symm⟩

theorem customShuffleLoop_frame (rng : Nat → Nat) : ∀ (i : Nat) (vec w : List Int) (k c : Nat),
    customShuffleLoop rng i vec k = some (w, c) →
      c = k + i ∧ w.length = vec.length ∧ ∀ p, i < p → w[p]? = vec[p]? := by
  intro i
  induction i with
  | zero =>
    intro vec w k c h
    simp only [customShuffleLoop, Option.some.injEq, Prod.mk.injEq] at h
    obtain ⟨rfl, rfl⟩ := h
    exact ⟨rfl, rfl, fun _ _ => rfl⟩
  | succ i ih =>
    intro vec w k c h
    simp only [customShuffleLoop, randomInt] at h
    obtain ⟨v1, hv1, h2⟩ := Option.bind_eq_some.1 h
    obtain ⟨hc, hlen, hfr⟩ := ih v1 w (k + 1) c h2
    obtain ⟨ha, hb, rfl⟩ := vecSwap_nat_inv vec v1 _ _ hv1
    refine ⟨by omega, by simpa using hlen, ?_⟩
    intro p hp
    rw [hfr p (by omega)]
    rw [swap_getElem? vec (i + 1) _ ha hb p]
    have hj : rng k % (i + 1 + 1) < i + 1 + 1 := Nat.mod_lt _ (by omega)
    rw [if_neg (by omega), if_neg (by omega)]

theorem customShuffleLoop_last (rng : Nat → Nat) (i : Nat) (vec w : List Int) (k c : Nat)
    (h : customShuffleLoop rng (i + 1) vec k = some (w, c)) :
    w[i + 1]? = vec[rng k % (i + 1 + 1)]? := by
  simp only [customShuffleLoop, randomInt] at h
  obtain ⟨v1, hv1, h2⟩ := Option.bind_eq_some.1 h
  obtain ⟨_, _, hfr⟩ := customShuffleLoop_frame rng i v1 w (k + 1) c h2
  obtain ⟨ha, hb, rfl⟩ := vecSwap_nat_inv vec v1 _ _ hv1
  rw [hfr (i + 1) (by omega)]
  rw [swap_getElem? vec (i + 1) _ ha hb (i + 1)]
  by_cases hj : i + 1 = rng k % (i + 1 + 1)
  · rw [if_pos hj]
    simp only [List.get_eq_getElem]
    rw [← List.getElem?_eq_getElem ha]
    exact congrArg (fun q => vec[q]?) hj
  · rw [if_neg hj, if_pos rfl]
    simp only [List.get_eq_getElem]
    rw [← List.getElem?_eq_getElem hb]

theorem customShuffleLoop_shift : ∀ (i : Nat) (rng : Nat → Nat) (vec : List Int) (k : Nat),
    customShuffleLoop rng i vec k
      = (customShuffleLoop (fun t => rng (t + k)) i vec 0).map fun r => (r.1, r.2 + k) := by
  intro i
  induction i with
  | zero => intro rng vec k; simp [customShuffleLoop]
  | succ i ih =>
    intro rng vec k
    simp only [customShuffleLoop, randomInt, Nat.zero_add]
    cases hs : vecSwap vec ((i + 1 : Nat) : Int) ((rng k % (i + 1 + 1) : Nat) : Int) with
    | none => simp
    | some v1 =>
      simp only [Option.some_bind]
      rw [ih rng v1 (k + 1), ih (fun t => rng (t + k)) v1 1]
      have hf : (fun t => (fun t => rng (t + k)) (t + 1)) = fun t => rng (t + (k + 1)) := by
        funext t
        show rng (t + 1 + k) = rng (t + (k + 1))
        congr 1; omega
      rw [hf, Option.map_map]
      congr 1
      funext r
      simp only [Function.comp, Prod.mk.injEq, true_and]
      omega



theorem customShuffleLoop_inj : ∀ (i : Nat) (vec : List Int), vec.Nodup →
    ∀ (rng rng' : Nat → Nat) (k k' : Nat) (w : List Int) (c c' : Nat),
      customShuffleLoop rng i vec k = some (w, c) →
      customShuffleLoop rng' i vec k' = some (w, c') →
      ∀ t, t < i → rng (k + t) % (i + 1 - t) = rng' (k' + t) % (i + 1 - t) := by
  intro i
  induction i with
  | zero => intro vec _ rng rng' k k' w c c' _ _ t ht; omega
  | succ i ih =>
    intro vec hnd rng rng' k k' w c c' h h'
    have hl := customShuffleLoop_last rng i vec w k c h
    have hl' := customShuffleLoop_last rng' i vec w k' c' h'
    simp only [customShuffleLoop, randomInt] at h h'
    obtain ⟨v1, hv1, h2⟩ := Option.bind_eq_some.1 h
    obtain ⟨v1', hv1', h2'⟩ := Option.bind_eq_some.1 h'
    obtain ⟨ha, hb, _⟩ := vecSwap_nat_inv vec v1 _ _ hv1
    obtain ⟨_, hb', _⟩ := vecSwap_nat_inv vec v1' _ _ hv1'
    have hjj : rng k % (i + 1 + 1) = rng' k' % (i + 1 + 1) := by
      rw [hl, List.getElem?_eq_getElem hb, List.getElem?_eq_getElem hb'] at hl'
      exact (List.Nodup.getElem_inj_iff hnd).1 (Option.some.inj hl')
    rw [← hjj, hv1] at hv1'
    obtain rfl := Option.some.inj hv1'
    have hnd1 : v1.Nodup := ((vecSwap_perm vec v1 _ _ hv1).nodup_iff).2 hnd
    have hrec := ih v1 hnd1 rng rng' (k + 1) (k' + 1) w c c' h2 h2'
    intro t ht
    cases t with
    | zero => simpa using hjj
    | succ s =>
      have := hrec s (by omega)
      have e1 : k + (s + 1) = k + 1 + s := by omega
      have e2 : k' + (s + 1) = k' + 1 + s := by omega
      have e3 : i + 1 + 1 - (s + 1) = i + 1 - s := by omega
      rw [e1, e2, e3]
      exact this

theorem eq_of_perm_of_tail (vec w : List Int) (hnd : vec.Nodup) (hp : w.Perm vec)
    (hfr : ∀ p, 0 < p → w[p]? = vec[p]?) : w = vec := by
  cases vec with
  | nil => exact hp.eq_nil
  | cons v0 tl =>
    cases w with
    | nil => exact absurd hp.symm.eq_nil (by simp)
    | cons w0 tl' =>
      have ht : tl' = tl := by
        apply List.ext_getElem?
        intro p
        simpa using hfr (p + 1) (by omega)
      subst ht
      have hm : v0 ∈ w0 :: tl' := hp.symm.subset (List.mem_cons_self _ _)
      have hn : v0 ∉ tl' := (List.nodup_cons.1 hnd).1
      rcases List.mem_cons.1 hm with h | h
      · rw [h]
      · exact absurd h hn

theorem draws_cons (j : Nat) (ds : List Nat) :
    (fun t => draws (j :: ds) (t + 1)) = draws ds := by
  funext t
  simp [draws]

theorem customShuffleLoop_surj : ∀ (i : Nat) (vec : List Int), vec.Nodup → i < vec.length →
    ∀ w : List Int, w.Perm vec → (∀ p, i < p → w[p]? = vec[p]?) →
      ∃ ds : List Nat, ds.length = i ∧ (∀ t, t < i → ds.getD t 0 ≤ i - t) ∧
        customShuffleLoop (draws ds) i vec 0 = some (w, i) := by
  intro i
  induction i with
  | zero =>
    intro vec hnd _ w hp hfr
    refine ⟨[], rfl, fun t ht => by omega, ?_⟩
    rw [eq_of_perm_of_tail vec w hnd hp hfr]
    rfl
  | succ i ih =>
    intro vec hnd hi w hp hfr
    have hwl : w.length = vec.length := hp.length_eq
    have hiw : i + 1 < w.length := by omega
    have hmem : w[i + 1] ∈ vec := hp.subset (List.getElem_mem _)
    obtain ⟨j, hj, hvj⟩ := List.getElem_of_mem hmem
    have hndw : w.Nodup := hp.nodup_iff.2 hnd
    have hjle : j ≤ i + 1 := by
      by_contra hcon
      have h1 := hfr j (by omega)
      rw [List.getElem?_eq_getElem (by omega), List.getElem?_eq_getElem hj, hvj] at h1
      have := (List.Nodup.getElem_inj_iff hndw).1 (Option.some.inj h1)
      omega
    have hsw := vecSwap_nat vec (i + 1) j hi hj
    have hp1 := vecSwap_perm vec _ _ _ hsw
    obtain ⟨ds, hlen, hds, hrun⟩ := ih _ (hp1.nodup_iff.2 hnd) (by simpa using (by omega : i < vec.length)) w
      (hp.trans hp1.symm) (by
        intro p hpi
        rw [swap_getElem? vec (i + 1) j hi hj p]
        by_cases hpj : p = j
        · rw [if_pos hpj]
          have : j = i + 1 := by omega
          subst this
          subst hpj
          simp only [List.get_eq_getElem]
          rw [List.getElem?_eq_getElem hiw, hvj]
        · rw [if_neg hpj]
          by_cases hpi1 : p = i + 1
          · rw [if_pos hpi1]
            subst hpi1
            simp only [List.get_eq_getElem]
            rw [List.getElem?_eq_getElem hiw, hvj]
          · rw [if_neg hpi1]
            exact hfr p (by omega))
    refine ⟨j :: ds, by simp [hlen], ?_, ?_⟩
    · intro t ht
      cases t with
      | zero => simpa using hjle
      | succ s =>
        have := hds s (by omega)
        simp only [List.getD_cons_succ]
        omega
    · simp only [customShuffleLoop, randomInt]
      have hd0 : draws (j :: ds) 0 % (i + 1 + 1) = j := by
        simp only [draws, List.getD_cons_zero]
        exact Nat.mod_eq_of_lt (by omega)
      rw [hd0, hsw, Option.some_bind, customShuffleLoop_shift, draws_cons, hrun]
      rfl



/-! ## A job on its own, and extensions of a schedule -/

theorem specMax_mem : ∀ (l : List Int) (v : Int), specMax l = some v → v ∈ l := by
  intro l
  induction l with
  | nil => intro v h; simp [specMax] at h
  | cons x xs ih =>
    intro v h
    simp only [specMax, Option.some.injEq] at h
    cases hxs : specMax xs with
    | none =>
      rw [hxs] at h
      simp only at h
      rw [← h]
      exact List.mem_cons_self _ _
    | some y =>
      rw [hxs] at h
      simp only at h
      rcases max_choice x y with hm | hm
      · rw [← h, hm]
        exact List.mem_cons_self _ _
      · rw [← h, hm]
        exact List.mem_cons_of_mem _ (ih y hxs)

theorem dispatch_alone (m : Model) (job : Int) (t : Task) (rc : RefClock)
    (hm : 0 ≤ t.machineID ∧ t.machineID < m.numMachines) (hd : 0 ≤ t.duration)
    (hle : ∀ k, rc.machineTime k ≤ rc.jobTime job) :
    (rc.dispatch job t).jobTime job = rc.jobTime job + t.duration ∧
      (∀ k, (rc.dispatch job t).machineTime k ≤ (rc.dispatch job t).jobTime job) ∧
      ∃ k : Nat, k < m.numMachines ∧
        (rc.dispatch job t).machineTime (k : Int) = (rc.dispatch job t).jobTime job := by
  have hmax : max (rc.machineTime t.machineID) (rc.jobTime job) = rc.jobTime job :=
    max_eq_right (hle _)
  refine ⟨by simp [RefClock.dispatch, hmax], ?_, ?_⟩
  · intro k
    by_cases hk : k = t.machineID
    · subst hk
      simp [RefClock.dispatch]
    · simp only [RefClock.dispatch, Function.update_noteq hk, Function.update_same, hmax]
      have := hle k
      omega
  · refine ⟨t.machineID.toNat, by omega, ?_⟩
    rw [Int.toNat_of_nonneg hm.1]
    exact (dispatch_jobTime_eq rc job t).symm

theorem dispatchAll_alone (m : Model) (job : Int) :
    ∀ (tasks : List Task) (rc : RefClock),
      (∀ t ∈ tasks, 0 ≤ t.machineID ∧ t.machineID < m.numMachines) →
      (∀ t ∈ tasks, 0 ≤ t.duration) →
      (∀ k, rc.machineTime k ≤ rc.jobTime job) →
      (∃ k : Nat, k < m.numMachines ∧ rc.machineTime (k : Int) = rc.jobTime job) →
      (dispatchAll job tasks rc).jobTime job = rc.jobTime job + (tasks.map Task.duration).sum ∧
        (∀ k, (dispatchAll job tasks rc).machineTime k ≤ (dispatchAll job tasks rc).jobTime job) ∧
        ∃ k : Nat, k < m.numMachines ∧
          (dispatchAll job tasks rc).machineTime (k : Int)
            = (dispatchAll job tasks rc).jobTime job := by
  intro tasks
  induction tasks with
  | nil =>
    intro rc _ _ hle hex
    exact ⟨by simp [dispatchAll], hle, hex⟩
  | cons t ts ih =>
    intro rc hm hd hle hex
    obtain ⟨h1, h2, h3⟩ := dispatch_alone m job t rc (hm t (List.mem_cons_self _ _))
      (hd t (List.mem_cons_self _ _)) hle
    obtain ⟨g1, g2, g3⟩ := ih (rc.dispatch job t)
      (fun x hx => hm x (List.mem_cons_of_mem _ hx))
      (fun x hx => hd x (List.mem_cons_of_mem _ hx)) h2 h3
    have e : dispatchAll job (t :: ts) rc = dispatchAll job ts (rc.dispatch job t) := rfl
    rw [e]
    refine ⟨?_, g2, g3⟩
    rw [g1, h1, List.map_cons, List.sum_cons]
    omega

theorem calculateMakespan_single (m : Model) (hw : m.WellFormed) (hd : m.NonNegDurations)
    (j : Nat) (hj : j < m.numJobs) :
    calculateMakespan m [(j : Int)] = some (jobDuration m j) := by
  have hjr : 0 ≤ (j : Int) ∧ (j : Int) < m.numJobs := ⟨by omega, by omega⟩
  have hr : InRange m [(j : Int)] := by
    intro x hx
    rw [List.mem_singleton.1 hx]
    exact hjr
  obtain ⟨v, hv⟩ := calculateMakespan_isSome m _ hw hr
  obtain ⟨rc, hwalk, hmk⟩ := walk_of_makespan m hw _ hr v hv
  rw [wholeJobWalk_cons m hw _ _ _ hjr] at hwalk
  simp only [wholeJobWalk, Option.some.injEq] at hwalk
  obtain ⟨_, hmem⟩ := jobsOf_mem m hw (j : Int) hjr
  obtain ⟨h1, h2, k, hk, h3⟩ := dispatchAll_alone m (j : Int) (jobsOf m (j : Int)) RefClock.zero
    (fun t ht => hw.2.2 _ hmem t ht) (fun t ht => hd _ hmem t ht)
    (fun _ => le_refl _) ⟨0, hw.2.1, rfl⟩
  rw [hwalk] at h1 h2 h3
  have hz : RefClock.zero.jobTime (j : Int) = 0 := rfl
  rw [hz, zero_add, jobsOf_natCast] at h1
  have hle : v ≤ jobDuration m j := by
    have := specMax_mem _ v hmk
    obtain ⟨k2, _, rfl⟩ := List.mem_map.1 this
    unfold jobDuration
    rw [← h1]
    exact h2 _
  have hge : jobDuration m j ≤ v := by
    have := makespan_ge_machineTime m rc v hmk k hk
    unfold jobDuration
    rw [← h1, ← h3]
    exact this
  rw [hv, le_antisymm hle hge]

theorem wholeJobWalk_append (m : Model) : ∀ (s t : List Int) (rc : RefClock),
    wholeJobWalk m (s ++ t) rc = (wholeJobWalk m s rc).bind (wholeJobWalk m t) := by
  intro s
  induction s with
  | nil => intro t rc; rfl
  | cons x xs ih =>
    intro t rc
    simp only [List.cons_append, wholeJobWalk]
    cases vecGet m.jobs x with
    | none => rfl
    | some ops => simp only [Option.some_bind]; exact ih t _

theorem scheduleLoop_append (m : Model) : ∀ (s t : List Int) (c : Clock),
    scheduleLoop m (s ++ t) c = (scheduleLoop m s c).bind (scheduleLoop m t) := by
  intro s
  induction s with
  | nil => intro t c; rfl
  | cons x xs ih =>
    intro t c
    simp only [List.cons_append, scheduleLoop]
    cases vecGet m.jobs x with
    | none => rfl
    | some ops =>
      simp only [Option.some_bind]
      cases jobLoop x ops c with
      | none => rfl
      | some c1 => simp only [Option.some_bind]; exact ih t _

theorem wholeJobWalk_machineTime_mono (m : Model) (hw : m.WellFormed) (hd : m.NonNegDurations)
    (k : Int) (schedule : List Int) (rc rc2 : RefClock) (hr : InRange m schedule)
    (h : wholeJobWalk m schedule rc = some rc2) : rc.machineTime k ≤ rc2.machineTime k := by
  have h1 := wholeJobWalk_machineTime m hw k schedule rc rc2 hr h
  have h2 : 0 ≤ (schedule.map fun x => loadOn k (jobsOf m x)).sum := by
    apply List.sum_nonneg
    intro x hx
    obtain ⟨y, hy, rfl⟩ := List.mem_map.1 hx
    exact loadOn_nonneg k _ (fun t ht => hd _ (jobsOf_mem m hw y (hr y hy)).2 t ht)
  omega



/-! ### Which job the roulette loop selects -/

theorem ACO.roulette_ge (r : ℚ) : ∀ (probs : List ℚ) (j : Nat) (cumulative : ℚ),
    ACO.roulette r probs j cumulative = -1 ∨ (j : Int) ≤ ACO.roulette r probs j cumulative := by
  intro probs
  induction probs with
  | nil => intro j c; exact Or.inl rfl
  | cons p rest ih =>
    intro j c
    by_cases hle : r ≤ c + p
    · simp only [ACO.roulette, if_pos hle]
      exact Or.inr (le_refl _)
    · simp only [ACO.roulette, if_neg hle]
      rcases ih (j + 1) (c + p) with h | h
      · exact Or.inl h
      · right
        push_cast at h
        omega

theorem ACO.roulette_pos (r : ℚ) : ∀ (probs : List ℚ) (j : Nat) (cumulative : ℚ),
    cumulative < r → ∀ n : Nat, ACO.roulette r probs j cumulative = ((j + n : Nat) : Int) →
      ∃ p, probs[n]? = some p ∧ 0 < p := by
  intro probs
  induction probs with
  | nil =>
    intro j c _ n h
    simp only [ACO.roulette] at h
    omega
  | cons p rest ih =>
    intro j c hc n h
    by_cases hle : r ≤ c + p
    · simp only [ACO.roulette, if_pos hle] at h
      have hn : n = 0 := by omega
      subst hn
      exact ⟨p, by simp, by linarith⟩
    · simp only [ACO.roulette, if_neg hle] at h
      cases n with
      | zero =>
        rcases ACO.roulette_ge r rest (j + 1) (c + p) with h1 | h1
        · rw [h1] at h; omega
        · rw [h] at h1; push_cast at h1; omega
      | succ n =>
        have h2 : ACO.roulette r rest (j + 1) (c + p) = ((j + 1 + n : Nat) : Int) := by
          rw [h]; push_cast; omega
        obtain ⟨q, hq, hq0⟩ := ih (j + 1) (c + p) (lt_of_not_le hle) n h2
        exact ⟨q, by simpa using hq, hq0⟩

theorem ACO.scoreStep_marks (m : Model) (hw : m.WellFormed) (hd : m.NonNegDurations)
    (pheromone : List (List ℚ)) (hpos : ∀ row ∈ pheromone, ∀ x ∈ row, 0 < x)
    (visited : List Bool) (size j : Nat) (hj : j < m.numJobs) (s s2 : ACO.Scores)
    (h : ACO.scoreStep m pheromone visited size j s = some s2) :
    (vecGet visited (j : Int) = some true ∧ s2 = s) ∨
      (vecGet visited (j : Int) = some false ∧
        ∃ p, 0 < p ∧ s2.probabilities = s.probabilities.set j p) := by
  unfold ACO.scoreStep at h
  obtain ⟨vis, hvis, h1⟩ := Option.bind_eq_some.1 h
  cases vis with
  | true =>
    simp only [Bool.true_eq_false, if_false, Option.some.injEq] at h1
    exact Or.inl ⟨hvis, h1.symm⟩
  | false =>
    right
    simp only [if_true] at h1
    obtain ⟨row, hrow, h2⟩ := Option.bind_eq_some.1 h1
    obtain ⟨ph, hph, h3⟩ := Option.bind_eq_some.1 h2
    obtain ⟨mk, hmk, h4⟩ := Option.bind_eq_some.1 h3
    obtain ⟨hh, hdiv, h5⟩ := Option.bind_eq_some.1 h4
    obtain ⟨probs, hset, h6⟩ := Option.map_eq_some'.1 h5
    have hph0 : 0 < ph := hpos row (vecGet_mem _ _ _ hrow) ph (vecGet_mem _ _ _ hph)
    have hrange : InRange m [(j : Int)] := by
      intro x hx
      rw [List.mem_singleton.1 hx]
      exact ⟨by omega, by exact_mod_cast hj⟩
    have hmk0 := makespan_nonneg m hw hd _ hrange mk hmk
    have hhpos : 0 < hh := by
      unfold ACO.divide at hdiv
      split at hdiv
      · exact absurd hdiv (by simp)
      · rw [← Option.some.inj hdiv]
        apply div_pos (by norm_num)
        exact_mod_cast (by omega : 0 < mk + 1)
    refine ⟨hvis, ph ^ ACO.ALPHA * hh ^ ACO.BETA, mul_pos (pow_pos hph0 _) (pow_pos hhpos _), ?_⟩
    rw [← h6]
    unfold vecSet at hset
    split at hset
    · simpa using (Option.some.inj hset).symm
    · exact absurd hset (by simp)

theorem ACO.scoreLoop_marks (m : Model) (hw : m.WellFormed) (hd : m.NonNegDurations)
    (pheromone : List (List ℚ)) (hph : PheromoneOK m pheromone)
    (hpos : ∀ row ∈ pheromone, ∀ x ∈ row, 0 < x) (visited : List Bool)
    (hvis : visited.length = m.numJobs) (size : Nat) (hsize : size < numTasks m) :
    ∃ s, forLoop (ACO.scoreStep m pheromone visited size) m.numJobs
        { probabilities := List.replicate m.numJobs 0, sumProbabilities := 0 } = some s ∧
      s.probabilities.length = m.numJobs ∧ (∀ x ∈ s.probabilities, 0 ≤ x) ∧
      s.sumProbabilities = s.probabilities.sum ∧ ScoresMark visited m.numJobs s := by
  obtain ⟨s, hs, ⟨pre, hlen, hprobs, hnn, hsum⟩, hmark⟩ :=
    forLoop_total_indexed (ACO.scoreStep m pheromone visited size)
      (fun j s => ScoresOK m.numJobs j s ∧ ScoresMark visited j s) m.numJobs
      (fun j s hj hs => by
        obtain ⟨s2, hs2, hok2⟩ :=
          ACO.scoreStep_spec m hw hd pheromone hph visited hvis size hsize j hj s hs.1
        refine ⟨s2, hs2, hok2, ?_⟩
        obtain ⟨pre, hlen, hprobs, _, _⟩ := hs.1
        have hjth : s.probabilities[j]? = some 0 := by
          rw [hprobs, List.getElem?_append_right (by omega), hlen, Nat.sub_self]
          obtain ⟨r, hr⟩ : ∃ r, m.numJobs - j = r + 1 := ⟨m.numJobs - j - 1, by omega⟩
          rw [hr, List.replicate_succ]
          simp
        have hjl : j < s.probabilities.length := by
          rw [hprobs, List.length_append, List.length_replicate, hlen]
          omega
        intro i hi
        rcases ACO.scoreStep_marks m hw hd pheromone hpos visited size j hj s s2 hs2 with
          ⟨hv, rfl⟩ | ⟨hv, p, hp, hset⟩
        · by_cases hij : i = j
          · subst hij
            exact ⟨fun _ => hjth, fun hf => by rw [hv] at hf; simp at hf⟩
          · exact hs.2 i (by omega)
        · by_cases hij : i = j
          · subst hij
            refine ⟨fun hf => by rw [hv] at hf; simp at hf, fun _ => ⟨p, hp, ?_⟩⟩
            rw [hset, List.getElem?_set_self hjl]
          · have := hs.2 i (by omega)
            rw [hset, List.getElem?_set_ne (fun h => hij h.symm)]
            exact this)
      m.numJobs { probabilities := List.replicate m.numJobs 0, sumProbabilities := 0 }
      (le_refl _) ⟨⟨[], rfl, by simp, fun x hx => by simp at hx, by simp⟩,
        fun i hi => by omega⟩
  simp only [Nat.sub_self, List.replicate_zero, List.append_nil] at hprobs
  exact ⟨s, hs, by rw [hprobs, hlen], by rw [hprobs]; exact hnn, by rw [hprobs]; exact hsum,
    hmark⟩

theorem ACO.antStep_selects_unvisited (m : Model) (hw : m.WellFormed) (hd : m.NonNegDurations)
    (pheromone : List (List ℚ)) (hph : PheromoneOK m pheromone)
    (hpos : ∀ row ∈ pheromone, ∀ x ∈ row, 0 < x) (rng : Nat → Nat) (a : ACO.Ant)
    (hsize : a.schedule.length < numTasks m) (hvis : a.visited.length = m.numJobs)
    (u : Nat) (hu : vecGet a.visited (u : Int) = some false)
    (hdraw : (randomInt rng a.calls 10000).1 ≠ 0) :
    ∃ a2 nextJob, ACO.antStep m pheromone rng a = some a2 ∧
      a2.schedule = a.schedule ++ [nextJob] ∧ vecGet a.visited nextJob = some false ∧
      vecGet a2.visited nextJob = some true := by
  obtain ⟨s, hs, hsl, hnn, hsum, hmark⟩ :=
    ACO.scoreLoop_marks m hw hd pheromone hph hpos a.visited hvis a.schedule.length hsize
  have hul : u < m.numJobs := by
    unfold vecGet at hu
    rw [if_pos (by omega)] at hu
    have := (List.getElem?_eq_some.1 hu).1
    simp only [Int.toNat_ofNat] at this
    omega
  obtain ⟨pu, hpu0, hpu⟩ := (hmark u hul).2 hu
  have hsumpos : 0 < s.probabilities.sum :=
    lt_of_lt_of_le hpu0 (List.single_le_sum hnn pu (List.getElem?_mem hpu))
  have hne : s.probabilities ≠ [] := by
    intro h0
    rw [h0] at hsumpos
    simp at hsumpos
  simp only [randomInt] at hdraw
  have hx0 : (0 : ℚ) < ((rng a.calls % 10000 : Nat) : ℚ) / 10000 := by
    apply div_pos _ (by norm_num)
    exact_mod_cast Nat.pos_of_ne_zero hdraw
  have hx : ((rng a.calls % 10000 : Nat) : ℚ) / 10000 ≤ 1 := by
    rw [div_le_one (by norm_num)]
    exact_mod_cast le_of_lt (Nat.mod_lt _ (by norm_num))
  have hr : ((rng a.calls % 10000 : Nat) : ℚ) / 10000 * s.sumProbabilities
      ≤ 0 + s.probabilities.sum := by
    rw [hsum, zero_add]
    calc ((rng a.calls % 10000 : Nat) : ℚ) / 10000 * s.probabilities.sum
        ≤ 1 * s.probabilities.sum := mul_le_mul_of_nonneg_right hx (le_of_lt hsumpos)
      _ = s.probabilities.sum := one_mul _
  have hr0 : (0 : ℚ) < ((rng a.calls % 10000 : Nat) : ℚ) / 10000 * s.sumProbabilities := by
    rw [hsum]
    exact mul_pos hx0 hsumpos
  have hsel := ACO.roulette_range _ s.probabilities 0 0 hne hr
  rw [hsl] at hsel
  simp only [Nat.cast_zero, zero_add] at hsel
  obtain ⟨n, hn⟩ : ∃ n : Nat, ACO.roulette
      (((rng a.calls % 10000 : Nat) : ℚ) / 10000 * s.sumProbabilities) s.probabilities 0 0
      = ((0 + n : Nat) : Int) := ⟨_, by rw [Nat.zero_add]; exact (Int.toNat_of_nonneg hsel.1).symm⟩
  obtain ⟨p, hp, hp0⟩ := ACO.roulette_pos _ s.probabilities 0 0 hr0 n hn
  rw [Nat.zero_add] at hn
  rw [hn] at hsel
  have hnl : n < m.numJobs := by omega
  obtain ⟨vis, hvget⟩ := vecGet_of_lt a.visited n (by omega)
  have hvf : vis = false := by
    cases vis with
    | false => rfl
    | true =>
      have := (hmark n hnl).1 hvget
      rw [hp] at this
      have := Option.some.inj this
      linarith
  subst hvf
  have hset := vecSet_of_lt a.visited n true (by omega)
  refine ⟨⟨a.schedule ++ [(n : Int)], a.visited.set n true, a.calls + 1⟩, (n : Int), ?_, rfl,
    hvget, ?_⟩
  · simp only [ACO.antStep, hs, Option.some_bind, randomInt, hn, hset, Option.map_some']
  · show vecGet (a.visited.set n true) (n : Int) = some true
    rw [vecGet_eq_some _ (n : Int) (by omega) (by simpa using (by omega : n < a.visited.length))]
    simp



/-! ## The current solution of tabu search -/

theorem TS.exploreNeighbors_le (m : Model) (rng : Nat → Nat) (cur : Solution) (k : Nat)
    (acc : Solution × Nat) (h : TS.exploreNeighbors m rng cur k = some acc) :
    acc.1.makespan ≤ cur.makespan := by
  refine forLoop_preserves (fun _ acc => TS.exploreStep m rng cur acc)
    (fun acc : Solution × Nat => acc.1.makespan ≤ cur.makespan) ?_ m.numJobs (cur, k) acc
    (le_refl _) h
  intro _ s s2 hs hstep
  unfold TS.exploreStep at hstep
  obtain ⟨⟨nb, k1⟩, _, h2⟩ := Option.map_eq_some'.1 hstep
  rw [← h2]
  show (if nb.makespan < s.1.makespan then nb else s.1).makespan ≤ cur.makespan
  by_cases hlt : nb.makespan < s.1.makespan
  · rw [if_pos hlt]; omega
  · rw [if_neg hlt]; exact hs

theorem TS.iteration_current (m : Model) (rng : Nat → Nat) (st st2 : TS.State)
    (h : TS.iteration m rng st = some st2)
    (heq : st.currentSolution.makespan = st.bestSolution.makespan) :
    st2.currentSolution.makespan ≤ st.currentSolution.makespan ∧
      st2.currentSolution.makespan = st2.bestSolution.makespan := by
  unfold TS.iteration at h
  obtain ⟨⟨bn, k1⟩, hex, h1⟩ := Option.bind_eq_some.1 h
  obtain ⟨isTabu, _, h2⟩ := Option.bind_eq_some.1 h1
  obtain ⟨⟨cur2, tl⟩, hmoved, h3⟩ := Option.map_eq_some'.1 h2
  have hbn := TS.exploreNeighbors_le m rng st.currentSolution st.calls (bn, k1) hex
  have hcur2 : cur2.makespan ≤ st.currentSolution.makespan := by
    by_cases hc : isTabu = false ∨ bn.makespan < st.bestSolution.makespan
    · simp only [if_pos hc] at hmoved
      obtain ⟨s0, _, h4⟩ := Option.bind_eq_some.1 hmoved
      obtain ⟨s1, _, h5⟩ := Option.map_eq_some'.1 h4
      rw [← (Prod.mk.inj h5).1]
      exact hbn
    · simp only [if_neg hc, Option.some.injEq, Prod.mk.injEq] at hmoved
      rw [← hmoved.1]
  rw [← h3]
  refine ⟨hcur2, ?_⟩
  show cur2.makespan
    = (if cur2.makespan < st.bestSolution.makespan then cur2 else st.bestSolution).makespan
  by_cases hlt : cur2.makespan < st.bestSolution.makespan
  · rw [if_pos hlt]
  · rw [if_neg hlt]
    omega

theorem TS.run_current (m : Model) (rng : Nat → Nat) (n : Nat) (st0 st : TS.State)
    (h : TS.run m rng n st0 = some st)
    (heq : st0.currentSolution.makespan = st0.bestSolution.makespan) :
    st.currentSolution.makespan = st.bestSolution.makespan ∧
      st.currentSolution.makespan ≤ st0.currentSolution.makespan := by
  refine forLoop_preserves (fun _ s => TS.iteration m rng s)
    (fun s : TS.State => s.currentSolution.makespan = s.bestSolution.makespan ∧
      s.currentSolution.makespan ≤ st0.currentSolution.makespan) ?_ n st0 st
    ⟨heq, le_refl _⟩ h
  intro _ s s2 hs hstep
  obtain ⟨h1, h2⟩ := TS.iteration_current m rng s s2 hstep hs.1
  exact ⟨h2, le_trans h1 hs.2⟩



/-! ### The roulette loop always selects a job -/

theorem wrapInt_of_fits (x : Int) (h1 : -2147483648 ≤ x) (h2 : x ≤ 2147483647) :
    wrapInt x = x := by
  unfold wrapInt
  omega

theorem taskWork_nonneg (tasks : List Task) : 0 ≤ taskWork tasks := by
  unfold taskWork
  apply List.sum_nonneg
  intro x hx
  obtain ⟨t, _, rfl⟩ := List.mem_map.1 hx
  omega

theorem dispatchedWork_nonneg (m : Model) (schedule : List Int) :
    0 ≤ dispatchedWork m schedule := by
  unfold dispatchedWork
  apply List.sum_nonneg
  intro x hx
  obtain ⟨j, _, rfl⟩ := List.mem_map.1 hx
  exact taskWork_nonneg _

theorem dispatchedWork_append (m : Model) (s t : List Int) :
    dispatchedWork m (s ++ t) = dispatchedWork m s + dispatchedWork m t := by
  simp [dispatchedWork]

theorem taskWork_of_nonneg (tasks : List Task) (h : ∀ t ∈ tasks, 0 ≤ t.duration) :
    taskWork tasks = (tasks.map Task.duration).sum := by
  induction tasks with
  | nil => rfl
  | cons t ts ih =>
    simp only [taskWork, List.map_cons, List.sum_cons] at ih ⊢
    rw [ih (fun x hx => h x (List.mem_cons_of_mem _ hx))]
    have := h t (List.mem_cons_self _ _)
    omega

theorem within_set (B B2 : Int) (l : List Int) (i : Int) (v : Int) (l2 : List Int)
    (hl : ∀ x ∈ l, -B ≤ x ∧ x ≤ B) (hB : B ≤ B2) (hv : -B2 ≤ v ∧ v ≤ B2)
    (h : vecSet l i v = some l2) : ∀ x ∈ l2, -B2 ≤ x ∧ x ≤ B2 := by
  unfold vecSet at h
  split at h
  · rw [← Option.some.inj h]
    intro x hx
    rcases List.mem_or_eq_of_mem_set hx with h1 | h1
    · have := hl x h1
      constructor <;> omega
    · rw [h1]; exact hv
  · exact absurd h (by simp)

theorem taskStep_wrapped_eq (jobID : Int) (c : Clock) (task : Task) (B : Int)
    (hc : c.Within B) (hfit : B + (task.duration.natAbs : Int) ≤ INT_MAX) :
    Wrapped.taskStep jobID c task = taskStep jobID c task ∧
      ∀ c2, taskStep jobID c task = some c2 →
        c2.Within (B + (task.duration.natAbs : Int)) := by
  have ha0 : 0 ≤ (task.duration.natAbs : Int) := by omega
  have ha1 : task.duration ≤ (task.duration.natAbs : Int) := by omega
  have ha2 : -(task.duration.natAbs : Int) ≤ task.duration := by omega
  generalize (task.duration.natAbs : Int) = a at *
  unfold INT_MAX at hfit
  cases hmt : vecGet c.machineTime task.machineID with
  | none =>
    refine ⟨by simp [Wrapped.taskStep, taskStep, hmt], ?_⟩
    intro c2 h2
    simp [taskStep, hmt] at h2
  | some mt =>
    cases hjt : vecGet c.jobTime jobID with
    | none =>
      refine ⟨by simp [Wrapped.taskStep, taskStep, hmt, hjt], ?_⟩
      intro c2 h2
      simp [taskStep, hmt, hjt] at h2
    | some jt =>
      have hm := hc.1 mt (vecGet_mem _ _ _ hmt)
      have hj := hc.2 jt (vecGet_mem _ _ _ hjt)
      have hmax : -B ≤ max mt jt ∧ max mt jt ≤ B := by
        rcases max_choice mt jt with h | h <;> rw [h] <;> assumption
      have hend : -(B + a) ≤ max mt jt + task.duration ∧ max mt jt + task.duration ≤ B + a := by
        constructor <;> omega
      have hw : wrapInt (max mt jt + task.duration) = max mt jt + task.duration :=
        wrapInt_of_fits _ (by omega) (by omega)
      refine ⟨by simp only [Wrapped.taskStep, taskStep, hmt, hjt, Option.bind_eq_bind,
        Option.some_bind, hw], ?_⟩
      intro c2 h2
      simp only [taskStep, hmt, hjt, Option.bind_eq_bind, Option.some_bind] at h2
      obtain ⟨l1, hl1, h3⟩ := Option.bind_eq_some.1 h2
      obtain ⟨l2, hl2, h4⟩ := Option.bind_eq_some.1 h3
      have h5 : c2 = { machineTime := l1, jobTime := l2 } := (Option.some.inj h4).symm
      rw [h5]
      exact ⟨within_set B (B + a) _ _ _ _ hc.1 (by omega) hend hl1,
        within_set B (B + a) _ _ _ _ hc.2 (by omega) hend hl2⟩

theorem jobLoop_wrapped_eq (jobID : Int) : ∀ (tasks : List Task) (c : Clock) (B : Int),
    c.Within B → B + taskWork tasks ≤ INT_MAX →
    Wrapped.jobLoop jobID tasks c = jobLoop jobID tasks c ∧
      ∀ c2, jobLoop jobID tasks c = some c2 → c2.Within (B + taskWork tasks) := by
  intro tasks
  induction tasks with
  | nil =>
    intro c B hc _
    refine ⟨rfl, ?_⟩
    intro c2 h2
    simp only [jobLoop, Option.some.injEq] at h2
    rw [← h2]
    simpa [taskWork] using hc
  | cons t ts ih =>
    intro c B hc hfit
    have hts := taskWork_nonneg ts
    have hcons : taskWork (t :: ts) = (t.duration.natAbs : Int) + taskWork ts := by
      simp [taskWork]
    rw [hcons] at hfit ⊢
    obtain ⟨h1, h2⟩ := taskStep_wrapped_eq jobID c t B hc (by omega)
    simp only [Wrapped.jobLoop, jobLoop, h1]
    cases hstep : taskStep jobID c t with
    | none =>
      refine ⟨rfl, ?_⟩
      intro c2 h3
      simp at h3
    | some c1 =>
      obtain ⟨h3, h4⟩ := ih c1 (B + (t.duration.natAbs : Int)) (h2 c1 hstep) (by omega)
      simp only [Option.some_bind]
      refine ⟨h3, ?_⟩
      intro c2 h5
      have := h4 c2 h5
      rw [← add_assoc]
      exact this

theorem scheduleLoop_wrapped_eq (m : Model) : ∀ (schedule : List Int) (c : Clock) (B : Int),
    c.Within B → B + dispatchedWork m schedule ≤ INT_MAX →
    Wrapped.scheduleLoop m schedule c = scheduleLoop m schedule c ∧
      ∀ c2, scheduleLoop m schedule c = some c2 → c2.Within (B + dispatchedWork m schedule) := by
  intro schedule
  induction schedule with
  | nil =>
    intro c B hc _
    refine ⟨rfl, ?_⟩
    intro c2 h2
    simp only [scheduleLoop, Option.some.injEq] at h2
    rw [← h2]
    simpa [dispatchedWork] using hc
  | cons j rest ih =>
    intro c B hc hfit
    have hrest := dispatchedWork_nonneg m rest
    have hcons : dispatchedWork m (j :: rest) = taskWork (jobsOf m j) + dispatchedWork m rest := by
      simp [dispatchedWork]
    rw [hcons] at hfit ⊢
    simp only [Wrapped.scheduleLoop, scheduleLoop]
    cases hget : vecGet m.jobs j with
    | none =>
      refine ⟨rfl, ?_⟩
      intro c2 h3
      simp at h3
    | some tasks =>
      have hjobs : jobsOf m j = tasks := by simp [jobsOf, hget]
      rw [hjobs] at hfit ⊢
      obtain ⟨h1, h2⟩ := jobLoop_wrapped_eq j tasks c B hc (by omega)
      simp only [Option.some_bind, h1]
      cases hloop : jobLoop j tasks c with
      | none =>
        refine ⟨rfl, ?_⟩
        intro c2 h3
        simp at h3
      | some c1 =>
        obtain ⟨h3, h4⟩ := ih c1 (B + taskWork tasks) (h2 c1 hloop) (by omega)
        simp only [Option.some_bind]
        refine ⟨h3, ?_⟩
        intro c2 h5
        have := h4 c2 h5
        rw [← add_assoc]
        exact this

theorem within_init (m : Model) : (Clock.init m).Within 0 := by
  constructor <;> intro x hx <;>
    simp only [Clock.init] at hx <;> rw [(List.mem_replicate.1 hx).2] <;> simp

theorem calculateMakespan_wrapped_eq (m : Model) (schedule : List Int)
    (hfit : dispatchedWork m schedule ≤ INT_MAX) :
    Wrapped.calculateMakespan m schedule = calculateMakespan m schedule := by
  unfold Wrapped.calculateMakespan calculateMakespan
  rw [(scheduleLoop_wrapped_eq m schedule _ 0 (within_init m) (by omega)).1]

/-! ## The evaluator over the integers: bounds, a job alone, extensions -/

theorem exact_lower_bounds (m : Model) (schedule : List Int) (hw : m.WellFormed)
    (hd : m.NonNegDurations) (hv : ValidSchedule m schedule) :
    ∃ v, calculateMakespan m schedule = some v ∧
      (∀ j : Nat, j < m.numJobs → jobDuration m j ≤ v) ∧
      (∀ k : Nat, k < m.numMachines → machineLoad m k ≤ v) := by
  have hr : InRange m schedule := hv.2.1
  obtain ⟨v, hv0⟩ := calculateMakespan_isSome m schedule hw hr
  have hv1 := hv0
  rw [calculateMakespan_eq_wholeJob m schedule hw hr] at hv1
  unfold wholeJobEvaluator at hv1
  obtain ⟨rc2, hwalk, hv1⟩ := Option.bind_eq_some.1 hv1
  refine ⟨v, hv0, ?_, ?_⟩ <;> intro i hi
  · -- the operations of a job run one after the other
    have hmem := mem_of_valid m hw schedule hv i hi
    have h1 := wholeJobWalk_jobTime m hw hd (i : Int) schedule _ rc2 hr hwalk hmem
    obtain ⟨k, hk, hle⟩ := wholeJobWalk_covered m hw hd schedule _ rc2 hr hwalk
      (covered_zero m hw) (i : Int)
    have h2 := makespan_ge_machineTime m rc2 v hv1 k hk
    rw [jobsOf_natCast] at h1
    simp only [RefClock.zero, zero_add] at h1
    unfold jobDuration
    omega
  · -- the operations of a machine run one after the other
    have h1 := wholeJobWalk_machineTime m hw (i : Int) schedule _ rc2 hr hwalk
    have h2 := makespan_ge_machineTime m rc2 v hv1 i hi
    have h3 := sum_range_le_sum_schedule m.numJobs schedule
      (fun x => loadOn (i : Int) (jobsOf m x))
      (fun x hx => loadOn_nonneg _ _ (hd _ (jobsOf_mem m hw x (hr x hx)).2))
      (fun j hj => mem_of_valid m hw schedule hv j hj)
    rw [machineLoad_eq m hw i]
    simp only [RefClock.zero, zero_add] at h1
    exact le_trans h3 (le_trans h1 h2)

theorem ACO.exact_heuristic (m : Model) (hw : m.WellFormed) (hd : m.NonNegDurations)
    (j : Nat) (hj : j < m.numJobs) :
    calculateMakespan m [(j : Int)] = some (jobDuration m j) ∧
      ((calculateMakespan m [(j : Int)]).bind fun mk => ACO.divide 1 (((mk + 1 : Int) : ℚ)))
        = some (1 / ((jobDuration m j : ℚ) + 1)) ∧
      ∀ (pheromone : List (List ℚ)) (visited : List Bool) (size : Nat) (row : List ℚ) (ph : ℚ)
        (s : ACO.Scores),
        vecGet visited (j : Int) = some false → vecGet pheromone (size : Int) = some row →
        vecGet row (j : Int) = some ph → j < s.probabilities.length →
        ACO.scoreStep m pheromone visited size j s
          = some { probabilities :=
                     s.probabilities.set j
                       (ph ^ ACO.ALPHA * (1 / ((jobDuration m j : ℚ) + 1)) ^ ACO.BETA),
                   sumProbabilities :=
                     s.sumProbabilities
                       + ph ^ ACO.ALPHA * (1 / ((jobDuration m j : ℚ) + 1)) ^ ACO.BETA } := by
  have h1 := calculateMakespan_single m hw hd j hj
  have hnn : 0 ≤ jobDuration m j := by
    have hjr : 0 ≤ (j : Int) ∧ (j : Int) < m.numJobs := ⟨by omega, by omega⟩
    unfold jobDuration
    rw [← jobsOf_natCast]
    exact durations_nonneg _ (fun t ht => hd _ (jobsOf_mem m hw (j : Int) hjr).2 t ht)
  have hne : ((jobDuration m j + 1 : Int) : ℚ) ≠ 0 := by
    have : (0 : ℚ) < ((jobDuration m j + 1 : Int) : ℚ) := by
      exact_mod_cast (by omega : (0 : Int) < jobDuration m j + 1)
    exact ne_of_gt this
  have h2 : ACO.divide 1 (((jobDuration m j + 1 : Int) : ℚ))
      = some (1 / ((jobDuration m j : ℚ) + 1)) := by
    unfold ACO.divide
    rw [if_neg hne]
    push_cast
    rfl
  refine ⟨h1, by rw [h1, Option.some_bind, h2], ?_⟩
  intro pheromone visited size row ph s hvis hrow hph hlen
  have hset : vecSet s.probabilities (j : Int)
      (ph ^ ACO.ALPHA * (1 / ((jobDuration m j : ℚ) + 1)) ^ ACO.BETA)
      = some (s.probabilities.set j
          (ph ^ ACO.ALPHA * (1 / ((jobDuration m j : ℚ) + 1)) ^ ACO.BETA)) := by
    unfold vecSet
    rw [if_pos ⟨by omega, by simpa using hlen⟩]
    simp
  simp only [ACO.scoreStep, hvis, Option.some_bind, if_true, hrow, hph, h1, h2, hset,
    Option.map_some']

theorem exact_monotone (m : Model) (hw : m.WellFormed) (hd : m.NonNegDurations)
    (s t : List Int) (hs : InRange m s) (ht : InRange m t) :
    calculateMakespan m [] = some 0 ∧
      ∃ c c2 v v2, scheduleLoop m s (Clock.init m) = some c ∧
        scheduleLoop m t c = some c2 ∧
        scheduleLoop m (s ++ t) (Clock.init m) = some c2 ∧
        calculateMakespan m s = some v ∧ calculateMakespan m (s ++ t) = some v2 ∧
        0 ≤ v ∧ v ≤ v2 ∧
        (∀ k : Nat, k < m.numMachines → ∃ x y, vecGet c.machineTime (k : Int) = some x ∧
          vecGet c2.machineTime (k : Int) = some y ∧ 0 ≤ x ∧ x ≤ y) ∧
        (∀ j : Nat, j < m.numJobs → ∃ x y, vecGet c.jobTime (j : Int) = some x ∧
          vecGet c2.jobTime (j : Int) = some y ∧ 0 ≤ x ∧ x ≤ y) := by
  have hst : InRange m (s ++ t) := by
    intro x hx
    rcases List.mem_append.1 hx with h | h
    · exact hs x h
    · exact ht x h
  have hnil : InRange m [] := fun x hx => by simp at hx
  constructor
  · obtain ⟨n, hn⟩ : ∃ n, m.numMachines = n + 1 := ⟨m.numMachines - 1, by have := hw.2.1; omega⟩
    have hfold : ∀ (n : Nat) (z : Int), List.foldl max z (List.replicate n z) = z := by
      intro n z
      induction n with
      | zero => rfl
      | succ n ih => simp only [List.replicate_succ, List.foldl_cons, max_self]; exact ih
    simp only [calculateMakespan, scheduleLoop, Clock.init, Option.some_bind, hn,
      List.replicate_succ, maxElement, hfold]
  · obtain ⟨c, rc, hc, hrc, hag⟩ := scheduleLoop_agree m hw s _ _ (agree_init m) hs
    obtain ⟨c2, rc2, hc2, hrc2, hag2⟩ := scheduleLoop_agree m hw t c rc hag ht
    have hck : scheduleLoop m (s ++ t) (Clock.init m) = some c2 := by
      rw [scheduleLoop_append, hc, Option.some_bind, hc2]
    have hrk : wholeJobWalk m (s ++ t) RefClock.zero = some rc2 := by
      rw [wholeJobWalk_append, hrc, Option.some_bind, hrc2]
    obtain ⟨v, hv⟩ := calculateMakespan_isSome m s hw hs
    obtain ⟨v2, hv2⟩ := calculateMakespan_isSome m (s ++ t) hw hst
    obtain ⟨rc', hw1, hm1⟩ := walk_of_makespan m hw s hs v hv
    obtain ⟨rc2', hw2, hm2⟩ := walk_of_makespan m hw (s ++ t) hst v2 hv2
    rw [hrc] at hw1
    rw [hrk] at hw2
    obtain rfl := Option.some.inj hw1
    obtain rfl := Option.some.inj hw2
    refine ⟨c, c2, v, v2, hc, hc2, hck, hv, hv2, makespan_nonneg m hw hd s hs v hv, ?_, ?_, ?_⟩
    · obtain ⟨k, hk, rfl⟩ := List.mem_map.1 (specMax_mem _ v hm1)
      have hk1 : k < m.numMachines := List.mem_range.1 hk
      exact le_trans (wholeJobWalk_machineTime_mono m hw hd _ t rc rc2 ht hrc2)
        (makespan_ge_machineTime m rc2 v2 hm2 k hk1)
    · intro k hk
      refine ⟨rc.machineTime (k : Int), rc2.machineTime (k : Int), ?_, ?_, ?_, ?_⟩
      · rw [hag.1]
        exact vecGet_map_range _ _ _ (by omega) (by omega)
      · rw [hag2.1]
        exact vecGet_map_range _ _ _ (by omega) (by omega)
      · exact wholeJobWalk_machineTime_mono m hw hd _ s RefClock.zero rc hs hrc
      · exact wholeJobWalk_machineTime_mono m hw hd _ t rc rc2 ht hrc2
    · intro j hj
      refine ⟨rc.jobTime (j : Int), rc2.jobTime (j : Int), ?_, ?_, ?_, ?_⟩
      · rw [hag.2]
        exact vecGet_map_range _ _ _ (by omega) (by omega)
      · rw [hag2.2]
        exact vecGet_map_range _ _ _ (by omega) (by omega)
      · exact wholeJobWalk_jobTime_mono m hw hd _ s RefClock.zero rc hs hrc
      · exact wholeJobWalk_jobTime_mono m hw hd _ t rc rc2 ht hrc2

/-! ## The makespan evaluator: the claims -/

/-- C1 (as stated, refuted): on the instance of `main`, `calculateMakespan` of the
round-robin schedule `[0,1,2,0,1,2,0,1,2]` is not 14. -/
theorem calculateMakespan_roundRobin_ne_14 :
    calculateMakespan mainModel [0, 1, 2, 0, 1, 2, 0, 1, 2] ≠ some 14 := by
  decide

/-- C1 (amended): on the instance of `main`, `calculateMakespan` of the round-robin
schedule `[0,1,2,0,1,2,0,1,2]` returns exactly 35. -/
theorem calculateMakespan_roundRobin :
    calculateMakespan mainModel [0, 1, 2, 0, 1, 2, 0, 1, 2] = some 35 := by
  decide

/-- C2 (as stated, refuted): on the instance of `main` and the valid schedule
`[0,1,2,0,1,2,0,1,2]`, in which no job occurs more often than it has operations,
`calculateMakespan` returns 35 while the per-job-cursor evaluator of section 4.1
returns 15. -/
theorem calculateMakespan_ne_referenceEvaluator :
    mainModel.WellFormed ∧ InRange mainModel [0, 1, 2, 0, 1, 2, 0, 1, 2] ∧
      WithinOperations mainModel [0, 1, 2, 0, 1, 2, 0, 1, 2] ∧
      calculateMakespan mainModel [0, 1, 2, 0, 1, 2, 0, 1, 2] = some 35 ∧
      referenceEvaluator mainModel [0, 1, 2, 0, 1, 2, 0, 1, 2] = some 15 := by
  decide

/-- C2 (amended): for every well-formed problem model and every schedule of job
indices in `[0, numJobs)` whose dispatched work (the absolute durations of all the
operations of the job of every entry, added up) is at most `INT_MAX`,
`calculateMakespan`, computed in 32-bit `int` arithmetic, equals the evaluator in
which each schedule entry dispatches all the operations of its job, in order, each
with `start = max(machineTime[op.machine], jobTime[job])`,
`end = start + op.duration`, both times set to `end`; the result is the maximum
`machineTime`. No sum of the walk overflows, so the `int` value is the integer one. -/
theorem calculateMakespan_eq_wholeJobEvaluator (m : Model) (schedule : List Int)
    (hw : m.WellFormed) (hr : InRange m schedule)
    (hfit : dispatchedWork m schedule ≤ INT_MAX) :
    Wrapped.calculateMakespan m schedule = wholeJobEvaluator m schedule ∧
      Wrapped.calculateMakespan m schedule = calculateMakespan m schedule := by
  have h := calculateMakespan_wrapped_eq m schedule hfit
  exact ⟨by rw [h]; exact calculateMakespan_eq_wholeJob m schedule hw hr, h⟩

/-- The amended C2 at the instance of `main` and the round-robin schedule, whose
dispatched work is 72. -/
theorem calculateMakespan_eq_wholeJobEvaluator_witness :
    mainModel.WellFormed ∧ InRange mainModel [0, 1, 2, 0, 1, 2, 0, 1, 2] ∧
      dispatchedWork mainModel [0, 1, 2, 0, 1, 2, 0, 1, 2] ≤ INT_MAX ∧
      Wrapped.calculateMakespan mainModel [0, 1, 2, 0, 1, 2, 0, 1, 2]
        = wholeJobEvaluator mainModel [0, 1, 2, 0, 1, 2, 0, 1, 2] :=
  ⟨by decide, by decide, by decide,
    (calculateMakespan_eq_wholeJobEvaluator mainModel _ (by decide) (by decide)
      (by decide)).1⟩

/-- C3 (as stated, refuted): on the model of one job with two operations of duration
2000000000 on machines 0 and 1, which is well formed with non-negative durations,
the schedule `[0, 0]` is valid and `calculateMakespan`, in 32-bit `int` arithmetic,
returns 1705032704, less than the sum 4000000000 of the durations of job 0 and less
than the load 2000000000 of machine 0. -/
theorem calculateMakespan_wraps_below_bounds :
    longJob.WellFormed ∧ longJob.NonNegDurations ∧ ValidSchedule longJob [0, 0] ∧
      Wrapped.calculateMakespan longJob [0, 0] = some 1705032704 ∧
      jobDuration longJob 0 = 4000000000 ∧ machineLoad longJob 0 = 2000000000 ∧
      ¬ (jobDuration longJob 0 ≤ 1705032704) ∧ ¬ (machineLoad longJob 0 ≤ 1705032704) := by
  decide

/-- C3 (amended): for every well-formed model with non-negative durations and every
valid schedule whose dispatched work (the durations of all the operations of the job
of every entry, added up) is at most `INT_MAX`, `calculateMakespan`, in 32-bit `int`
arithmetic, returns a value that is at least the sum of the durations of the
operations of each single job and at least the sum of the durations of all
operations assigned to each single machine. -/
theorem calculateMakespan_lower_bounds (m : Model) (schedule : List Int) (hw : m.WellFormed)
    (hd : m.NonNegDurations) (hv : ValidSchedule m schedule)
    (hfit : dispatchedWork m schedule ≤ INT_MAX) :
    ∃ v, Wrapped.calculateMakespan m schedule = some v ∧
      calculateMakespan m schedule = some v ∧
      (∀ j : Nat, j < m.numJobs → jobDuration m j ≤ v) ∧
      (∀ k : Nat, k < m.numMachines → machineLoad m k ≤ v) := by
  obtain ⟨v, h1, h2, h3⟩ := exact_lower_bounds m schedule hw hd hv
  exact ⟨v, by rw [calculateMakespan_wrapped_eq m schedule hfit]; exact h1, h1, h2, h3⟩

/-- C3 (amended) at the instance of `main` and the round-robin schedule. -/
theorem calculateMakespan_lower_bounds_witness :
    mainModel.WellFormed ∧ mainModel.NonNegDurations ∧
      ValidSchedule mainModel [0, 1, 2, 0, 1, 2, 0, 1, 2] ∧
      dispatchedWork mainModel [0, 1, 2, 0, 1, 2, 0, 1, 2] ≤ INT_MAX ∧
      ∃ v, Wrapped.calculateMakespan mainModel [0, 1, 2, 0, 1, 2, 0, 1, 2] = some v ∧
        calculateMakespan mainModel [0, 1, 2, 0, 1, 2, 0, 1, 2] = some v ∧
        (∀ j : Nat, j < mainModel.numJobs → jobDuration mainModel j ≤ v) ∧
        (∀ k : Nat, k < mainModel.numMachines → machineLoad mainModel k ≤ v) :=
  ⟨by decide, by decide, by decide, by decide,
    calculateMakespan_lower_bounds mainModel _ (by decide) (by decide) (by decide)
      (by decide)⟩

/-- C4: for every well-formed model and every schedule whose entries lie in
`[0, numJobs)`, however often each job index occurs, `calculateMakespan` makes
no out-of-range access and returns a value. -/
theorem calculateMakespan_total (m : Model) (schedule : List Int) (hw : m.WellFormed)
    (hr : InRange m schedule) : ∃ v, calculateMakespan m schedule = some v := by
  obtain ⟨c2, rc2, hc2, _, ha2⟩ := scheduleLoop_agree m hw schedule _ _ (agree_init m) hr
  simp only [calculateMakespan, hc2, Option.some_bind, ha2.1]
  obtain ⟨n, hn⟩ : ∃ n, m.numMachines = n + 1 := ⟨m.numMachines - 1, by have := hw.2.1; omega⟩
  rw [hn, List.range_succ_eq_map]
  exact ⟨_, rfl⟩

/-- C4 at the instance of `main` and a schedule in which job 0 occurs four times
although it has three operations. -/
theorem calculateMakespan_total_witness :
    mainModel.WellFormed ∧ InRange mainModel [0, 0, 0, 0, 1] ∧
      ∃ v, calculateMakespan mainModel [0, 0, 0, 0, 1] = some v :=
  ⟨by decide, by decide, calculateMakespan_total mainModel _ (by decide) (by decide)⟩

/-! ## The schedule generator and the neighbours: the claims -/

/-- C5: for every well-formed model, every `std::shuffle` and every sequence of
random draws, each `generateInitialSolution` (ACO with `customShuffle`, SA, GA and
TS with `std::shuffle`) returns a solution whose schedule has length
`numJobs * numMachines` and contains every job index of `[0, numJobs)` exactly
`numMachines` times and nothing else; the fill loops build the canonical multiset
and `customShuffle` permutes it whatever the draws. -/
theorem generateInitialSolution_valid (m : Model) (hw : m.WellFormed) (sh : StdShuffle)
    (rng : Nat → Nat) (k : Nat) :
    unshuffled m = some (canonicalSchedule m) ∧
      (∃ w k1, customShuffle rng (canonicalSchedule m) k = some (w, k1) ∧
        w.Perm (canonicalSchedule m) ∧ ValidSchedule m w) ∧
      (∃ sol k1, ACO.generateInitialSolution m rng k = some (sol, k1) ∧
        ValidSchedule m sol.schedule) ∧
      (∃ sol k1, SA.generateInitialSolution m sh rng k = some (sol, k1) ∧
        ValidSchedule m sol.schedule) ∧
      (∃ sol k1, GA.generateInitialSolution m sh rng k = some (sol, k1) ∧
        ValidSchedule m sol.schedule) ∧
      (∃ sol, TS.generateInitialSolution m sh rng = some sol ∧ ValidSchedule m sol.schedule) := by
  refine ⟨unshuffled_eq m, ?_, ?_, ?_, ?_, ?_⟩
  · obtain ⟨w, k1, h, hp⟩ := customShuffle_perm rng (canonicalSchedule m) k
    exact ⟨w, k1, h, hp, valid_of_perm m w hp⟩
  · obtain ⟨sol, k1, h, hv, _⟩ := ACO.generateInitialSolution_spec_aco m hw rng k
    exact ⟨sol, k1, h, hv⟩
  · obtain ⟨sol, k1, h, hv, _⟩ := SA.generateInitialSolution_spec_sa m hw sh rng k
    exact ⟨sol, k1, h, hv⟩
  · obtain ⟨sol, k1, h, hv, _⟩ := GA.generateInitialSolution_spec_ga m hw sh rng k
    exact ⟨sol, k1, h, hv⟩
  · obtain ⟨sol, h, hv, _⟩ := TS.generateInitialSolution_spec_ts m hw sh rng
    exact ⟨sol, h, hv⟩

/-- C5 at the instance of `main`, with the generator of the ACO program seeded
with 42. -/
theorem generateInitialSolution_valid_witness :
    mainModel.WellFormed ∧
      ∃ sol k1, ACO.generateInitialSolution mainModel (lcgStream 42) 0 = some (sol, k1) ∧
        ValidSchedule mainModel sol.schedule :=
  ⟨by decide,
    (generateInitialSolution_valid mainModel (by decide) StdShuffle.identity (lcgStream 42)
      0).2.2.1⟩

/-- C8: in simulated annealing and tabu search the Schedule invariant is kept by
every step. Whatever the two drawn positions, the schedule `getNeighbor` returns
is a permutation of its input, and `getNeighbor` does return on a non-empty
schedule of job indices; hence after any number of iterations `currentSolution`
and `bestSolution`, and the solution returned, contain every job index of
`[0, numJobs)` exactly `numMachines` times. -/
theorem getNeighbor_keeps_schedule (m : Model) (hw : m.WellFormed)
    (ht : 2 ≤ m.numJobs * m.numMachines) (sh : StdShuffle) (e : ExpFn)
    (engine rng : Nat → Nat) :
    (∀ k cur nb k1, SA.getNeighbor m rng k cur = some (nb, k1) →
        nb.schedule.Perm cur.schedule) ∧
      (∀ k cur nb k1, TS.getNeighbor m rng k cur = some (nb, k1) →
        nb.schedule.Perm cur.schedule) ∧
      (∀ k cur, InRange m cur.schedule → 0 < cur.schedule.length →
        (∃ nb k1, SA.getNeighbor m rng k cur = some (nb, k1)) ∧
          ∃ nb k1, TS.getNeighbor m rng k cur = some (nb, k1)) ∧
      (∀ n, ∃ seed k st, SA.generateInitialSolution m sh rng 0 = some (seed, k) ∧
        SA.run m e rng n (SA.State.init seed k) = some st ∧
        ValidSchedule m st.currentSolution.schedule ∧
        ValidSchedule m st.bestSolution.schedule) ∧
      (∃ result, SA.simulatedAnnealing m sh e rng = some result ∧
        ValidSchedule m result.schedule) ∧
      (∀ n, ∃ seed st, TS.generateInitialSolution m sh engine = some seed ∧
        TS.run m rng n (TS.State.init seed 0) = some st ∧
        ValidSchedule m st.currentSolution.schedule ∧
        ValidSchedule m st.bestSolution.schedule) ∧
      (∃ result, TS.tabuSearch m sh engine rng = some result ∧
        ValidSchedule m result.schedule) := by
  have hj : 1 ≤ m.numJobs := by
    rcases Nat.eq_zero_or_pos m.numJobs with h | h
    · rw [h] at ht; omega
    · exact h
  obtain ⟨seed, k, hseed, hv, hc⟩ := SA.generateInitialSolution_spec_sa m hw sh rng 0
  obtain ⟨tseed, htseed, htv, htc⟩ := TS.generateInitialSolution_spec_ts m hw sh engine
  have hsa : ∀ n, ∃ st, SA.run m e rng n (SA.State.init seed k) = some st ∧ SA.Inv m st := by
    intro n
    obtain ⟨st, h1, h2, _⟩ := SA.run_spec_sa m hw hj e rng n (SA.State.init seed k)
      ⟨⟨hv, hc⟩, ⟨hv, hc⟩⟩
    exact ⟨st, h1, h2⟩
  have hts : ∀ n, ∃ st, TS.run m rng n (TS.State.init tseed 0) = some st ∧ TS.Inv m st := by
    intro n
    obtain ⟨st, h1, h2, _⟩ := TS.run_spec_ts m hw ht rng n (TS.State.init tseed 0)
      ⟨⟨htv, htc⟩, ⟨htv, htc⟩⟩
    exact ⟨st, h1, h2⟩
  refine ⟨fun k cur nb k1 h => (SA.getNeighbor_inv_sa m rng k cur nb k1 h).1,
    fun k cur nb k1 h => (TS.getNeighbor_inv_ts m rng k cur nb k1 h).1, ?_, ?_, ?_, ?_, ?_⟩
  · intro k cur hr hlen
    obtain ⟨nb, k1, h, _⟩ := SA.getNeighbor_spec_sa m hw rng k cur hr hlen
    obtain ⟨nb2, k2, h2, _⟩ := TS.getNeighbor_spec_ts m hw rng k cur hr hlen
    exact ⟨⟨nb, k1, h⟩, ⟨nb2, k2, h2⟩⟩
  · intro n
    obtain ⟨st, h1, h2⟩ := hsa n
    exact ⟨seed, k, st, hseed, h1, h2.1.1, h2.2.1⟩
  · obtain ⟨st, h1, h2⟩ := hsa SA.MAX_ITERATIONS
    exact ⟨st.bestSolution, by simp [SA.simulatedAnnealing, hseed, h1], h2.2.1⟩
  · intro n
    obtain ⟨st, h1, h2⟩ := hts n
    exact ⟨tseed, st, htseed, h1, h2.1.1, h2.2.1⟩
  · obtain ⟨st, h1, h2⟩ := hts TS.MAX_ITERATIONS
    exact ⟨st.bestSolution, by simp [TS.tabuSearch, htseed, h1], h2.2.1⟩

/-- C8 at the instance of `main`: simulated annealing returns a valid schedule. -/
theorem getNeighbor_keeps_schedule_witness :
    mainModel.WellFormed ∧ 2 ≤ mainModel.numJobs * mainModel.numMachines ∧
      ∃ result, SA.simulatedAnnealing mainModel StdShuffle.identity ExpFn.underflowing
          (lcgStream 42) = some result ∧ ValidSchedule mainModel result.schedule :=
  ⟨by decide, by decide,
    (getNeighbor_keeps_schedule mainModel (by decide) (by decide) StdShuffle.identity
      ExpFn.underflowing (lcgStream 42) (lcgStream 42)).2.2.2.2.1⟩

/-! ## The acceptance rule of simulated annealing: the claims -/

/-- C9 (the code at the failing input): on the instance of `main`, from the
schedule `[0,0,0,1,1,1,2,2,2]` of makespan 64, the draws 1 and 7 give a neighbour
of makespan 48, strictly lower; when the acceptance draw `rng()` is `rng.max()`
the test `1.0 > 1.0` fails and `currentSolution` stays as it was, at every
temperature. -/
theorem SA.improving_neighbor_rejected (e : ExpFn) (temperature : ℚ) :
    SA.getNeighbor mainModel (draws [1, 7, 4294967295]) 0 ⟨[0, 0, 0, 1, 1, 1, 2, 2, 2], 64⟩
        = some (⟨[0, 2, 0, 1, 1, 1, 2, 0, 2], 48⟩, 2) ∧
      ¬ SA.accepts e 64 48 temperature 4294967295 ∧
      (SA.iteration mainModel e (draws [1, 7, 4294967295])
          ⟨⟨[0, 0, 0, 1, 1, 1, 2, 2, 2], 64⟩, ⟨[0, 0, 0, 1, 1, 1, 2, 2, 2], 64⟩,
            temperature, 0⟩).map (fun st => st.currentSolution)
        = some ⟨[0, 0, 0, 1, 1, 1, 2, 2, 2], 64⟩ := by
  have h : SA.getNeighbor mainModel (draws [1, 7, 4294967295]) 0
      ⟨[0, 0, 0, 1, 1, 1, 2, 2, 2], 64⟩ = some (⟨[0, 2, 0, 1, 1, 1, 2, 0, 2], 48⟩, 2) := by
    decide
  have h2 : ¬ SA.accepts e 64 48 temperature 4294967295 := by
    rw [SA.accepts_improving_iff e 64 48 temperature _ (by decide)]
    decide
  refine ⟨h, h2, ?_⟩
  simp only [SA.iteration, h, Option.some_bind, rngCall, draws]
  simp [h2, rngMax]

/-- C11 (as stated, refuted): on the instance of `main`, from the current schedule
`[1,2,0,1,2,0,1,2,0]` of makespan 34 and the draws 0, 1, 2, 3, 4, 5, the three
candidates have makespans 38, 35 and 39; `bestNeighbor` after the loop is the
current solution, of makespan 34, which is none of the candidates and not the
minimum 35 of their makespans. -/
theorem TS.bestNeighbor_not_a_candidate :
    1 ≤ mainModel.numJobs ∧
      TS.exploreNeighbors mainModel (draws [0, 1, 2, 3, 4, 5])
          ⟨[1, 2, 0, 1, 2, 0, 1, 2, 0], 34⟩ 0
        = some (⟨[1, 2, 0, 1, 2, 0, 1, 2, 0], 34⟩, 6) ∧
      TS.getNeighbor mainModel (draws [0, 1, 2, 3, 4, 5]) 0 ⟨[1, 2, 0, 1, 2, 0, 1, 2, 0], 34⟩
        = some (⟨[2, 1, 0, 1, 2, 0, 1, 2, 0], 38⟩, 2) ∧
      TS.getNeighbor mainModel (draws [0, 1, 2, 3, 4, 5]) 2 ⟨[1, 2, 0, 1, 2, 0, 1, 2, 0], 34⟩
        = some (⟨[1, 2, 1, 0, 2, 0, 1, 2, 0], 35⟩, 4) ∧
      TS.getNeighbor mainModel (draws [0, 1, 2, 3, 4, 5]) 4 ⟨[1, 2, 0, 1, 2, 0, 1, 2, 0], 34⟩
        = some (⟨[1, 2, 0, 1, 0, 2, 1, 2, 0], 39⟩, 6) := by
  decide

/-- C11 (amended): in one tabu-search iteration, for every current solution with a
non-empty schedule of job indices and every sequence of swap draws, the
exploration loop returns, and `bestNeighbor` is `currentSolution` itself or one
of the `numJobs` generated candidates; its makespan is at most the makespan of
`currentSolution` and of every candidate, so it is the minimum of these; and
`bestNeighbor` is one of the candidates whenever some candidate is strictly
better than `currentSolution`. -/
theorem TS.exploreNeighbors_keeps_best (m : Model) (hw : m.WellFormed) (rng : Nat → Nat)
    (cur : Solution) (hr : InRange m cur.schedule) (hlen : 0 < cur.schedule.length) (k : Nat) :
    ∃ bn, TS.exploreNeighbors m rng cur k = some (bn, k + 2 * m.numJobs) ∧
      (∀ i, i < m.numJobs → ∃ c, TS.getNeighbor m rng (k + 2 * i) cur = some (c, k + 2 * i + 2) ∧
        bn.makespan ≤ c.makespan) ∧
      bn.makespan ≤ cur.makespan ∧
      (bn = cur ∨
        ∃ i, i < m.numJobs ∧ TS.getNeighbor m rng (k + 2 * i) cur = some (bn, k + 2 * i + 2)) ∧
      ((∃ i c k1, i < m.numJobs ∧ TS.getNeighbor m rng (k + 2 * i) cur = some (c, k1) ∧
          c.makespan < cur.makespan) →
        ∃ i, i < m.numJobs ∧ TS.getNeighbor m rng (k + 2 * i) cur = some (bn, k + 2 * i + 2)) := by
  obtain ⟨⟨bn, k1⟩, hex, hk, hall, hle, hmem⟩ :=
    TS.exploreNeighbors_explored m hw rng cur hr hlen k
  simp only at hk hall hle hmem
  subst hk
  refine ⟨bn, hex, hall, hle, hmem, ?_⟩
  rintro ⟨i, c, k1, hi, hc, hlt⟩
  rcases hmem with h | h
  · obtain ⟨c2, hc2, hle2⟩ := hall i hi
    rw [hc] at hc2
    simp only [Option.some.injEq, Prod.mk.injEq] at hc2
    rw [← hc2.1, h] at hle2
    omega
  · exact h

/-- The amended C11 at the instance of `main`, the current schedule
`[1,2,0,1,2,0,1,2,0]` and the draws 0, 1, 2, 3, 4, 5. -/
theorem TS.exploreNeighbors_keeps_best_witness :
    mainModel.WellFormed ∧
      ∃ bn, TS.exploreNeighbors mainModel (draws [0, 1, 2, 3, 4, 5])
          ⟨[1, 2, 0, 1, 2, 0, 1, 2, 0], 34⟩ 0 = some (bn, 0 + 2 * mainModel.numJobs) ∧
        bn.makespan ≤ 34 := by
  obtain ⟨bn, h1, _, h2, _⟩ := TS.exploreNeighbors_keeps_best mainModel (by decide)
    (draws [0, 1, 2, 3, 4, 5]) ⟨[1, 2, 0, 1, 2, 0, 1, 2, 0], 34⟩ (by decide) (by decide) 0
  exact ⟨by decide, bn, h1, h2⟩

/-- C12: in one tabu-search iteration in which the exploration returns a
`bestNeighbor` whose schedule has the entries `a` and `b` at positions 0 and 1, the
iteration returns; if the tabu list contains neither `(a, b)` nor `(b, a)`, or
`bestNeighbor.makespan < bestSolution.makespan`, then `currentSolution` becomes
`bestNeighbor` and the tabu list is updated with the pair `(a, b)`, pushed at the
back; otherwise `currentSolution` and the tabu list are left as they were. -/
theorem TS.move_accepted_iff (m : Model) (rng : Nat → Nat) (st : TS.State) (bn : Solution)
    (k1 : Nat) (a b : Int)
    (hex : TS.exploreNeighbors m rng st.currentSolution st.calls = some (bn, k1))
    (h0 : vecGet bn.schedule 0 = some a) (h1 : vecGet bn.schedule 1 = some b) :
    ∃ st2, TS.iteration m rng st = some st2 ∧
      ((((a, b) ∉ st.tabuList ∧ (b, a) ∉ st.tabuList) ∨
          bn.makespan < st.bestSolution.makespan) →
        st2.currentSolution = bn ∧ st2.tabuList = TS.updateTabuList st.tabuList (a, b) ∧
          st2.tabuList.getLast? = some (a, b)) ∧
      (¬ (((a, b) ∉ st.tabuList ∧ (b, a) ∉ st.tabuList) ∨
          bn.makespan < st.bestSolution.makespan) →
        st2.currentSolution = st.currentSolution ∧ st2.tabuList = st.tabuList) := by
  have htabu := TS.isTabuLoop_eq bn.schedule a b h0 h1 st.tabuList
  simp only [TS.iteration, hex, htabu, Option.some_bind, h0, h1, Option.map_some']
  by_cases hc : ((a, b) ∉ st.tabuList ∧ (b, a) ∉ st.tabuList) ∨
      bn.makespan < st.bestSolution.makespan
  · have hcode : decide ((a, b) ∈ st.tabuList ∨ (b, a) ∈ st.tabuList) = false ∨
        bn.makespan < st.bestSolution.makespan := by
      rcases hc with h | h
      · left; simp only [decide_eq_false_iff_not, not_or]; exact h
      · right; exact h
    simp only [if_pos hcode, Option.map_some']
    refine ⟨_, rfl, fun _ => ⟨rfl, rfl, ?_⟩, fun h => absurd hc h⟩
    simp [TS.updateTabuList]
  · have hcode : ¬ (decide ((a, b) ∈ st.tabuList ∨ (b, a) ∈ st.tabuList) = false ∨
        bn.makespan < st.bestSolution.makespan) := by
      intro h
      apply hc
      rcases h with h | h
      · left; simpa only [decide_eq_false_iff_not, not_or] using h
      · right; exact h
    simp only [if_neg hcode, Option.map_some']
    exact ⟨_, rfl, fun h => absurd h hc, fun _ => ⟨rfl, rfl⟩⟩

/-- C12 at the instance of `main`: with the pair `(2, 1)` in the tabu list and a best
neighbour `[1,2,0,1,2,0,1,2,0]` that does not improve on the best makespan 34,
the move is not accepted. -/
theorem TS.move_accepted_iff_witness :
    ∃ st2, TS.iteration mainModel (draws [0, 1, 2, 3, 4, 5])
        ⟨⟨[1, 2, 0, 1, 2, 0, 1, 2, 0], 34⟩, ⟨[1, 2, 0, 1, 2, 0, 1, 2, 0], 34⟩, [(2, 1)], 0⟩
      = some st2 ∧ st2.currentSolution = ⟨[1, 2, 0, 1, 2, 0, 1, 2, 0], 34⟩ ∧
        st2.tabuList = [(2, 1)] := by
  obtain ⟨st2, h, _, hno⟩ := TS.move_accepted_iff mainModel (draws [0, 1, 2, 3, 4, 5])
    ⟨⟨[1, 2, 0, 1, 2, 0, 1, 2, 0], 34⟩, ⟨[1, 2, 0, 1, 2, 0, 1, 2, 0], 34⟩, [(2, 1)], 0⟩
    ⟨[1, 2, 0, 1, 2, 0, 1, 2, 0], 34⟩ 6 1 2 (by decide) (by decide) (by decide)
  exact ⟨st2, h, hno (by decide)⟩

/-- C13: the update of the tabu list is a bounded FIFO. An update of a list of at
most `TABU_TENURE` moves has at most `TABU_TENURE` moves, so from the empty list
the size never exceeds `TABU_TENURE`; the list after any pushes is the last
`TABU_TENURE` moves pushed, in order; after `TABU_TENURE + 1` moves it is the
moves without the first, and when the moves are pairwise distinct the first one
is no longer in it. -/
theorem tabuList_bounded_fifo :
    (∀ (tabuList : List (Int × Int)) (move : Int × Int), tabuList.length ≤ TS.TABU_TENURE →
        (TS.updateTabuList tabuList move).length ≤ TS.TABU_TENURE) ∧
      (∀ moves : List (Int × Int), (pushMoves [] moves).length ≤ TS.TABU_TENURE) ∧
      (∀ moves : List (Int × Int),
        pushMoves [] moves = moves.drop (moves.length - TS.TABU_TENURE)) ∧
      (∀ moves : List (Int × Int), moves.length = TS.TABU_TENURE + 1 →
        pushMoves [] moves = moves.tail) ∧
      (∀ (m0 : Int × Int) (rest : List (Int × Int)), rest.length = TS.TABU_TENURE →
        (m0 :: rest).Nodup → pushMoves [] (m0 :: rest) = rest ∧ m0 ∉ pushMoves [] (m0 :: rest)) := by
  have hT : TS.TABU_TENURE = 10 := rfl
  have heq : ∀ moves : List (Int × Int),
      pushMoves [] moves = moves.drop (moves.length - TS.TABU_TENURE) := by
    intro moves
    have h := pushMoves_eq moves [] (by simp)
    simpa using h
  refine ⟨TS.updateTabuList_length, fun moves => pushMoves_length moves [] (by simp), heq, ?_, ?_⟩
  · intro moves hlen
    rw [heq, hlen]
    simp
  · intro m0 rest hlen hnd
    have h : pushMoves [] (m0 :: rest) = rest := by
      rw [heq]
      simp [hlen]
    rw [h]
    exact ⟨rfl, (List.nodup_cons.1 hnd).1⟩

/-! ## The crossover of the genetic algorithm: the claims -/

/-- C14: for every two parents whose schedules are `numTasks` job indices,
`crossover` returns two offspring; when the crossover branch is taken, with the
cut point `c = rng() % numTasks` in `[0, numTasks)`, the first offspring's
schedule is `parent2.schedule[0..c) ++ parent1.schedule[c..numTasks)` and the
second one's is `parent1.schedule[0..c) ++ parent2.schedule[c..numTasks)`; when it
is not taken, the offspring have the schedules of the parents. -/
theorem GA.crossover_exchanges_heads (m : Model) (hw : m.WellFormed) (hj : 1 ≤ m.numJobs)
    (rng : Nat → Nat) (k : Nat) (parent1 parent2 : Solution)
    (hl1 : parent1.schedule.length = numTasks m) (hr1 : InRange m parent1.schedule)
    (hl2 : parent2.schedule.length = numTasks m) (hr2 : InRange m parent2.schedule) :
    ∃ o1 o2 k1, GA.crossover m rng k parent1 parent2 = some ((o1, o2), k1) ∧
      (GA.belowRate (rngCall rng k).1 GA.CROSSOVER_RATE →
        (rngCall rng (k + 1)).1 % numTasks m < numTasks m ∧
        o1.schedule = parent2.schedule.take ((rngCall rng (k + 1)).1 % numTasks m)
          ++ parent1.schedule.drop ((rngCall rng (k + 1)).1 % numTasks m) ∧
        o2.schedule = parent1.schedule.take ((rngCall rng (k + 1)).1 % numTasks m)
          ++ parent2.schedule.drop ((rngCall rng (k + 1)).1 % numTasks m)) ∧
      (¬ GA.belowRate (rngCall rng k).1 GA.CROSSOVER_RATE →
        o1.schedule = parent1.schedule ∧ o2.schedule = parent2.schedule) := by
  have hpos : 0 < numTasks m := Nat.mul_pos hj hw.2.1
  have hnt : numTasks m ≠ 0 := by omega
  by_cases hb : GA.belowRate (rngCall rng k).1 GA.CROSSOVER_RATE
  · have hc := Nat.mod_lt (rngCall rng (k + 1)).1 hpos
    have hloop := GA.crossoverLoop_take_drop parent1.schedule parent2.schedule
      ((rngCall rng (k + 1)).1 % numTasks m) (by omega) (by omega)
    obtain ⟨v1, hv1⟩ := calculateMakespan_isSome m _ hw
      (inRange_take_drop m parent1.schedule parent2.schedule
        ((rngCall rng (k + 1)).1 % numTasks m) hr1 hr2)
    obtain ⟨v2, hv2⟩ := calculateMakespan_isSome m _ hw
      (inRange_take_drop m parent2.schedule parent1.schedule
        ((rngCall rng (k + 1)).1 % numTasks m) hr2 hr1)
    refine ⟨⟨_, v1⟩, ⟨_, v2⟩, (rngCall rng (k + 1)).2, ?_, fun _ => ⟨hc, rfl, rfl⟩,
      fun h => absurd hb h⟩
    have hk : (rngCall rng k).2 = k + 1 := rfl
    simp only [GA.crossover, if_pos hb, if_neg hnt, hk, hloop, Option.map_some',
      Option.some_bind, hv1, hv2]
  · obtain ⟨v1, hv1⟩ := calculateMakespan_isSome m _ hw hr1
    obtain ⟨v2, hv2⟩ := calculateMakespan_isSome m _ hw hr2
    refine ⟨⟨parent1.schedule, v1⟩, ⟨parent2.schedule, v2⟩, (rngCall rng k).2, ?_,
      fun h => absurd h hb, fun _ => ⟨rfl, rfl⟩⟩
    simp only [GA.crossover, if_neg hb, Option.some_bind, hv1, hv2, Option.map_some']

/-- C14 at the instance of `main`, the parents `[0,0,0,1,1,1,2,2,2]` and
`[2,0,1,0,1,2,1,0,2]` and the draws 0 (the branch is taken) and 5 (the cut). -/
theorem GA.crossover_exchanges_heads_witness :
    mainModel.WellFormed ∧ GA.belowRate (rngCall (draws [0, 5]) 0).1 GA.CROSSOVER_RATE ∧
      ∃ o1 o2 k1, GA.crossover mainModel (draws [0, 5]) 0 ⟨[0, 0, 0, 1, 1, 1, 2, 2, 2], 64⟩
          ⟨[2, 0, 1, 0, 1, 2, 1, 0, 2], 38⟩ = some ((o1, o2), k1) ∧
        o1.schedule = [2, 0, 1, 0, 1] ++ [1, 2, 2, 2] ∧
        o2.schedule = [0, 0, 0, 1, 1] ++ [2, 1, 0, 2] := by
  obtain ⟨o1, o2, k1, h, hyes, _⟩ := GA.crossover_exchanges_heads mainModel (by decide)
    (by decide) (draws [0, 5]) 0 ⟨[0, 0, 0, 1, 1, 1, 2, 2, 2], 64⟩ ⟨[2, 0, 1, 0, 1, 2, 1, 0, 2], 38⟩
    (by decide) (by decide) (by decide) (by decide)
  have hb : GA.belowRate (rngCall (draws [0, 5]) 0).1 GA.CROSSOVER_RATE := by decide!
  exact ⟨by decide, hb, o1, o2, k1, h, (hyes hb).2⟩

/-- C15: on the instance of `main`, the parents `[0,0,0,1,1,1,2,2,2]` and
`[2,0,1,0,1,2,1,0,2]` are both valid schedules, and `crossover` with the cut point 5
returns the offspring `[2,0,1,0,1,1,2,2,2]` and `[0,0,0,1,1,2,1,0,2]`, neither of
which is a valid schedule: job 0 occurs twice in the first and four times in the
second. -/
theorem GA.crossover_breaks_schedule :
    ValidSchedule mainModel [0, 0, 0, 1, 1, 1, 2, 2, 2] ∧
      ValidSchedule mainModel [2, 0, 1, 0, 1, 2, 1, 0, 2] ∧
      5 < numTasks mainModel ∧
      GA.crossover mainModel (draws [0, 5]) 0 ⟨[0, 0, 0, 1, 1, 1, 2, 2, 2], 64⟩
          ⟨[2, 0, 1, 0, 1, 2, 1, 0, 2], 38⟩
        = some ((⟨[2, 0, 1, 0, 1, 1, 2, 2, 2], 55⟩, ⟨[0, 0, 0, 1, 1, 2, 1, 0, 2], 47⟩), 2) ∧
      ¬ ValidSchedule mainModel [2, 0, 1, 0, 1, 1, 2, 2, 2] ∧
      ¬ ValidSchedule mainModel [0, 0, 0, 1, 1, 2, 1, 0, 2] ∧
      ([2, 0, 1, 0, 1, 1, 2, 2, 2] : List Int).count 0 = 2 ∧
      ([0, 0, 0, 1, 1, 2, 1, 0, 2] : List Int).count 0 = 4 := by
  refine ⟨by decide, by decide, by decide, by decide!, by decide, by decide, by decide,
    by decide⟩

/-- C16: on the instance of `main` started with `rng_seed = 1700014050`, the first
ant is built from call 8 of `randomInt` on (the eight calls before it are those of
`customShuffle`). Its first draw is 2378 and selects job 0; its second draw is 0, so
`r = 0`, and the roulette loop stops at job 0 again (`0 <= 0 + 0`) although jobs 1
and 2 are still unvisited: the ant's schedule starts `[0, 0]`. For every draw other
than 0, with positive pheromone values and some job unvisited, the selected job is
an unvisited one. -/
theorem ACO.visited_job_selected_again :
    ACO.generateInitialSolution mainModel (lcgStream 1700014050) 0
        = some (⟨[2, 2, 1, 1, 2, 0, 0, 0, 1], 56⟩, 8) ∧
      randomInt (lcgStream 1700014050) 8 10000 = (2378, 9) ∧
      randomInt (lcgStream 1700014050) 9 10000 = (0, 10) ∧
      (ACO.antStep mainModel (ACO.initialPheromone mainModel) (lcgStream 1700014050)
          ⟨[], [false, false, false], 8⟩).map (fun a => (a.schedule, a.visited, a.calls))
        = some ([0], [true, false, false], 9) ∧
      (ACO.antStep mainModel (ACO.initialPheromone mainModel) (lcgStream 1700014050)
          ⟨[0], [true, false, false], 9⟩).map (fun a => (a.schedule, a.visited, a.calls))
        = some ([0, 0], [true, false, false], 10) ∧
      ACO.generateAntSolution mainModel (ACO.initialPheromone mainModel)
          (lcgStream 1700014050) 8
        = some (⟨[0, 0, 1, 2, 0, 0, 0, 0, 0], 52⟩, 17) ∧
      ∀ (m : Model) (pheromone : List (List ℚ)) (rng : Nat → Nat) (a : ACO.Ant) (u : Nat),
        m.WellFormed → m.NonNegDurations → PheromoneOK m pheromone →
        (∀ row ∈ pheromone, ∀ x ∈ row, 0 < x) →
        a.schedule.length < numTasks m → a.visited.length = m.numJobs →
        vecGet a.visited (u : Int) = some false → (randomInt rng a.calls 10000).1 ≠ 0 →
        ∃ a2 nextJob, ACO.antStep m pheromone rng a = some a2 ∧
          a2.schedule = a.schedule ++ [nextJob] ∧ vecGet a.visited nextJob = some false ∧
          vecGet a2.visited nextJob = some true := by
  refine ⟨by decide!, by decide!, by decide!, by decide!, by decide!, by decide!, ?_⟩
  intro m pheromone rng a u hw hd hph hpos hsize hvis hu hdraw
  exact ACO.antStep_selects_unvisited m hw hd pheromone hph hpos rng a hsize hvis u hu hdraw

/-- C18: `customShuffle` of the ACO program as a function of its draws, on a vector
of `n` pairwise distinct elements. It always returns, after `n - 1` calls of
`randomInt`, with a permutation of the vector. Two runs with the same result made
the same draws `j_i = randomInt(i + 1)` at every pass, so for draw sequences
`(j_{n-1}, ..., j_1)` with `0 <= j_i <= i` the map to the resulting arrangement
is injective; and every permutation of the vector is the result of such a draw
sequence. Each arrangement thus comes from exactly one draw sequence. -/
theorem customShuffle_bijective (vec : List Int) (hnd : vec.Nodup) :
    (∀ (rng : Nat → Nat) (k : Nat),
        ∃ w, customShuffle rng vec k = some (w, k + (vec.length - 1)) ∧ w.Perm vec) ∧
      (∀ (rng rng' : Nat → Nat) (k k' : Nat) (w : List Int) (c c' : Nat),
        customShuffle rng vec k = some (w, c) → customShuffle rng' vec k' = some (w, c') →
          ∀ t, t < vec.length - 1 →
            (randomInt rng (k + t) (vec.length - t)).1
              = (randomInt rng' (k' + t) (vec.length - t)).1) ∧
      (∀ ds ds' : List Nat, ShuffleDraws vec.length ds → ShuffleDraws vec.length ds' →
        customShuffle (draws ds) vec 0 = customShuffle (draws ds') vec 0 → ds = ds') ∧
      (∀ w : List Int, w.Perm vec →
        ∃ ds : List Nat, ShuffleDraws vec.length ds ∧
          customShuffle (draws ds) vec 0 = some (w, vec.length - 1) ∧
          ∀ ds' : List Nat, ShuffleDraws vec.length ds' →
            customShuffle (draws ds') vec 0 = some (w, vec.length - 1) → ds' = ds) := by
  have hinj : ∀ (rng rng' : Nat → Nat) (k k' : Nat) (w : List Int) (c c' : Nat),
      customShuffle rng vec k = some (w, c) → customShuffle rng' vec k' = some (w, c') →
        ∀ t, t < vec.length - 1 →
          (randomInt rng (k + t) (vec.length - t)).1
            = (randomInt rng' (k' + t) (vec.length - t)).1 := by
    intro rng rng' k k' w c c' h h' t ht
    have := customShuffleLoop_inj (vec.length - 1) vec hnd rng rng' k k' w c c' h h' t ht
    have e : vec.length - 1 + 1 - t = vec.length - t := by omega
    rw [e] at this
    exact this
  have hdraws : ∀ ds ds' : List Nat, ShuffleDraws vec.length ds → ShuffleDraws vec.length ds' →
      customShuffle (draws ds) vec 0 = customShuffle (draws ds') vec 0 → ds = ds' := by
    intro ds ds' hds hds' he
    obtain ⟨w, k1, hrun, _⟩ := customShuffle_perm (draws ds) vec 0
    have hrun' : customShuffle (draws ds') vec 0 = some (w, k1) := by rw [← he, hrun]
    apply List.ext_getElem (by rw [hds.1, hds'.1])
    intro t h1 h2
    have ht : t < vec.length - 1 := by rw [← hds.1]; exact h1
    have := hinj (draws ds) (draws ds') 0 0 w k1 k1 hrun hrun' t ht
    simp only [randomInt, Nat.zero_add, draws] at this
    have b1 := hds.2 t ht
    have b2 := hds'.2 t ht
    rw [Nat.mod_eq_of_lt (by omega), Nat.mod_eq_of_lt (by omega)] at this
    rw [List.getD_eq_getElem _ _ h1, List.getD_eq_getElem _ _ h2] at this
    exact this
  refine ⟨?_, hinj, hdraws, ?_⟩
  · intro rng k
    obtain ⟨w, k1, hrun, hp⟩ := customShuffle_perm rng vec k
    obtain ⟨hk, _, _⟩ := customShuffleLoop_frame rng _ vec w k k1 hrun
    rw [hk] at hrun
    exact ⟨w, hrun, hp⟩
  · intro w hp
    by_cases hv : vec = []
    · subst hv
      refine ⟨[], ⟨rfl, fun t ht => by simp at ht⟩, ?_, ?_⟩
      · rw [hp.eq_nil]
        rfl
      · intro ds' hds' _
        exact List.eq_nil_of_length_eq_zero hds'.1
    · have hpos : 0 < vec.length := List.length_pos.2 hv
      obtain ⟨ds, hlen, hb, hrun⟩ := customShuffleLoop_surj (vec.length - 1) vec hnd (by omega) w hp
        (fun p hpp => by
          rw [List.getElem?_eq_none (by rw [hp.length_eq]; omega),
            List.getElem?_eq_none (by omega)])
      refine ⟨ds, ⟨hlen, hb⟩, hrun, ?_⟩
      intro ds' hds' hrun'
      exact hdraws ds' ds hds' ⟨hlen, hb⟩ (by rw [hrun']; exact hrun.symm)

/-- C18, on the vector `[0, 1, 2]`. -/
theorem customShuffle_bijective_witness :
    ([0, 1, 2] : List Int).Nodup ∧
      ∀ w : List Int, w.Perm [0, 1, 2] →
        ∃ ds : List Nat, ShuffleDraws 3 ds ∧
          customShuffle (draws ds) [0, 1, 2] 0 = some (w, 2) ∧
          ∀ ds' : List Nat, ShuffleDraws 3 ds' →
            customShuffle (draws ds') [0, 1, 2] 0 = some (w, 2) → ds' = ds :=
  ⟨by decide, (customShuffle_bijective [0, 1, 2] (by decide)).2.2.2⟩

/-- C19 (as stated, refuted): on the model of one job with two operations of
duration 2000000000 on machines 0 and 1, which is well formed with non-negative
durations, `calculateMakespan` of the single-entry schedule `[0]`, in 32-bit `int`
arithmetic, returns 2000000000, while the durations of job 0 add up to
4000000000. -/
theorem ACO.heuristic_wraps :
    longJob.WellFormed ∧ longJob.NonNegDurations ∧ 0 < longJob.numJobs ∧
      Wrapped.calculateMakespan longJob [((0 : Nat) : Int)] = some 2000000000 ∧
      jobDuration longJob 0 = 4000000000 := by
  decide

/-- C19 (amended): for a well-formed model (machine ids in `[0, numMachines)`, at
least one machine) with non-negative durations and a job `j` in `[0, numJobs)` whose
durations add up to less than `INT_MAX`, `calculateMakespan` of the single-entry
schedule `[j]`, in 32-bit `int` arithmetic, returns the sum of the durations of all
operations of job `j`, and adding 1 to it does not overflow; the quotient
`1.0 / (calculateMakespan(singleJob) + 1)` of `generateAntSolution` is therefore
`1 / (sum of the durations of j + 1)`, and the scoring loop gives an unvisited job
`j` the score `pheromone ^ ALPHA * (1 / (sum of the durations of j + 1)) ^ BETA`. -/
theorem ACO.heuristic_is_job_alone (m : Model) (hw : m.WellFormed) (hd : m.NonNegDurations)
    (j : Nat) (hj : j < m.numJobs) (hfit : jobDuration m j < INT_MAX) :
    Wrapped.calculateMakespan m [(j : Int)] = some (jobDuration m j) ∧
      wrapInt (jobDuration m j + 1) = jobDuration m j + 1 ∧
      calculateMakespan m [(j : Int)] = some (jobDuration m j) ∧
      ((calculateMakespan m [(j : Int)]).bind fun mk => ACO.divide 1 (((mk + 1 : Int) : ℚ)))
        = some (1 / ((jobDuration m j : ℚ) + 1)) ∧
      ∀ (pheromone : List (List ℚ)) (visited : List Bool) (size : Nat) (row : List ℚ) (ph : ℚ)
        (s : ACO.Scores),
        vecGet visited (j : Int) = some false → vecGet pheromone (size : Int) = some row →
        vecGet row (j : Int) = some ph → j < s.probabilities.length →
        ACO.scoreStep m pheromone visited size j s
          = some { probabilities :=
                     s.probabilities.set j
                       (ph ^ ACO.ALPHA * (1 / ((jobDuration m j : ℚ) + 1)) ^ ACO.BETA),
                   sumProbabilities :=
                     s.sumProbabilities
                       + ph ^ ACO.ALPHA * (1 / ((jobDuration m j : ℚ) + 1)) ^ ACO.BETA } := by
  obtain ⟨h1, h2, h3⟩ := ACO.exact_heuristic m hw hd j hj
  have hjr : 0 ≤ (j : Int) ∧ (j : Int) < m.numJobs := ⟨by omega, by omega⟩
  have hnn : 0 ≤ jobDuration m j := by
    unfold jobDuration
    rw [← jobsOf_natCast]
    exact durations_nonneg _ (fun t ht => hd _ (jobsOf_mem m hw (j : Int) hjr).2 t ht)
  have hwork : dispatchedWork m [(j : Int)] = jobDuration m j := by
    simp only [dispatchedWork, List.map_cons, List.map_nil, List.sum_cons, List.sum_nil,
      add_zero]
    rw [taskWork_of_nonneg _ (fun t ht => hd _ (jobsOf_mem m hw (j : Int) hjr).2 t ht),
      jobsOf_natCast]
    rfl
  unfold INT_MAX at hfit
  refine ⟨?_, wrapInt_of_fits _ (by omega) (by omega), h1, h2, h3⟩
  rw [calculateMakespan_wrapped_eq m _ (by rw [hwork]; unfold INT_MAX; omega)]
  exact h1

/-- C19 (amended), on the instance of `main` and job 0, whose durations are 3, 2
and 2. -/
theorem ACO.heuristic_is_job_alone_witness :
    mainModel.WellFormed ∧ mainModel.NonNegDurations ∧ 0 < mainModel.numJobs ∧
      jobDuration mainModel 0 < INT_MAX ∧ jobDuration mainModel 0 = 7 ∧
      Wrapped.calculateMakespan mainModel [((0 : Nat) : Int)]
        = some (jobDuration mainModel 0) :=
  ⟨by decide, by decide, by decide, by decide, by decide,
    (ACO.heuristic_is_job_alone mainModel (by decide) (by decide) 0 (by decide)
      (by decide)).1⟩

/-- C20 (as stated, refuted): on the model of one job with one operation of
duration 2000000000 on one machine, which is well formed with non-negative
durations, `calculateMakespan`, in 32-bit `int` arithmetic, returns 2000000000 on
`[0]` and -294967296 on the extension `[0] ++ [0]`. -/
theorem calculateMakespan_wraps_under_extension :
    longTask.WellFormed ∧ longTask.NonNegDurations ∧ InRange longTask [0] ∧
      Wrapped.calculateMakespan longTask [0] = some 2000000000 ∧
      Wrapped.calculateMakespan longTask ([0] ++ [0]) = some (-294967296) := by
  decide

/-- C20 (amended): for a well-formed model with non-negative durations and schedules
`s` and `t` with entries in `[0, numJobs)` such that the work dispatched by `s ++ t`
(the durations of all the operations of the job of every entry, added up) is at
most `INT_MAX`, `calculateMakespan`, in 32-bit `int` arithmetic, returns on `s` and
on `s ++ t`, the value on `s ++ t` is at least the value on `s` (which is at least
0), the walk over `s ++ t` is the walk over `t` continued from the clock left by
`s`, and on the way no `machineTime` and no `jobTime` entry decreases;
`calculateMakespan` of the empty schedule is 0. -/
theorem calculateMakespan_monotone (m : Model) (hw : m.WellFormed) (hd : m.NonNegDurations)
    (s t : List Int) (hs : InRange m s) (ht : InRange m t)
    (hfit : dispatchedWork m (s ++ t) ≤ INT_MAX) :
    Wrapped.calculateMakespan m [] = some 0 ∧
      ∃ c c2 v v2, Wrapped.scheduleLoop m s (Clock.init m) = some c ∧
        Wrapped.scheduleLoop m t c = some c2 ∧
        Wrapped.scheduleLoop m (s ++ t) (Clock.init m) = some c2 ∧
        Wrapped.calculateMakespan m s = some v ∧
        Wrapped.calculateMakespan m (s ++ t) = some v2 ∧
        0 ≤ v ∧ v ≤ v2 ∧
        (∀ k : Nat, k < m.numMachines → ∃ x y, vecGet c.machineTime (k : Int) = some x ∧
          vecGet c2.machineTime (k : Int) = some y ∧ 0 ≤ x ∧ x ≤ y) ∧
        (∀ j : Nat, j < m.numJobs → ∃ x y, vecGet c.jobTime (j : Int) = some x ∧
          vecGet c2.jobTime (j : Int) = some y ∧ 0 ≤ x ∧ x ≤ y) := by
  obtain ⟨h0, c, c2, v, v2, hc, hc2, hck, hv, hv2, hv0, hle, hmt, hjt⟩ :=
    exact_monotone m hw hd s t hs ht
  have hws := dispatchedWork_nonneg m s
  have hwt := dispatchedWork_nonneg m t
  rw [dispatchedWork_append] at hfit
  have hfit2 : dispatchedWork m (s ++ t) ≤ INT_MAX := by rw [dispatchedWork_append]; exact hfit
  obtain ⟨e1, hin⟩ := scheduleLoop_wrapped_eq m s (Clock.init m) 0 (within_init m) (by omega)
  obtain ⟨e2, _⟩ := scheduleLoop_wrapped_eq m t c (0 + dispatchedWork m s) (hin c hc)
    (by omega)
  obtain ⟨e3, _⟩ := scheduleLoop_wrapped_eq m (s ++ t) (Clock.init m) 0 (within_init m)
    (by omega)
  refine ⟨?_, c, c2, v, v2, by rw [e1]; exact hc, by rw [e2]; exact hc2,
    by rw [e3]; exact hck, ?_, ?_, hv0, hle, hmt, hjt⟩
  · rw [calculateMakespan_wrapped_eq m [] (by unfold INT_MAX; simp [dispatchedWork])]
    exact h0
  · rw [calculateMakespan_wrapped_eq m s (by omega)]
    exact hv
  · rw [calculateMakespan_wrapped_eq m (s ++ t) hfit2]
    exact hv2

/-- C20 (amended), on the instance of `main`: extending `[0, 1]` (makespan 11) by
`[2, 0]` (makespan 17). -/
theorem calculateMakespan_monotone_witness :
    mainModel.WellFormed ∧ mainModel.NonNegDurations ∧ InRange mainModel [0, 1] ∧
      InRange mainModel [2, 0] ∧ dispatchedWork mainModel ([0, 1] ++ [2, 0]) ≤ INT_MAX ∧
      Wrapped.calculateMakespan mainModel [0, 1] = some 11 ∧
      Wrapped.calculateMakespan mainModel ([0, 1] ++ [2, 0]) = some 17 ∧
      Wrapped.calculateMakespan mainModel [] = some 0 :=
  ⟨by decide, by decide, by decide, by decide, by decide, by decide, by decide,
    (calculateMakespan_monotone mainModel (by decide) (by decide) [0, 1] [2, 0] (by decide)
      (by decide) (by decide)).1⟩

/-- C21: in `tabuSearch`, an iteration started with
`currentSolution.makespan == bestSolution.makespan` ends with a `currentSolution`
whose makespan is at most the one it started with and equal to that of the new
`bestSolution`. For a well-formed model with at least two schedule positions, a
shuffle and draws of any kind, the initial solution is generated, every iteration
returns, and after any number `n` of iterations the makespan of `currentSolution`
equals that of `bestSolution`, is at most what it was before iteration `n`, and is
at most the makespan of the initial solution. -/
theorem TS.current_never_worsens (m : Model) (hw : m.WellFormed)
    (ht : 2 ≤ m.numJobs * m.numMachines) (sh : StdShuffle) (engine rng : Nat → Nat) :
    (∀ st st2, TS.iteration m rng st = some st2 →
        st.currentSolution.makespan = st.bestSolution.makespan →
        st2.currentSolution.makespan ≤ st.currentSolution.makespan ∧
          st2.currentSolution.makespan = st2.bestSolution.makespan) ∧
      ∃ seed, TS.generateInitialSolution m sh engine = some seed ∧
        ∀ n, ∃ st st2, TS.run m rng n (TS.State.init seed 0) = some st ∧
          TS.iteration m rng st = some st2 ∧
          TS.run m rng (n + 1) (TS.State.init seed 0) = some st2 ∧
          st.currentSolution.makespan = st.bestSolution.makespan ∧
          st2.currentSolution.makespan ≤ st.currentSolution.makespan ∧
          st2.currentSolution.makespan = st2.bestSolution.makespan ∧
          st2.currentSolution.makespan ≤ seed.makespan := by
  refine ⟨fun st st2 h heq => TS.iteration_current m rng st st2 h heq, ?_⟩
  obtain ⟨seed, hseed, hvalid, hcons⟩ := TS.generateInitialSolution_spec_ts m hw sh engine
  refine ⟨seed, hseed, ?_⟩
  intro n
  have hinit : TS.Inv m (TS.State.init seed 0) := ⟨⟨hvalid, hcons⟩, ⟨hvalid, hcons⟩⟩
  obtain ⟨st, hrun, hinv, _⟩ := TS.run_spec_ts m hw ht rng n _ hinit
  obtain ⟨st2, hit, _, _⟩ := TS.iteration_spec_ts m hw ht rng st hinv
  obtain ⟨h1, h2⟩ := TS.run_current m rng n _ st hrun rfl
  obtain ⟨h3, h4⟩ := TS.iteration_current m rng st st2 hit h1
  refine ⟨st, st2, hrun, hit, ?_, h1, h3, h4, le_trans h3 h2⟩
  show (TS.run m rng n (TS.State.init seed 0)).bind (TS.iteration m rng) = some st2
  rw [hrun]
  exact hit

/-- C21, on the instance of `main` with an identity shuffle and the draws of the
stream seeded with 42. -/
theorem TS.current_never_worsens_witness :
    mainModel.WellFormed ∧ 2 ≤ mainModel.numJobs * mainModel.numMachines ∧
      ∃ seed, TS.generateInitialSolution mainModel StdShuffle.identity (lcgStream 42)
          = some seed ∧
        ∀ n, ∃ st st2, TS.run mainModel (lcgStream 42) n (TS.State.init seed 0) = some st ∧
          TS.iteration mainModel (lcgStream 42) st = some st2 ∧
          TS.run mainModel (lcgStream 42) (n + 1) (TS.State.init seed 0) = some st2 ∧
          st.currentSolution.makespan = st.bestSolution.makespan ∧
          st2.currentSolution.makespan ≤ st.currentSolution.makespan ∧
          st2.currentSolution.makespan = st2.bestSolution.makespan ∧
          st2.currentSolution.makespan ≤ seed.makespan :=
  ⟨by decide, by decide,
    (TS.current_never_worsens mainModel (by decide) (by decide) StdShuffle.identity
      (lcgStream 42) (lcgStream 42)).2⟩

end JobShop
